import Mathlib

/-!
# Lennard-Jones potential sweep (`LennardJones.c`)

A shallow embedding of `LennardJones.c`: the IEEE-754 values the program computes
with, its `lennard_jones` function and the sweep loop of `main`.

Floating-point values are modelled as exact numbers of an ordered field `K`
together with the three special values.  Every arithmetic operation computes the
exact result and hands it to a rounding function, so the same definitions give

* the arithmetic of the program (`Arith.ieee`: binary32 for `float`, binary64 for
  `double`, round to nearest, ties to even, with overflow and underflow), and
* exact arithmetic (`Arith.exact`, no rounding), which the program does not run on and
  which only serves for comparison.

What the program returns is stated for `Arith.ieee`.  The formula of the specification,
`specPotential`, is the exact expression the computed value is compared with.

The two zeros of IEEE-754 are identified (the zero of the model is `+0`): the
program compares with `<`, which does not tell them apart, and the only division
feeds the even powers 12 and 6.

Three functions of the C library are called by the program and are not part of it:

* `atof`: `main` is given the `double` it returns;
* `pow`: modelled for the natural exponents the program uses, with the special
  values of the C standard and the finite result rounded like every other operation;
* `printf`: the output is the list of calls (format string and arguments); the text
  of a call is obtained from the format string with the renderings of the
  conversions `%f` and `%E` as a parameter.

The promotion of a `float` to `double` (the arguments of `lennard_jones` and of
`printf`) leaves the value unchanged and is not written out.
-/

namespace LennardJones

/-! ## Floating-point values -/

/-- An IEEE-754 value: a finite number, one of the two infinities, or NaN. -/
inductive Fp (K : Type) where
  | fin (x : K)
  | pinf
  | ninf
  | nan
  deriving DecidableEq, Repr

namespace Fp

variable {K : Type} [LinearOrderedField K]

/-- Unary minus (exact in every format). -/
def neg : Fp K → Fp K
  | fin x => fin (-x)
  | pinf => ninf
  | ninf => pinf
  | nan => nan

/-- The comparison `a < b` of C: false as soon as one side is NaN. -/
def lt : Fp K → Fp K → Bool
  | fin x, fin y => decide (x < y)
  | fin _, pinf => true
  | ninf, fin _ => true
  | ninf, pinf => true
  | _, _ => false

/-- Conversion to another format: finite values are rounded, special values kept. -/
def cast (rnd : K → Fp K) : Fp K → Fp K
  | fin x => rnd x
  | pinf => pinf
  | ninf => ninf
  | nan => nan

/-- Addition `a + b`, the finite result rounded by `rnd`. -/
def add (rnd : K → Fp K) : Fp K → Fp K → Fp K
  | fin x, fin y => rnd (x + y)
  | fin _, pinf => pinf
  | fin _, ninf => ninf
  | pinf, fin _ => pinf
  | pinf, pinf => pinf
  | ninf, fin _ => ninf
  | ninf, ninf => ninf
  | _, _ => nan

/-- Subtraction `a - b`. -/
def sub (rnd : K → Fp K) (a b : Fp K) : Fp K :=
  add rnd a (neg b)

/-- The infinity with the sign of the finite number `x`, NaN for `x = 0`
(an infinity times zero). -/
def infTimes (x : K) : Fp K :=
  if 0 < x then pinf else if x < 0 then ninf else nan

/-- Multiplication `a * b`, the finite result rounded by `rnd`. -/
def mul (rnd : K → Fp K) : Fp K → Fp K → Fp K
  | fin x, fin y => rnd (x * y)
  | fin x, pinf => infTimes x
  | fin x, ninf => infTimes (-x)
  | pinf, fin y => infTimes y
  | ninf, fin y => infTimes (-y)
  | pinf, pinf => pinf
  | ninf, ninf => pinf
  | pinf, ninf => ninf
  | ninf, pinf => ninf
  | _, _ => nan

/-- Division `a / b`, the finite result rounded by `rnd`.  A nonzero finite number
divided by zero is the infinity of its sign, `0 / 0` is NaN, a finite number
divided by an infinity is zero. -/
def div (rnd : K → Fp K) : Fp K → Fp K → Fp K
  | fin x, fin y => if y = 0 then infTimes x else rnd (x / y)
  | fin _, pinf => fin 0
  | fin _, ninf => fin 0
  | pinf, fin y => if 0 ≤ y then pinf else ninf
  | ninf, fin y => if 0 ≤ y then ninf else pinf
  | _, _ => nan

/-- The C library call `pow(x, n)` for a natural exponent `n`: `pow(x, 0)` is 1 for
every `x`, an infinity raised to a positive power is an infinity (negative only for
`-inf` and odd `n`), NaN is propagated. -/
def pow (rnd : K → Fp K) (x : Fp K) (n : ℕ) : Fp K :=
  if n = 0 then fin 1 else
    match x with
    | fin x => rnd (x ^ n)
    | pinf => pinf
    | ninf => if n % 2 = 0 then pinf else ninf
    | nan => nan

end Fp

/-! ## Rounding -/

section Rounding

variable {K : Type} [LinearOrderedField K] [FloorRing K]

/-- The integer nearest to `x`, the even one of the two when `x` is half-way. -/
def roundHalfEven (x : K) : ℤ :=
  if x - ⌊x⌋ < 1 / 2 then ⌊x⌋
  else if 1 / 2 < x - ⌊x⌋ then ⌊x⌋ + 1
  else if ⌊x⌋ % 2 = 0 then ⌊x⌋ else ⌊x⌋ + 1

/-- Rounding to the binary format with `p` significand bits, least exponent of a
last place `emin` and overflow threshold `2 ^ emax`: round to nearest, ties to
even, gradual underflow, overflow to the infinity of the sign. -/
def roundTo (p : ℕ) (emin emax : ℤ) (x : K) : Fp K :=
  if x = 0 then Fp.fin 0
  else
    let q : ℤ := max (Int.log 2 |x| - (p - 1)) emin
    let y : K := (roundHalfEven (x / 2 ^ q) : K) * 2 ^ q
    if (2 : K) ^ emax ≤ |y| then (if 0 < x then Fp.pinf else Fp.ninf) else Fp.fin y

/-- Rounding to `float` (binary32). -/
def toFloat32 (x : K) : Fp K := roundTo 24 (-149) 128 x

/-- Rounding to `double` (binary64). -/
def toFloat64 (x : K) : Fp K := roundTo 53 (-1074) 1024 x

end Rounding

/-- The arithmetic the program runs on: how an exact result becomes a `float`
and how it becomes a `double`. -/
structure Arith (K : Type) where
  toFloat : K → Fp K
  toDouble : K → Fp K

/-- Exact arithmetic: no result is rounded. -/
def Arith.exact {K : Type} : Arith K := ⟨Fp.fin, Fp.fin⟩

/-- IEEE-754 arithmetic: `float` is binary32 and `double` is binary64. -/
def Arith.ieee {K : Type} [LinearOrderedField K] [FloorRing K] : Arith K :=
  ⟨toFloat32, toFloat64⟩

/-! ## Output -/

section Output

variable {K : Type}

/-- A call of `printf`: the format string and the floating-point arguments. -/
structure PrintfCall (K : Type) where
  fmt : String
  args : List (Fp K)
  deriving DecidableEq, Repr

/-- The text a `printf` call writes: the characters of the format, each conversion
`%c` replaced by the C library's rendering `conv c a` of the next argument `a`. -/
def renderAux (conv : Char → Fp K → String) : List Char → List (Fp K) → String
  | [], _ => ""
  | [ch], _ => String.singleton ch
  | ch :: c :: fmt, [] => String.singleton ch ++ renderAux conv (c :: fmt) []
  | ch :: c :: fmt, a :: args =>
    if ch = '%' then conv c a ++ renderAux conv fmt args
    else String.singleton ch ++ renderAux conv (c :: fmt) (a :: args)

/-- The text written by a `printf` call. -/
def PrintfCall.render (conv : Char → Fp K → String) (c : PrintfCall K) : String :=
  renderAux conv c.fmt.toList c.args

/-- The call `printf("Lennard-Jones Potential\n")`. -/
def headerCall : PrintfCall K :=
  ⟨"Lennard-Jones Potential\n", []⟩

/-- The call `printf("r = %f Angstrom, V_lg = %E kJ/mol\n", i, lennard_jones(i))`. -/
def dataCall (i V : Fp K) : PrintfCall K :=
  ⟨"r = %f Angstrom, V_lg = %E kJ/mol\n", [i, V]⟩

end Output

/-! ## The program -/

section Program

variable {K : Type} [LinearOrderedField K]

/-- The initialiser `float epsilon = 19.8;`: the `double` constant converted to
`float`. -/
def epsilon : Fp ℚ := Fp.cast toFloat32 (toFloat64 (198 / 10))

/-- The initialiser `float sigma = 3.38;`. -/
def sigma : Fp ℚ := Fp.cast toFloat32 (toFloat64 (338 / 100))

/-- The function `lennard_jones` of the source, the globals `epsilon` and `sigma` it
reads passed explicitly:
`4*epsilon*(pow((sigma / r), 12) - pow((sigma / r), 6))`.
The product `4*epsilon` is a `float` product, everything else is computed in
`double`. -/
def lennard_jones (A : Arith K) (epsilon sigma : Fp K) (r : Fp K) : Fp K :=
  Fp.mul A.toDouble (Fp.mul A.toFloat (Fp.fin 4) epsilon)
    (Fp.sub A.toDouble (Fp.pow A.toDouble (Fp.div A.toDouble sigma r) 12)
      (Fp.pow A.toDouble (Fp.div A.toDouble sigma r) 6))

/-- The formula of the specification (section 4.1),
`V = 4 * epsilon * ((sigma/r)^12 - (sigma/r)^6)`, on exact numbers.  This is not the
source: it is the value the results of `lennard_jones` are compared with. -/
def specPotential (epsilon sigma r : K) : K :=
  4 * epsilon * ((sigma / r) ^ 12 - (sigma / r) ^ 6)

/-- The loop `for(float i = -r; i < r; i++) printf(...)` of `main`, resumed with
counter `i` and the calls `out` made so far.  `none`: the loop is still running
after `fuel` tests of its condition; `some out`: the condition failed and `out` is
everything written.  The increment `i++` is a `float` addition of 1. -/
def sweep (A : Arith K) (epsilon sigma r : Fp K) :
    ℕ → Fp K → List (PrintfCall K) → Option (List (PrintfCall K))
  | 0, _, _ => none
  | fuel + 1, i, out =>
    if Fp.lt i r then
      sweep A epsilon sigma r fuel (Fp.add A.toFloat i (Fp.fin 1))
        (out ++ [dataCall i (lennard_jones A epsilon sigma i)])
    else some out

/-- The function `main` of the source, given the `double` that `atof(argv[1])`
returns: the assignment to the `float` global `r`, the header, the sweep from
`-r`, and the exit status 0.  The result is the list of `printf` calls in the order
they are made, with the exit status. -/
def main (A : Arith K) (epsilon sigma : Fp K) (arg : Fp K) (fuel : ℕ) :
    Option (List (PrintfCall K) × ℤ) :=
  let r := Fp.cast A.toFloat arg
  (sweep A epsilon sigma r fuel (Fp.neg r) [headerCall]).map fun out => (out, 0)

/-- The arithmetic of the specification's reading "double precision throughout": what
the source holds in `float` is held in `double`. -/
def Arith.widened (A : Arith K) : Arith K := ⟨A.toDouble, A.toDouble⟩

/-- The program of the specification's reading "double precision throughout": `main` with
the bound `r` and the loop counter `i` in `double` instead of `float`.  This is not the
source; it is the program the source is compared with. -/
def mainDouble (A : Arith K) (epsilon sigma : Fp K) (arg : Fp K) (fuel : ℕ) :
    Option (List (PrintfCall K) × ℤ) :=
  main A.widened epsilon sigma arg fuel

/-- The data lines of a sweep whose counter takes the values `x`, `x + 1`, ..., `x + (n - 1)`. -/
def sweepLines (A : Arith K) (eps sig : Fp K) (x : K) (n : ℕ) : List (PrintfCall K) :=
  (List.range n).map fun (k : ℕ) =>
    dataCall (Fp.fin (x + (k : K))) (lennard_jones A eps sig (Fp.fin (x + (k : K))))

end Program

/-! ## Facts about rounding -/

section RoundingLemmas

variable {K : Type} [LinearOrderedField K] [FloorRing K]

/-- The binary exponent of `x` is `e` when `2^e ≤ x < 2^(e+1)`. -/
theorem log2_eq_of_bounds (x : K) (e : ℤ) (h1 : (2 : K) ^ e ≤ x) (h2 : x < (2 : K) ^ (e + 1)) :
    Int.log 2 x = e := by
  have hx : 0 < x := lt_of_lt_of_le (by positivity) h1
  have ha : e ≤ Int.log 2 x := by
    have := (Int.zpow_le_iff_le_log (b := 2) (by norm_num) (x := e) hx).1 (by simpa using h1)
    exact this
  have hb : Int.log 2 x < e + 1 := by
    have := (Int.lt_zpow_iff_log_lt (b := 2) (by norm_num) (x := e + 1) hx).1 (by simpa using h2)
    exact this
  omega

/-- An integer rounds to itself. -/
theorem roundHalfEven_intCast (n : ℤ) : roundHalfEven (n : K) = n := by
  simp [roundHalfEven]

/-- A number closer than one half to the integer `n` rounds to `n`. -/
theorem roundHalfEven_of_abs_lt (x : K) (n : ℤ) (h : |x - n| < 1 / 2) : roundHalfEven x = n := by
  rw [abs_lt] at h
  obtain ⟨h1, h2⟩ := h
  by_cases hn : (n : K) ≤ x
  · have hf : ⌊x⌋ = n := Int.floor_eq_iff.2 ⟨hn, by linarith⟩
    unfold roundHalfEven
    rw [hf, if_pos h2]
  · have hf : ⌊x⌋ = n - 1 := Int.floor_eq_iff.2 ⟨by push_cast; linarith, by push_cast; linarith⟩
    have h3 : ¬ (x - ((n - 1 : ℤ) : K) < 1 / 2) := by push_cast; linarith
    have h4 : 1 / 2 < x - ((n - 1 : ℤ) : K) := by push_cast; linarith
    simp only [roundHalfEven, hf, h3, h4, if_true, if_false]
    ring

/-- Half-way between `n` and `n + 1` the even one is chosen. -/
theorem roundHalfEven_half (n : ℤ) :
    roundHalfEven ((n : K) + 1 / 2) = if n % 2 = 0 then n else n + 1 := by
  have hf : ⌊(n : K) + 1 / 2⌋ = n := Int.floor_eq_iff.2 ⟨by linarith, by linarith⟩
  have h1 : ¬ ((n : K) + 1 / 2 - (n : K) < 1 / 2) := by simp
  have h2 : ¬ (1 / 2 < (n : K) + 1 / 2 - (n : K)) := by simp
  unfold roundHalfEven
  rw [hf, if_neg h1, if_neg h2]

/-- Evaluation of `roundTo` away from a tie: `x` has binary exponent `e` and `n` is the
integer nearest to `x` scaled to the last place. -/
theorem roundTo_of_near (p : ℕ) (emin emax : ℤ) (x : K) (e q n : ℤ) (hx : x ≠ 0)
    (h1 : (2 : K) ^ e ≤ |x|) (h2 : |x| < (2 : K) ^ (e + 1))
    (hq : q = max (e - (p - 1)) emin) (hn : |x / 2 ^ q - n| < 1 / 2)
    (hov : |(n : K) * 2 ^ q| < 2 ^ emax) :
    roundTo p emin emax x = Fp.fin ((n : K) * 2 ^ q) := by
  unfold roundTo
  rw [if_neg hx]
  simp only [log2_eq_of_bounds |x| e h1 h2, ← hq, roundHalfEven_of_abs_lt _ n hn]
  rw [if_neg (not_le.2 hov)]

/-- Evaluation of `roundTo` at a tie: `x` scaled to the last place is `n + 1/2` with `n`
even. -/
theorem roundTo_of_tie (p : ℕ) (emin emax : ℤ) (x : K) (e q n : ℤ) (hx : x ≠ 0)
    (h1 : (2 : K) ^ e ≤ |x|) (h2 : |x| < (2 : K) ^ (e + 1))
    (hq : q = max (e - (p - 1)) emin) (hn : x / 2 ^ q = n + 1 / 2) (heven : n % 2 = 0)
    (hov : |(n : K) * 2 ^ q| < 2 ^ emax) :
    roundTo p emin emax x = Fp.fin ((n : K) * 2 ^ q) := by
  unfold roundTo
  rw [if_neg hx]
  simp only [log2_eq_of_bounds |x| e h1 h2, ← hq, hn, roundHalfEven_half, if_pos heven]
  rw [if_neg (not_le.2 hov)]

/-- The global `epsilon` holds 5190451/262144 = 19.799999237060546875. -/
theorem epsilon_eq : epsilon = Fp.fin (5190451 / 262144) := by
  have h64 : toFloat64 (198 / 10 : ℚ) = Fp.fin (((5573204538870989 : ℤ) : ℚ) * 2 ^ (-48 : ℤ)) := by
    apply roundTo_of_near 53 (-1074) 1024 _ 4 (-48) 5573204538870989
    · norm_num
    · norm_num [abs_of_pos]
    · norm_num [abs_of_pos]
    · norm_num
    · norm_num [abs_lt]
    · norm_num [abs_of_pos]
  have h32 : toFloat32 (((5573204538870989 : ℤ) : ℚ) * 2 ^ (-48 : ℤ))
      = Fp.fin (((10380902 : ℤ) : ℚ) * 2 ^ (-19 : ℤ)) := by
    apply roundTo_of_near 24 (-149) 128 _ 4 (-19) 10380902
    · norm_num
    · norm_num [abs_of_pos]
    · norm_num [abs_of_pos]
    · norm_num
    · norm_num [abs_lt]
    · norm_num [abs_of_pos]
  rw [epsilon, h64, Fp.cast, h32]
  norm_num

/-- The global `sigma` holds 3544187/1048576 = 3.38000011444091796875. -/
theorem sigma_eq : sigma = Fp.fin (3544187 / 1048576) := by
  have h64 : toFloat64 (338 / 100 : ℚ) = Fp.fin (((7611083370256138 : ℤ) : ℚ) * 2 ^ (-51 : ℤ)) := by
    apply roundTo_of_near 53 (-1074) 1024 _ 1 (-51) 7611083370256138
    · norm_num
    · norm_num [abs_of_pos]
    · norm_num [abs_of_pos]
    · norm_num
    · norm_num [abs_lt]
    · norm_num [abs_of_pos]
  have h32 : toFloat32 (((7611083370256138 : ℤ) : ℚ) * 2 ^ (-51 : ℤ))
      = Fp.fin (((14176748 : ℤ) : ℚ) * 2 ^ (-22 : ℤ)) := by
    apply roundTo_of_near 24 (-149) 128 _ 1 (-22) 14176748
    · norm_num
    · norm_num [abs_of_pos]
    · norm_num [abs_of_pos]
    · norm_num
    · norm_num [abs_lt]
    · norm_num [abs_of_pos]
  rw [sigma, h64, Fp.cast, h32]
  norm_num

/-- Rounding to the nearest integer commutes with negation. -/
theorem roundHalfEven_neg (x : K) : roundHalfEven (-x) = -roundHalfEven x := by
  have hd0 : 0 ≤ x - ⌊x⌋ := by linarith [Int.floor_le x]
  have hd1 : x - ⌊x⌋ < 1 := by linarith [Int.lt_floor_add_one x]
  rcases lt_trichotomy (x - ⌊x⌋) (1 / 2) with h | h | h
  · have h1 : |x - (⌊x⌋ : K)| < 1 / 2 := by rw [abs_lt]; constructor <;> linarith
    have h2 : |-x - ((-⌊x⌋ : ℤ) : K)| < 1 / 2 := by
      rw [abs_lt]; push_cast; constructor <;> linarith
    rw [roundHalfEven_of_abs_lt x _ h1, roundHalfEven_of_abs_lt (-x) _ h2]
  · have hx : x = (⌊x⌋ : K) + 1 / 2 := by linarith
    have hnx : -x = ((-⌊x⌋ - 1 : ℤ) : K) + 1 / 2 := by push_cast; linarith
    rw [hnx, roundHalfEven_half]
    conv_rhs => rw [hx, roundHalfEven_half]
    split_ifs <;> omega
  · have h1 : |x - ((⌊x⌋ + 1 : ℤ) : K)| < 1 / 2 := by
      rw [abs_lt]; push_cast; constructor <;> linarith
    have h2 : |-x - ((-(⌊x⌋ + 1) : ℤ) : K)| < 1 / 2 := by
      rw [abs_lt]; push_cast; constructor <;> linarith
    rw [roundHalfEven_of_abs_lt x _ h1, roundHalfEven_of_abs_lt (-x) _ h2]

/-- Rounding to a binary format commutes with negation. -/
theorem roundTo_neg (p : ℕ) (emin emax : ℤ) (x : K) :
    roundTo p emin emax (-x) = Fp.neg (roundTo p emin emax x) := by
  unfold roundTo
  by_cases hx : x = 0
  · simp [hx, Fp.neg]
  · have hnx : -x ≠ 0 := neg_ne_zero.2 hx
    rw [if_neg hx, if_neg hnx]
    simp only [abs_neg, neg_div, roundHalfEven_neg, Int.cast_neg, neg_mul]
    split_ifs with h1 h2 h3 h3 <;> simp only [Fp.neg]
    · exact absurd h3 (not_lt.2 (le_of_lt (neg_pos.1 h2)))
    · rcases lt_or_gt_of_ne hx with h | h
      · exact absurd (neg_pos.2 h) h2
      · exact absurd h h3

/-- A number `m * 2^k` with a significand of at most `p` bits and an exponent in range
is representable: it rounds to itself. -/
theorem roundTo_exact (p : ℕ) (emin emax : ℤ) (m k : ℤ) (hm : |m| < 2 ^ p) (hk : emin ≤ k)
    (hov : |(m : K) * 2 ^ k| < 2 ^ emax) :
    roundTo p emin emax ((m : K) * 2 ^ k) = Fp.fin ((m : K) * 2 ^ k) := by
  have h2 : (0 : K) < 2 := by norm_num
  have h2k : (0 : K) < 2 ^ k := zpow_pos h2 k
  by_cases hm0 : m = 0
  · simp [hm0, roundTo]
  have hx : (m : K) * 2 ^ k ≠ 0 := mul_ne_zero (Int.cast_ne_zero.2 hm0) (ne_of_gt h2k)
  have hxpos : 0 < |(m : K) * 2 ^ k| := abs_pos.2 hx
  have hlog : Int.log 2 |(m : K) * 2 ^ k| - (p - 1) ≤ k := by
    have hle := Int.zpow_log_le_self (b := 2) (by norm_num) hxpos
    have hmK : |(m : K)| < 2 ^ p := by
      have : ((|m| : ℤ) : K) < ((2 ^ p : ℤ) : K) := Int.cast_lt.2 hm
      simpa using this
    have hlt : |(m : K) * 2 ^ k| < 2 ^ ((p : ℤ) + k) := by
      rw [abs_mul, abs_of_pos h2k, zpow_add₀ (ne_of_gt h2), zpow_natCast]
      exact mul_lt_mul_of_pos_right hmK h2k
    have hlt2 : (2 : K) ^ Int.log 2 |(m : K) * 2 ^ k| < 2 ^ ((p : ℤ) + k) :=
      lt_of_le_of_lt (by simpa using hle) hlt
    have := (zpow_lt_zpow_iff_right₀ (by norm_num : (1 : K) < 2)).1 hlt2
    omega
  obtain ⟨d, hd⟩ : ∃ d : ℕ, k = max (Int.log 2 |(m : K) * 2 ^ k| - (p - 1)) emin + d :=
    ⟨(k - max (Int.log 2 |(m : K) * 2 ^ k| - (p - 1)) emin).toNat, by
      have := max_le hlog hk
      omega⟩
  unfold roundTo
  rw [if_neg hx]
  generalize max (Int.log 2 |(m : K) * 2 ^ k| - (p - 1)) emin = q at hd ⊢
  have hq : (0 : K) < 2 ^ q := zpow_pos h2 q
  have hdiv : (m : K) * 2 ^ k / 2 ^ q = ((m * 2 ^ d : ℤ) : K) := by
    rw [hd, zpow_add₀ (ne_of_gt h2), zpow_natCast]
    field_simp
    ring
  have hy : (((m * 2 ^ d : ℤ) : K)) * 2 ^ q = (m : K) * 2 ^ k := by
    rw [← hdiv]
    field_simp
  simp only [hdiv, roundHalfEven_intCast, hy]
  rw [if_neg (not_le.2 hov)]

/-- Every integer of magnitude at most `2^24` is a `float`. -/
theorem toFloat32_intCast (n : ℤ) (hn : |n| ≤ 2 ^ 24) : toFloat32 (n : K) = Fp.fin (n : K) := by
  rcases lt_or_eq_of_le hn with h | h
  · have := roundTo_exact (K := K) 24 (-149) 128 n 0 h (by norm_num) (by
      have h1 : |(n : K)| < 2 ^ 24 := by
        have : ((|n| : ℤ) : K) < ((2 ^ 24 : ℤ) : K) := Int.cast_lt.2 h
        rw [Int.cast_abs] at this
        exact lt_of_lt_of_eq this (by norm_num)
      simp only [zpow_zero, mul_one]
      exact lt_trans h1 (by norm_num))
    simpa [toFloat32] using this
  · obtain ⟨m, hm⟩ : ∃ m : ℤ, n = m * 2 ∧ |m| < 2 ^ 24 := by
      rcases abs_eq (by norm_num : (0 : ℤ) ≤ 2 ^ 24) |>.1 h with h' | h'
      · exact ⟨2 ^ 23, by rw [h']; norm_num, by norm_num⟩
      · exact ⟨-2 ^ 23, by rw [h']; norm_num, by norm_num⟩
    have hnK : (n : K) = (m : K) * 2 ^ (1 : ℤ) := by
      rw [hm.1]; push_cast; simp
    have := roundTo_exact (K := K) 24 (-149) 128 m 1 hm.2 (by norm_num) (by
      rw [← hnK]
      have h1 : |(n : K)| = 2 ^ 24 := by
        have : ((|n| : ℤ) : K) = ((2 ^ 24 : ℤ) : K) := by rw [h]
        rw [Int.cast_abs] at this
        exact this.trans (by norm_num)
      rw [h1]; norm_num)
    rw [← hnK] at this
    simpa [toFloat32] using this

/-- A number that is not positive does not round to a positive integer. -/
theorem roundHalfEven_nonpos (x : K) (hx : x ≤ 0) : roundHalfEven x ≤ 0 := by
  have hf : ⌊x⌋ ≤ 0 := Int.floor_nonpos hx
  rcases lt_or_eq_of_le hf with h | h
  · unfold roundHalfEven
    split_ifs <;> omega
  · have hx0 : x = 0 := le_antisymm hx (by have := Int.floor_le x; rw [h] at this; simpa using this)
    rw [hx0]
    have := roundHalfEven_intCast (K := K) 0
    simp only [Int.cast_zero] at this
    rw [this]

/-- A number that is not positive rounds to `-inf` or to a finite value that is not
positive. -/
theorem roundTo_nonpos (p : ℕ) (emin emax : ℤ) (x : K) (hx : x ≤ 0) :
    roundTo p emin emax x = Fp.ninf ∨ ∃ y : K, y ≤ 0 ∧ roundTo p emin emax x = Fp.fin y := by
  unfold roundTo
  by_cases h0 : x = 0
  · exact Or.inr ⟨0, le_refl 0, by rw [if_pos h0]⟩
  · rw [if_neg h0]
    simp only
    split_ifs with h1 h2
    · exact absurd h2 (not_lt.2 hx)
    · exact Or.inl rfl
    · refine Or.inr ⟨_, ?_, rfl⟩
      apply mul_nonpos_of_nonpos_of_nonneg
      · exact Int.cast_nonpos.2 (roundHalfEven_nonpos _
          (div_nonpos_of_nonpos_of_nonneg hx (le_of_lt (zpow_pos (by norm_num) _))))
      · exact le_of_lt (zpow_pos (by norm_num) _)

end RoundingLemmas

/-! ## Facts about the potential and the sweep -/

section ProgramLemmas

variable {K : Type} [LinearOrderedField K]

/-- A product with NaN is NaN. -/
theorem mul_nan (rnd : K → Fp K) (a : Fp K) : Fp.mul rnd a Fp.nan = Fp.nan := by
  cases a <;> rfl

/-- An even positive power of `sigma / 0` is `+inf` or NaN. -/
theorem pow_div_zero (rnd : K → Fp K) (sig : Fp K) (n : ℕ) (hn : n ≠ 0) (h2 : n % 2 = 0) :
    Fp.pow rnd (Fp.div rnd sig (Fp.fin 0)) n = Fp.pinf ∨
    Fp.pow rnd (Fp.div rnd sig (Fp.fin 0)) n = Fp.nan := by
  cases sig with
  | fin s =>
    rcases lt_trichotomy s 0 with h | h | h
    · simp [Fp.div, Fp.infTimes, Fp.pow, hn, h2, h, not_lt_of_lt h]
    · simp [Fp.div, Fp.infTimes, Fp.pow, hn, h2, h]
    · simp [Fp.div, Fp.infTimes, Fp.pow, hn, h2, h]
  | pinf => simp [Fp.div, Fp.pow, hn]
  | ninf => simp [Fp.div, Fp.pow, hn, h2]
  | nan => simp [Fp.div, Fp.pow, hn]

/-- At the distance 0 the result is NaN, in every arithmetic and for every value of the
globals. -/
theorem lennard_jones_zero (A : Arith K) (eps sig : Fp K) :
    lennard_jones A eps sig (Fp.fin 0) = Fp.nan := by
  unfold lennard_jones
  have h12 := pow_div_zero A.toDouble sig 12 (by norm_num) (by norm_num)
  have h6 := pow_div_zero A.toDouble sig 6 (by norm_num) (by norm_num)
  have : Fp.sub A.toDouble (Fp.pow A.toDouble (Fp.div A.toDouble sig (Fp.fin 0)) 12)
      (Fp.pow A.toDouble (Fp.div A.toDouble sig (Fp.fin 0)) 6) = Fp.nan := by
    rcases h12 with h | h <;> rcases h6 with h' | h' <;> rw [h, h'] <;> rfl
  rw [this, mul_nan]

/-- The first data line of a sweep, followed by the sweep from the next counter. -/
theorem sweepLines_succ (A : Arith K) (eps sig : Fp K) (x : K) (n : ℕ) :
    sweepLines A eps sig x (n + 1)
      = dataCall (Fp.fin x) (lennard_jones A eps sig (Fp.fin x))
          :: sweepLines A eps sig (x + 1) n := by
  unfold sweepLines
  rw [List.range_succ_eq_map, List.map_cons, List.map_map]
  simp only [Nat.cast_zero, add_zero]
  congr 1
  apply List.map_congr_left
  intro k _
  simp only [Function.comp, Nat.cast_succ]
  rw [show x + ((k : K) + 1) = x + 1 + k by ring]

/-- While every increment is exact, the loop started at `x` runs `n` times, where `n`
is the first step at which the counter is no longer below the bound. -/
theorem sweep_exact_steps (A : Arith K) (eps sig : Fp K) (R : K) :
    ∀ (n : ℕ) (x : K), (∀ k : ℕ, k < n → x + k < R) → ¬ (x + n < R) →
      (∀ k : ℕ, k < n → A.toFloat (x + k + 1) = Fp.fin (x + k + 1)) →
      ∀ (fuel : ℕ), n < fuel → ∀ out : List (PrintfCall K),
        sweep A eps sig (Fp.fin R) fuel (Fp.fin x) out
          = some (out ++ sweepLines A eps sig x n) := by
  intro n
  induction n with
  | zero =>
    intro x _ hge _ fuel hf out
    obtain ⟨f, rfl⟩ : ∃ f, fuel = f + 1 := ⟨fuel - 1, by omega⟩
    have hx : ¬ (x < R) := by simpa using hge
    simp [sweep, Fp.lt, hx, sweepLines]
  | succ n ih =>
    intro x hlt hge hstep fuel hf out
    obtain ⟨f, rfl⟩ : ∃ f, fuel = f + 1 := ⟨fuel - 1, by omega⟩
    have hx : x < R := by simpa using hlt 0 (Nat.succ_pos n)
    have h1 : A.toFloat (x + 1) = Fp.fin (x + 1) := by simpa using hstep 0 (Nat.succ_pos n)
    have hlt2 : ∀ k : ℕ, k < n → x + 1 + k < R := by
      intro k hk
      have := hlt (k + 1) (Nat.succ_lt_succ hk)
      push_cast at this
      linarith
    have hge2 : ¬ (x + 1 + n < R) := by
      intro h
      apply hge
      push_cast
      linarith
    have hstep2 : ∀ k : ℕ, k < n → A.toFloat (x + 1 + k + 1) = Fp.fin (x + 1 + k + 1) := by
      intro k hk
      have := hstep (k + 1) (Nat.succ_lt_succ hk)
      push_cast at this
      rw [show x + 1 + (k : K) + 1 = x + ((k : K) + 1) + 1 by ring]
      exact this
    have ih2 := ih (x + 1) hlt2 hge2 hstep2 f (by omega)
      (out ++ [dataCall (Fp.fin x) (lennard_jones A eps sig (Fp.fin x))])
    rw [sweepLines_succ]
    simp only [sweep, Fp.lt, hx, decide_True, if_true, Fp.add, h1]
    rw [ih2, List.append_assoc]
    rfl

/-- A counter that the increment leaves unchanged below the bound keeps the loop
running for ever. -/
theorem sweep_stuck (A : Arith K) (eps sig r i : Fp K) (hlt : Fp.lt i r = true)
    (hinc : Fp.add A.toFloat i (Fp.fin 1) = i) :
    ∀ (fuel : ℕ) (out : List (PrintfCall K)), sweep A eps sig r fuel i out = none := by
  intro fuel
  induction fuel with
  | zero => intro out; rfl
  | succ f ih =>
    intro out
    simp only [sweep, hlt, if_true, hinc]
    exact ih _

/-- A loop whose condition fails on entry writes nothing. -/
theorem sweep_not_entered (A : Arith K) (eps sig r i : Fp K) (hlt : Fp.lt i r = false)
    (fuel : ℕ) (out : List (PrintfCall K)) :
    sweep A eps sig r (fuel + 1) i out = some out := by
  simp [sweep, hlt]

end ProgramLemmas

/-! ## The potential -/

section Potential

variable {K : Type} [LinearOrderedField K]

/-- Dividing by `-r` negates the quotient. -/
theorem div_neg_of_odd (rnd : K → Fp K) (hodd : ∀ x, rnd (-x) = Fp.neg (rnd x)) (sig : Fp K)
    (r : K) (hr : r ≠ 0) :
    Fp.div rnd sig (Fp.fin (-r)) = Fp.neg (Fp.div rnd sig (Fp.fin r)) := by
  have hnr : -r ≠ 0 := neg_ne_zero.2 hr
  cases sig with
  | fin s => simp only [Fp.div, if_neg hr, if_neg hnr, div_neg, hodd]
  | pinf =>
    rcases lt_or_gt_of_ne hr with h | h
    · have h1 : ¬ (0 ≤ r) := not_le.2 h
      have h2 : 0 ≤ -r := le_of_lt (neg_pos.2 h)
      simp only [Fp.div, if_neg h1, if_pos h2, Fp.neg]
    · have h1 : 0 ≤ r := le_of_lt h
      have h2 : ¬ (0 ≤ -r) := not_le.2 (neg_neg_of_pos h)
      simp only [Fp.div, if_pos h1, if_neg h2, Fp.neg]
  | ninf =>
    rcases lt_or_gt_of_ne hr with h | h
    · have h1 : ¬ (0 ≤ r) := not_le.2 h
      have h2 : 0 ≤ -r := le_of_lt (neg_pos.2 h)
      simp only [Fp.div, if_neg h1, if_pos h2, Fp.neg]
    · have h1 : 0 ≤ r := le_of_lt h
      have h2 : ¬ (0 ≤ -r) := not_le.2 (neg_neg_of_pos h)
      simp only [Fp.div, if_pos h1, if_neg h2, Fp.neg]
  | nan => rfl

/-- An even power does not see the sign of its base. -/
theorem pow_neg_of_even (rnd : K → Fp K) (x : Fp K) (n : ℕ) (hn : Even n) :
    Fp.pow rnd (Fp.neg x) n = Fp.pow rnd x n := by
  have h2 : n % 2 = 0 := Nat.even_iff.1 hn
  unfold Fp.pow
  by_cases h0 : n = 0
  · simp only [if_pos h0]
  · simp only [if_neg h0]
    cases x with
    | fin v => simp only [Fp.neg, hn.neg_pow]
    | pinf => simp only [Fp.neg, if_pos h2]
    | ninf => simp only [Fp.neg, if_pos h2]
    | nan => rfl

/-- In an arithmetic whose `double` rounding commutes with negation, the potential
takes the same value at `r` and at `-r`, whatever the two globals hold. -/
theorem lennard_jones_neg_of_odd (A : Arith K) (hodd : ∀ x, A.toDouble (-x) = Fp.neg (A.toDouble x))
    (eps sig : Fp K) (r : K) (hr : r ≠ 0) :
    lennard_jones A eps sig (Fp.fin (-r)) = lennard_jones A eps sig (Fp.fin r) := by
  unfold lennard_jones
  rw [div_neg_of_odd A.toDouble hodd sig r hr,
    pow_neg_of_even _ _ 12 (by decide), pow_neg_of_even _ _ 6 (by decide)]

end Potential

/-- C2: symmetry.  For every nonzero `r` the potential at `-r` equals the potential at `r`,
in exact arithmetic and in IEEE-754 arithmetic alike, for every value of `epsilon` and
`sigma` (positive ones in particular). -/
theorem lennard_jones_symmetric {K : Type} [LinearOrderedField K] [FloorRing K]
    (eps sig : Fp K) (r : K) (hr : r ≠ 0) :
    lennard_jones Arith.exact eps sig (Fp.fin r) = lennard_jones Arith.exact eps sig (Fp.fin (-r))
      ∧ lennard_jones Arith.ieee eps sig (Fp.fin r)
          = lennard_jones Arith.ieee eps sig (Fp.fin (-r)) :=
  ⟨(lennard_jones_neg_of_odd Arith.exact (fun _ => rfl) eps sig r hr).symm,
   (lennard_jones_neg_of_odd Arith.ieee (fun x => roundTo_neg 53 (-1074) 1024 x) eps sig r
      hr).symm⟩

/-- Witness of C2: the program's constants at the distances 5 and -5. -/
theorem lennard_jones_symmetric_witness :
    (5 : ℚ) ≠ 0 ∧
    (lennard_jones Arith.exact epsilon sigma (Fp.fin (5 : ℚ))
        = lennard_jones Arith.exact epsilon sigma (Fp.fin (-5))
      ∧ lennard_jones Arith.ieee epsilon sigma (Fp.fin (5 : ℚ))
          = lennard_jones Arith.ieee epsilon sigma (Fp.fin (-5))) :=
  ⟨by norm_num, lennard_jones_symmetric epsilon sigma 5 (by norm_num)⟩

/-- The sixth power of `2^(1/6)` is 2. -/
theorem sixth_root_two_pow : ((2 : ℝ) ^ ((1 : ℝ) / 6)) ^ 6 = 2 := by
  rw [← Real.rpow_natCast, ← Real.rpow_mul (by norm_num : (0 : ℝ) ≤ 2)]
  norm_num

/-! ## The sweep -/

section Rendering

variable {K : Type}

/-- The text of a data line. -/
theorem render_dataCall (conv : Char → Fp K → String) (i V : Fp K) :
    (dataCall i V).render conv
      = "r = " ++ conv 'f' i ++ " Angstrom, V_lg = " ++ conv 'E' V ++ " kJ/mol\n" := by
  apply String.ext
  simp [dataCall, PrintfCall.render, renderAux, String.singleton]

/-- The text of the header line. -/
theorem render_headerCall (conv : Char → Fp K → String) :
    (headerCall (K := K)).render conv = "Lennard-Jones Potential\n" := by
  apply String.ext
  simp [headerCall, PrintfCall.render, renderAux, String.singleton]

/-- The text of a data line is not the same text without the unit ` Angstrom`. -/
theorem render_dataCall_ne (conv : Char → Fp K → String) (i V : Fp K) :
    (dataCall i V).render conv
      ≠ "r = " ++ conv 'f' i ++ ", V_lg = " ++ conv 'E' V ++ " kJ/mol\n" := by
  rw [render_dataCall]
  intro h
  have h2 := congrArg String.data h
  simp at h2

end Rendering

section Sweep

variable {K : Type} [LinearOrderedField K]

/-- Whatever the loop returns is what was written before it, followed by one data line
per visited counter value. -/
theorem sweep_output_shape (A : Arith K) (eps sig r : Fp K) :
    ∀ (fuel : ℕ) (i : Fp K) (out res : List (PrintfCall K)),
      sweep A eps sig r fuel i out = some res →
      ∃ is : List (Fp K), res = out ++ is.map fun j => dataCall j (lennard_jones A eps sig j) := by
  intro fuel
  induction fuel with
  | zero => intro i out res h; simp [sweep] at h
  | succ f ih =>
    intro i out res h
    simp only [sweep] at h
    split_ifs at h with hlt
    · obtain ⟨is, his⟩ := ih _ _ _ h
      exact ⟨i :: is, by rw [his, List.append_assoc]; rfl⟩
    · exact ⟨[], by simpa using (Option.some.inj h).symm⟩

variable [FloorRing K]

/-- With a positive bound `R` that is a `float` and exact increments, `main` writes
the header and the data lines of the counters `-R`, `-R + 1`, ..., `ceil(2R)` of them. -/
theorem main_of_exact_steps (A : Arith K) (eps sig : Fp K) (R : K) (hR : 0 < R)
    (hcast : A.toFloat R = Fp.fin R)
    (hstep : ∀ k : ℕ, k < ⌈2 * R⌉.toNat → A.toFloat (-R + k + 1) = Fp.fin (-R + k + 1))
    (fuel : ℕ) (hfuel : ⌈2 * R⌉.toNat < fuel) :
    main A eps sig (Fp.fin R) fuel
      = some (headerCall :: sweepLines A eps sig (-R) ⌈2 * R⌉.toNat, 0) := by
  have hc : 0 ≤ ⌈2 * R⌉ := Int.ceil_nonneg (by linarith)
  have hn : ((⌈2 * R⌉.toNat : ℕ) : ℤ) = ⌈2 * R⌉ := Int.toNat_of_nonneg hc
  have hlt : ∀ k : ℕ, k < ⌈2 * R⌉.toNat → -R + k < R := by
    intro k hk
    have h1 : (k : ℤ) < ⌈2 * R⌉ := by omega
    have h2 : ((k : ℤ) : K) < 2 * R := Int.lt_ceil.1 h1
    have h3 : ((k : ℤ) : K) = (k : K) := Int.cast_natCast k
    linarith
  have hge : ¬ (-R + (⌈2 * R⌉.toNat : ℕ) < R) := by
    have h1 : 2 * R ≤ ((⌈2 * R⌉ : ℤ) : K) := Int.le_ceil _
    have h2 : (((⌈2 * R⌉.toNat : ℕ) : ℤ) : K) = ((⌈2 * R⌉.toNat : ℕ) : K) := Int.cast_natCast _
    rw [hn] at h2
    linarith
  have := sweep_exact_steps A eps sig R ⌈2 * R⌉.toNat (-R) hlt hge hstep fuel hfuel [headerCall]
  simp only [main, Fp.cast, hcast, Fp.neg, this, Option.map_some', List.singleton_append]

/-- In binary32 every increment of an integer counter between `a` and `a + n` is
exact when both ends are at most `2^24` in magnitude. -/
theorem toFloat32_int_steps (a : ℤ) (n : ℕ) (ha : |a| ≤ 2 ^ 24) (hn : |a + n| ≤ 2 ^ 24) :
    ∀ k : ℕ, k < n → toFloat32 ((a : K) + k + 1) = Fp.fin ((a : K) + k + 1) := by
  intro k hk
  have h : |a + k + 1| ≤ 2 ^ 24 := by
    rw [abs_le] at ha hn ⊢
    constructor <;> omega
  have := toFloat32_intCast (K := K) (a + k + 1) h
  push_cast at this
  exact this

end Sweep

theorem toFloat32_one : toFloat32 (1 : ℚ) = Fp.fin 1 := by
  have := toFloat32_intCast (K := ℚ) 1 (by norm_num)
  simpa using this

theorem ceil_two_mul_one : ⌈2 * (1 : ℚ)⌉.toNat = 2 := by
  have h : ⌈2 * (1 : ℚ)⌉ = 2 := by norm_num
  rw [h]
  rfl

theorem two_steps_exact :
    ∀ k : ℕ, k < ⌈2 * (1 : ℚ)⌉.toNat →
      (Arith.ieee (K := ℚ)).toFloat (-1 + (k : ℚ) + 1) = Fp.fin (-1 + (k : ℚ) + 1) := by
  intro k hk
  rw [ceil_two_mul_one] at hk
  have := toFloat32_int_steps (K := ℚ) (-1) 2 (by norm_num) (by norm_num) k hk
  simpa [Arith.ieee] using this

/-- The run of the program for the bound 1 in IEEE-754 arithmetic. -/
theorem main_bound_one :
    main Arith.ieee epsilon sigma (Fp.fin 1) 3
      = some ([headerCall,
          dataCall (Fp.fin (-1)) (lennard_jones Arith.ieee epsilon sigma (Fp.fin (-1))),
          dataCall (Fp.fin 0) (lennard_jones Arith.ieee epsilon sigma (Fp.fin 0))], 0) := by
  have := main_of_exact_steps Arith.ieee epsilon sigma (1 : ℚ) one_pos toFloat32_one
    two_steps_exact 3 (by rw [ceil_two_mul_one]; norm_num)
  rw [this, ceil_two_mul_one]
  have h0 : (-1 : ℚ) + ((1 : ℕ) : ℚ) = 0 := by norm_num
  simp only [sweepLines, List.range_succ, List.range_zero, List.nil_append, List.map_cons,
    List.map_nil, List.cons_append, Nat.cast_zero, add_zero, h0]

/-- C5, counterexample: with the program's constants and IEEE-754 arithmetic the
potential at `r = 0` is not positive infinity. -/
theorem lennard_jones_at_zero_not_pinf :
    ¬ (lennard_jones Arith.ieee epsilon sigma (Fp.fin 0) = Fp.pinf) := by
  rw [lennard_jones_zero]
  intro h
  cases h

/-- C5, amended: at `r = 0` no error is signalled and the result is NaN: `sigma/0` is
`+inf`, each of the two powers is `+inf`, their difference `inf - inf` is NaN, and the
product with `4*epsilon` is NaN (for every value of the globals, in every arithmetic).
In the sweep for `R = 1.0` the second data line (`i = 0`) carries the potential NaN. -/
theorem lennard_jones_at_zero_nan :
    Fp.div toFloat64 sigma (Fp.fin 0) = Fp.pinf
      ∧ Fp.pow toFloat64 (Fp.div toFloat64 sigma (Fp.fin 0)) 12 = Fp.pinf
      ∧ Fp.pow toFloat64 (Fp.div toFloat64 sigma (Fp.fin 0)) 6 = Fp.pinf
      ∧ Fp.sub toFloat64 (Fp.pinf : Fp ℚ) Fp.pinf = Fp.nan
      ∧ (∀ (A : Arith ℚ) (eps sig : Fp ℚ), lennard_jones A eps sig (Fp.fin 0) = Fp.nan)
      ∧ main Arith.ieee epsilon sigma (Fp.fin 1) 3
          = some ([headerCall,
              dataCall (Fp.fin (-1)) (lennard_jones Arith.ieee epsilon sigma (Fp.fin (-1))),
              dataCall (Fp.fin 0) Fp.nan], 0) := by
  have hdiv : Fp.div toFloat64 sigma (Fp.fin 0) = Fp.pinf := by
    rw [sigma_eq]
    have h : (0 : ℚ) < 3544187 / 1048576 := by norm_num
    simp only [Fp.div, if_true, Fp.infTimes, if_pos h]
  refine ⟨hdiv, ?_, ?_, rfl, fun A eps sig => lennard_jones_zero A eps sig, ?_⟩
  · rw [hdiv]; rfl
  · rw [hdiv]; rfl
  · rw [main_bound_one, lennard_jones_zero]

theorem ceil_two_mul_five : ⌈2 * (5 : ℚ)⌉.toNat = 10 := by
  have h : ⌈2 * (5 : ℚ)⌉ = 10 := by norm_num
  rw [h]
  rfl

theorem toFloat32_five : toFloat32 (5 : ℚ) = Fp.fin 5 := by
  have := toFloat32_intCast (K := ℚ) 5 (by norm_num)
  simpa using this

theorem ten_steps_exact :
    ∀ k : ℕ, k < ⌈2 * (5 : ℚ)⌉.toNat →
      (Arith.ieee (K := ℚ)).toFloat (-5 + (k : ℚ) + 1) = Fp.fin (-5 + (k : ℚ) + 1) := by
  intro k hk
  rw [ceil_two_mul_five] at hk
  have := toFloat32_int_steps (K := ℚ) (-5) 10 (by norm_num) (by norm_num) k hk
  simpa [Arith.ieee] using this

/-- A sweep of `n` counter values has `n` data lines. -/
theorem sweepLines_length {K : Type} [LinearOrderedField K] (A : Arith K) (eps sig : Fp K)
    (x : K) (n : ℕ) : (sweepLines A eps sig x n).length = n := by
  simp [sweepLines]

/-- The number `2^25` is a `float`. -/
theorem toFloat32_two_pow_25 : toFloat32 (33554432 : ℚ) = Fp.fin 33554432 := by
  have := roundTo_exact (K := ℚ) 24 (-149) 128 1 25 (by norm_num) (by norm_num)
    (by norm_num [abs_of_pos])
  have hv : ((1 : ℤ) : ℚ) * 2 ^ (25 : ℤ) = 33554432 := by norm_num
  rw [hv] at this
  exact this

/-- In binary32, `-2^25 + 1` rounds to `-2^25`. -/
theorem toFloat32_stuck : toFloat32 ((-33554432 : ℚ) + 1) = Fp.fin (-33554432) := by
  have := roundTo_of_tie (K := ℚ) 24 (-149) 128 ((-33554432 : ℚ) + 1) 24 1 (-16777216)
    (by norm_num) (by norm_num [abs_of_neg]) (by norm_num [abs_of_neg]) (by norm_num)
    (by norm_num) (by norm_num) (by norm_num [abs_of_neg])
  have hv : ((-16777216 : ℤ) : ℚ) * 2 ^ (1 : ℤ) = -33554432 := by norm_num
  rw [hv] at this
  exact this

theorem add_one_stuck :
    Fp.add (Arith.ieee (K := ℚ)).toFloat (Fp.fin (-33554432)) (Fp.fin 1)
      = Fp.fin (-33554432) := by
  rw [Fp.add]
  show toFloat32 ((-33554432 : ℚ) + 1) = Fp.fin (-33554432)
  exact toFloat32_stuck

theorem cast_two_pow_25 :
    Fp.cast (Arith.ieee (K := ℚ)).toFloat (Fp.fin (33554432 : ℚ))
      = Fp.fin (33554432 : ℚ) := by
  rw [Fp.cast]
  show toFloat32 (33554432 : ℚ) = Fp.fin 33554432
  exact toFloat32_two_pow_25

theorem lt_two_pow_25 : Fp.lt (Fp.fin (-33554432 : ℚ)) (Fp.fin 33554432) = true := by
  simp only [Fp.lt, decide_eq_true_eq]
  norm_num

/-- C7, the code at the failing input: for the bound `2^25 = 33554432` the counter starts
at `-2^25`, the increment `-2^25 + 1` rounds back to `-2^25` in binary32, and `main` is
still in its loop after any number of iterations: it never returns. -/
theorem main_diverges_at_two_pow_25 :
    Fp.add (Arith.ieee (K := ℚ)).toFloat (Fp.fin (-33554432)) (Fp.fin 1) = Fp.fin (-33554432)
      ∧ ∀ fuel : ℕ, main Arith.ieee epsilon sigma (Fp.fin (33554432 : ℚ)) fuel = none := by
  refine ⟨add_one_stuck, fun fuel => ?_⟩
  unfold main
  simp only [cast_two_pow_25]
  rw [show Fp.neg (Fp.fin (33554432 : ℚ)) = Fp.fin (-33554432) from rfl]
  rw [sweep_stuck Arith.ieee epsilon sigma (Fp.fin (33554432 : ℚ)) (Fp.fin (-33554432))
    lt_two_pow_25 add_one_stuck fuel [headerCall]]
  rfl

/-- For a bound that is not positive the loop condition `-r < r` is false. -/
theorem lt_neg_self_of_nonpos {K : Type} [LinearOrderedField K] (r : Fp K)
    (h : r = Fp.ninf ∨ ∃ y : K, y ≤ 0 ∧ r = Fp.fin y) : Fp.lt (Fp.neg r) r = false := by
  rcases h with h | ⟨y, hy, h⟩
  · rw [h]; rfl
  · rw [h]
    simp only [Fp.neg, Fp.lt, decide_eq_false_iff_not, not_lt]
    linarith

/-- C9: degenerate sweep.  For the bound 0, and for every bound `R ≤ 0`, the loop
condition is false on entry and `main` returns after writing the header line alone, in
IEEE-754 arithmetic and in exact arithmetic. -/
theorem degenerate_sweep {K : Type} [LinearOrderedField K] [FloorRing K] (eps sig : Fp K)
    (R : K) (hR : R ≤ 0) (fuel : ℕ) (hfuel : 0 < fuel) :
    main Arith.ieee eps sig (Fp.fin R) fuel = some ([headerCall], 0)
      ∧ main Arith.exact eps sig (Fp.fin R) fuel = some ([headerCall], 0)
      ∧ ∀ conv : Char → Fp K → String,
          [headerCall].map (PrintfCall.render conv) = ["Lennard-Jones Potential\n"] := by
  obtain ⟨f, rfl⟩ : ∃ f, fuel = f + 1 := ⟨fuel - 1, by omega⟩
  refine ⟨?_, ?_, ?_⟩
  · have h : Fp.lt (Fp.neg ((Arith.ieee (K := K)).toFloat R)) (Arith.ieee.toFloat R) = false :=
      lt_neg_self_of_nonpos _ (roundTo_nonpos (K := K) 24 (-149) 128 R hR)
    unfold main
    simp only [Fp.cast]
    rw [sweep_not_entered Arith.ieee eps sig _ _ h]
    rfl
  · have h : Fp.lt (Fp.neg ((Arith.exact (K := K)).toFloat R)) (Arith.exact.toFloat R)
        = false := lt_neg_self_of_nonpos (Fp.fin R) (Or.inr ⟨R, hR, rfl⟩)
    unfold main
    simp only [Fp.cast]
    rw [sweep_not_entered Arith.exact eps sig _ _ h]
    rfl
  · intro conv
    rw [List.map_cons, List.map_nil, render_headerCall]

/-- Witness of C9: the bound 0 that a non-numeric argument parses to. -/
theorem degenerate_sweep_witness :
    (0 : ℚ) ≤ 0 ∧ 0 < 1
      ∧ main Arith.ieee epsilon sigma (Fp.fin 0) 1 = some ([headerCall], 0)
      ∧ main Arith.exact epsilon sigma (Fp.fin 0) 1 = some ([headerCall], 0)
      ∧ ∀ conv : Char → Fp ℚ → String,
          [headerCall].map (PrintfCall.render conv) = ["Lennard-Jones Potential\n"] :=
  ⟨le_refl 0, Nat.one_pos, degenerate_sweep epsilon sigma 0 (le_refl 0) 1 Nat.one_pos⟩

/-- C10, counterexample: in the run for the bound 1 the first data line does not have the
form `r = <distance>, V_lg = <potential> kJ/mol`, whatever the renderings of the two
numbers are: the code writes ` Angstrom` after the distance. -/
theorem data_line_not_as_claimed :
    ∃ out : List (PrintfCall ℚ), main Arith.ieee epsilon sigma (Fp.fin 1) 3 = some (out, 0)
      ∧ ∃ i V : Fp ℚ, out[1]? = some (dataCall i V)
        ∧ ∀ conv : Char → Fp ℚ → String, (dataCall i V).render conv
            ≠ "r = " ++ conv 'f' i ++ ", V_lg = " ++ conv 'E' V ++ " kJ/mol\n" :=
  ⟨_, main_bound_one, _, _, rfl, fun conv => render_dataCall_ne conv _ _⟩

section Precision

variable {K : Type} [LinearOrderedField K] [FloorRing K]

/-- Every `float` is a `double`: a number that binary32 rounding leaves unchanged is left
unchanged by binary64 rounding. -/
theorem toFloat64_of_toFloat32 (x : K) (h : toFloat32 x = Fp.fin x) :
    toFloat64 x = Fp.fin x := by
  by_cases hx : x = 0
  · rw [hx]
    simp [toFloat64, roundTo]
  have hxpos : 0 < |x| := abs_pos.2 hx
  have h2 : (0 : K) < 2 := by norm_num
  unfold toFloat32 roundTo at h
  rw [if_neg hx] at h
  simp only at h
  generalize hq : max (Int.log 2 |x| - (((24 : ℕ) : ℤ) - 1)) (-149) = q at h
  generalize hn : roundHalfEven (x / 2 ^ q) = n at h
  have hqlow : -149 ≤ q := by rw [← hq]; exact le_max_right _ _
  have hqlog : Int.log 2 |x| - 23 ≤ q := by
    rw [← hq]
    exact le_trans (by norm_num) (le_max_left _ _)
  split_ifs at h with hov hsign
  have hy : (n : K) * 2 ^ q = x := Fp.fin.inj h
  have hlt : |x| < (2 : K) ^ (Int.log 2 |x| + 1) := by
    simpa using Int.lt_zpow_succ_log_self (b := 2) (by norm_num) |x|
  have hq0 : (0 : K) < 2 ^ q := zpow_pos h2 q
  have hnK : |(n : K)| < 2 ^ 24 := by
    have h1 : |(n : K)| * 2 ^ q < (2 : K) ^ (24 : ℤ) * 2 ^ q := by
      have : |(n : K)| * 2 ^ q = |x| := by rw [← hy, abs_mul, abs_of_pos hq0]
      rw [this, ← zpow_add₀ (ne_of_gt h2)]
      exact lt_of_lt_of_le hlt (zpow_le_zpow_right₀ (by norm_num) (by omega))
    have h3 := lt_of_mul_lt_mul_right h1 (le_of_lt hq0)
    exact lt_of_lt_of_eq h3 (by norm_num)
  have hnZ : |n| < 2 ^ 53 := by
    have h1 : ((|n| : ℤ) : K) < ((2 ^ 24 : ℤ) : K) := by
      rw [Int.cast_abs]
      exact lt_of_lt_of_eq hnK (by norm_num)
    have := Int.cast_lt.1 h1
    exact lt_trans this (by norm_num)
  have hbig : |(n : K) * 2 ^ q| < 2 ^ (1024 : ℤ) := by
    rw [hy]
    rw [hy] at hov
    exact lt_trans (not_le.1 hov) (zpow_lt_zpow_right₀ (by norm_num) (by norm_num))
  have := roundTo_exact (K := K) 53 (-1074) 1024 n q hnZ (by omega) hbig
  rw [hy] at this
  exact this

end Precision

/-- A bound whose negation is not below it is never swept: only the header is written. -/
theorem main_not_entered {K : Type} [LinearOrderedField K] (A : Arith K) (eps sig arg : Fp K)
    (h : Fp.lt (Fp.neg (Fp.cast A.toFloat arg)) (Fp.cast A.toFloat arg) = false) (fuel : ℕ) :
    main A eps sig arg (fuel + 1) = some ([headerCall], 0) := by
  unfold main
  simp only []
  rw [sweep_not_entered A eps sig _ _ h]
  rfl


/-- The bound `1 + 2^-30` rounds to 1 in binary32. -/
theorem toFloat32_near_one : toFloat32 (1073741825 / 1073741824 : ℚ) = Fp.fin 1 := by
  have := roundTo_of_near (K := ℚ) 24 (-149) 128 (1073741825 / 1073741824) 0 (-23) 8388608
    (by norm_num) (by norm_num [abs_of_pos]) (by norm_num [abs_of_pos]) (by norm_num)
    (by norm_num [abs_lt]) (by norm_num [abs_of_pos])
  have hv : ((8388608 : ℤ) : ℚ) * 2 ^ (-23 : ℤ) = 1 := by norm_num
  rw [hv] at this
  exact this

/-- The bound `1 + 2^-30` is a `double`. -/
theorem toFloat64_near_one :
    toFloat64 (1073741825 / 1073741824 : ℚ) = Fp.fin (1073741825 / 1073741824) := by
  have := roundTo_exact (K := ℚ) 53 (-1074) 1024 1073741825 (-30) (by norm_num) (by norm_num)
    (by norm_num [abs_of_pos])
  have hv : ((1073741825 : ℤ) : ℚ) * 2 ^ (-30 : ℤ) = 1073741825 / 1073741824 := by norm_num
  rw [hv] at this
  exact this

theorem ceil_two_mul_near_one : ⌈2 * (1073741825 / 1073741824 : ℚ)⌉.toNat = 3 := by
  have h : ⌈2 * (1073741825 / 1073741824 : ℚ)⌉ = 3 := by
    rw [Int.ceil_eq_iff]
    constructor <;> norm_num
  rw [h]
  rfl

/-- In binary64 the three increments of the counter from `-(1 + 2^-30)` are exact. -/
theorem three_steps_exact :
    ∀ k : ℕ, k < ⌈2 * (1073741825 / 1073741824 : ℚ)⌉.toNat →
      toFloat64 (-(1073741825 / 1073741824 : ℚ) + (k : ℚ) + 1)
        = Fp.fin (-(1073741825 / 1073741824 : ℚ) + (k : ℚ) + 1) := by
  intro k hk
  rw [ceil_two_mul_near_one] at hk
  have hm : |(k : ℤ) * 1073741824 - 1| < 2 ^ 53 := by
    rw [abs_lt]
    constructor <;> omega
  have hv : (((k : ℤ) * 1073741824 - 1 : ℤ) : ℚ) * 2 ^ (-30 : ℤ)
      = -(1073741825 / 1073741824 : ℚ) + (k : ℚ) + 1 := by
    push_cast
    norm_num
    ring
  have := roundTo_exact (K := ℚ) 53 (-1074) 1024 ((k : ℤ) * 1073741824 - 1) (-30) hm
    (by norm_num) (by
      rw [hv, abs_lt]
      have hk0 : (0 : ℚ) ≤ (k : ℚ) := Nat.cast_nonneg k
      have hk3 : (k : ℚ) ≤ 2 := by exact_mod_cast Nat.le_of_lt_succ hk
      have hb : (3 : ℚ) < 2 ^ (1024 : ℤ) := by norm_num
      constructor <;> linarith)
  rw [hv] at this
  exact this

/-- The `float` run for the bound `1 + 2^-30`: the bound becomes 1 and two data lines
are written. -/
theorem main_near_one_float :
    main Arith.ieee epsilon sigma (Fp.fin (1073741825 / 1073741824)) 4
      = some (headerCall :: sweepLines Arith.ieee epsilon sigma (-1) 2, 0) := by
  have h1 := main_of_exact_steps Arith.ieee epsilon sigma (1 : ℚ) one_pos toFloat32_one
    two_steps_exact 4 (by rw [ceil_two_mul_one]; norm_num)
  rw [ceil_two_mul_one] at h1
  rw [← h1]
  have hc : Fp.cast (Arith.ieee (K := ℚ)).toFloat (Fp.fin (1073741825 / 1073741824))
      = Fp.fin 1 := by
    rw [Fp.cast]
    show toFloat32 (1073741825 / 1073741824 : ℚ) = Fp.fin 1
    exact toFloat32_near_one
  have hc1 : Fp.cast (Arith.ieee (K := ℚ)).toFloat (Fp.fin 1) = Fp.fin 1 := by
    rw [Fp.cast]
    show toFloat32 (1 : ℚ) = Fp.fin 1
    exact toFloat32_one
  unfold main
  simp only [hc, hc1]

/-- The `double` run for the bound `1 + 2^-30`: three data lines are written. -/
theorem main_near_one_double :
    mainDouble Arith.ieee epsilon sigma (Fp.fin (1073741825 / 1073741824)) 4
      = some (headerCall :: sweepLines (Arith.ieee (K := ℚ)).widened epsilon sigma
          (-(1073741825 / 1073741824)) 3, 0) := by
  have h := main_of_exact_steps (Arith.ieee (K := ℚ)).widened epsilon sigma
    (1073741825 / 1073741824 : ℚ) (by norm_num) toFloat64_near_one three_steps_exact 4
    (by rw [ceil_two_mul_near_one]; norm_num)
  rw [ceil_two_mul_near_one] at h
  exact h

/-- C13: reduced-precision counter.  For a bound that is a `float` and whose `float`
counter increments are all exact, the program and its "double precision throughout"
variant both return and write the same number of data lines.  For the bound `1 + 2^-30`,
which is a `double` but not a `float`, they differ: the program (bound rounded to 1) runs
its loop 2 times, the `double` variant 3 times. -/
theorem reduced_precision_counter {K : Type} [LinearOrderedField K] [FloorRing K]
    (eps sig : Fp K) (R : K) (hrep : toFloat32 R = Fp.fin R)
    (hstep : ∀ k : ℕ, k < ⌈2 * R⌉.toNat → toFloat32 (-R + k + 1) = Fp.fin (-R + k + 1))
    (fuel : ℕ) (hfuel : ⌈2 * R⌉.toNat < fuel) :
    (∃ out32 out64 : List (PrintfCall K),
        main Arith.ieee eps sig (Fp.fin R) fuel = some (out32, 0)
        ∧ mainDouble Arith.ieee eps sig (Fp.fin R) fuel = some (out64, 0)
        ∧ out32.tail.length = out64.tail.length)
      ∧ toFloat32 (1073741825 / 1073741824 : ℚ) ≠ Fp.fin (1073741825 / 1073741824)
      ∧ toFloat64 (1073741825 / 1073741824 : ℚ) = Fp.fin (1073741825 / 1073741824)
      ∧ ∃ out32 out64 : List (PrintfCall ℚ),
          main Arith.ieee epsilon sigma (Fp.fin (1073741825 / 1073741824)) 4 = some (out32, 0)
          ∧ mainDouble Arith.ieee epsilon sigma (Fp.fin (1073741825 / 1073741824)) 4
              = some (out64, 0)
          ∧ out32.tail.length = 2 ∧ out64.tail.length = 3 := by
  refine ⟨?_, ?_, toFloat64_near_one, ?_⟩
  · rcases le_or_lt R 0 with hR | hR
    · obtain ⟨f, rfl⟩ : ∃ f, fuel = f + 1 := ⟨fuel - 1, by omega⟩
      have h32 : Fp.lt (Fp.neg (Fp.cast (Arith.ieee (K := K)).toFloat (Fp.fin R)))
          (Fp.cast (Arith.ieee (K := K)).toFloat (Fp.fin R)) = false :=
        lt_neg_self_of_nonpos _ (roundTo_nonpos (K := K) 24 (-149) 128 R hR)
      have h64 : Fp.lt (Fp.neg (Fp.cast (Arith.ieee (K := K)).widened.toFloat (Fp.fin R)))
          (Fp.cast (Arith.ieee (K := K)).widened.toFloat (Fp.fin R)) = false :=
        lt_neg_self_of_nonpos _ (roundTo_nonpos (K := K) 53 (-1074) 1024 R hR)
      exact ⟨_, _, main_not_entered Arith.ieee eps sig _ h32 f,
        main_not_entered (Arith.ieee (K := K)).widened eps sig _ h64 f, rfl⟩
    · have h64 : ∀ k : ℕ, k < ⌈2 * R⌉.toNat →
          (Arith.ieee (K := K)).widened.toFloat (-R + k + 1) = Fp.fin (-R + k + 1) :=
        fun k hk => toFloat64_of_toFloat32 _ (hstep k hk)
      refine ⟨_, _, main_of_exact_steps Arith.ieee eps sig R hR hrep hstep fuel hfuel,
        main_of_exact_steps (Arith.ieee (K := K)).widened eps sig R hR
          (toFloat64_of_toFloat32 R hrep) h64 fuel hfuel, ?_⟩
      rw [List.tail_cons, List.tail_cons, sweepLines_length, sweepLines_length]
  · rw [toFloat32_near_one]
    intro h
    have := Fp.fin.inj h
    norm_num at this
  · refine ⟨_, _, main_near_one_float, main_near_one_double, ?_, ?_⟩
    · rw [List.tail_cons, sweepLines_length]
    · rw [List.tail_cons, sweepLines_length]

/-- Witness of C13: the bound 5 with the program's constants. -/
theorem reduced_precision_counter_witness :
    toFloat32 (5 : ℚ) = Fp.fin 5
      ∧ (∀ k : ℕ, k < ⌈2 * (5 : ℚ)⌉.toNat →
          toFloat32 (-5 + (k : ℚ) + 1) = Fp.fin (-5 + (k : ℚ) + 1))
      ∧ ⌈2 * (5 : ℚ)⌉.toNat < 11
      ∧ (∃ out32 out64 : List (PrintfCall ℚ),
          main Arith.ieee epsilon sigma (Fp.fin 5) 11 = some (out32, 0)
          ∧ mainDouble Arith.ieee epsilon sigma (Fp.fin 5) 11 = some (out64, 0)
          ∧ out32.tail.length = out64.tail.length)
      ∧ toFloat32 (1073741825 / 1073741824 : ℚ) ≠ Fp.fin (1073741825 / 1073741824)
      ∧ toFloat64 (1073741825 / 1073741824 : ℚ) = Fp.fin (1073741825 / 1073741824)
      ∧ ∃ out32 out64 : List (PrintfCall ℚ),
          main Arith.ieee epsilon sigma (Fp.fin (1073741825 / 1073741824)) 4 = some (out32, 0)
          ∧ mainDouble Arith.ieee epsilon sigma (Fp.fin (1073741825 / 1073741824)) 4
              = some (out64, 0)
          ∧ out32.tail.length = 2 ∧ out64.tail.length = 3 :=
  ⟨toFloat32_five, ten_steps_exact, by rw [ceil_two_mul_five]; norm_num,
    reduced_precision_counter epsilon sigma 5 toFloat32_five ten_steps_exact 11
      (by rw [ceil_two_mul_five]; norm_num)⟩

section ZeroLine

variable {K : Type} [LinearOrderedField K]

/-- The data line number `k` of a sweep of `n` counter values. -/
theorem sweepLines_get (A : Arith K) (eps sig : Fp K) (x : K) (n k : ℕ) :
    (sweepLines A eps sig x n)[k]?
      = if k < n then
          some (dataCall (Fp.fin (x + (k : K))) (lennard_jones A eps sig (Fp.fin (x + (k : K)))))
        else none := by
  unfold sweepLines
  rw [List.getElem?_map]
  by_cases hk : k < n
  · rw [List.getElem?_range hk, if_pos hk]
    rfl
  · rw [List.getElem?_eq_none (by simpa using hk), if_neg hk]
    rfl

end ZeroLine

/-- Equal data lines report the same distance. -/
theorem dataCall_distance_inj {K : Type} (x y : K) (V W : Fp K)
    (h : dataCall (Fp.fin x) V = dataCall (Fp.fin y) W) : x = y := by
  unfold dataCall at h
  injection h with _ hargs
  injection hargs with hhead _
  exact Fp.fin.inj hhead


section WellShape

/-- The difference of two values of the well in terms of `u = (sigma/r)^6`. -/
theorem well_diff {K : Type} [LinearOrderedField K] (e u w : K) :
    4 * e * (u * (u - 1)) - 4 * e * (w * (w - 1)) = 4 * e * ((u - w) * (u + w - 1)) := by
  ring

/-- For positive distances, `(sigma/r)^6` decreases strictly as `r` grows. -/
theorem ratio_pow_six_anti {K : Type} [LinearOrderedField K] (s r₁ r₂ : K) (hs : 0 < s)
    (h1 : 0 < r₁) (h12 : r₁ < r₂) : (s / r₂) ^ 6 < (s / r₁) ^ 6 := by
  have h2 : 0 < r₂ := lt_trans h1 h12
  have hlt : s / r₂ < s / r₁ := div_lt_div_of_pos_left hs h1 h12
  exact pow_lt_pow_left₀ hlt (le_of_lt (div_pos hs h2)) (by norm_num)

/-- At or below the minimiser `sigma * 2^(1/6)` the ratio `(sigma/r)^6` is at least 1/2. -/
theorem half_le_ratio (s r : ℝ) (hr : 0 < r)
    (h : r ≤ s * (2 : ℝ) ^ ((1 : ℝ) / 6)) : 1 / 2 ≤ (s / r) ^ 6 := by
  have h6 : r ^ 6 ≤ 2 * s ^ 6 := by
    have := pow_le_pow_left₀ (le_of_lt hr) h 6
    rw [mul_pow, sixth_root_two_pow] at this
    linarith
  rw [div_pow, le_div_iff₀ (pow_pos hr 6)]
  linarith

/-- At or above the minimiser the ratio `(sigma/r)^6` is at most 1/2. -/
theorem ratio_le_half (s r : ℝ) (hs : 0 < s) (hr : 0 < r)
    (h : s * (2 : ℝ) ^ ((1 : ℝ) / 6) ≤ r) : (s / r) ^ 6 ≤ 1 / 2 := by
  have hpos : (0 : ℝ) < (2 : ℝ) ^ ((1 : ℝ) / 6) := Real.rpow_pos_of_pos (by norm_num) _
  have h6 : 2 * s ^ 6 ≤ r ^ 6 := by
    have := pow_le_pow_left₀ (le_of_lt (mul_pos hs hpos)) h 6
    rw [mul_pow, sixth_root_two_pow] at this
    linarith
  rw [div_pow, div_le_iff₀ (pow_pos hr 6)]
  linarith

/-- Only at the minimiser is the ratio `(sigma/r)^6` equal to 1/2. -/
theorem ratio_eq_half (s r : ℝ) (hs : 0 < s) (hr : 0 < r) (h : (s / r) ^ 6 = 1 / 2) :
    r = s * (2 : ℝ) ^ ((1 : ℝ) / 6) := by
  have hpos : (0 : ℝ) < (2 : ℝ) ^ ((1 : ℝ) / 6) := Real.rpow_pos_of_pos (by norm_num) _
  rcases lt_trichotomy r (s * (2 : ℝ) ^ ((1 : ℝ) / 6)) with hlt | heq | hgt
  · have h1 := ratio_pow_six_anti s r _ hs hr hlt
    have h2 := half_le_ratio s _ (mul_pos hs hpos) (le_refl _)
    linarith
  · exact heq
  · have h1 := ratio_pow_six_anti s _ r hs (mul_pos hs hpos) hgt
    have h2 := ratio_le_half s _ hs (mul_pos hs hpos) (le_refl _)
    linarith

end WellShape

/-! ## Rounding errors, overflow and underflow -/

section RoundingBounds

variable {K : Type} [LinearOrderedField K] [FloorRing K]

/-- Rounding to the nearest integer moves a number by at most one half. -/
theorem roundHalfEven_abs_sub_le (z : K) : |(roundHalfEven z : K) - z| ≤ 1 / 2 := by
  have h0 : (⌊z⌋ : K) ≤ z := Int.floor_le z
  have h1 : z < (⌊z⌋ : K) + 1 := Int.lt_floor_add_one z
  unfold roundHalfEven
  split_ifs with ha hb hc
  · rw [abs_le]; constructor <;> linarith
  · rw [abs_le]; push_cast; constructor <;> linarith
  · rw [abs_le]; constructor <;> linarith
  · rw [abs_le]; push_cast; constructor <;> linarith

/-- Rounding to the nearest integer does not pass an integer above. -/
theorem roundHalfEven_le_of_le (z : K) (N : ℤ) (h : z ≤ N) : roundHalfEven z ≤ N := by
  have hf : ⌊z⌋ ≤ N := Int.cast_le.1 (le_trans (Int.floor_le z) h)
  rcases lt_or_eq_of_le hf with hlt | heq
  · unfold roundHalfEven
    split_ifs <;> omega
  · have hz : z = N := le_antisymm h (by rw [← heq]; exact Int.floor_le z)
    rw [hz, roundHalfEven_intCast]

/-- Rounding to the nearest integer does not pass an integer below. -/
theorem le_roundHalfEven_of_le (z : K) (N : ℤ) (h : (N : K) ≤ z) : N ≤ roundHalfEven z := by
  have hf : N ≤ ⌊z⌋ := Int.le_floor.2 h
  unfold roundHalfEven
  split_ifs <;> omega

end RoundingBounds

section RoundingBounds2

variable {K : Type} [LinearOrderedField K] [FloorRing K]

/-- The binary exponent of a nonzero number brackets its magnitude. -/
theorem log2_bounds (x : K) (hx : x ≠ 0) :
    (2 : K) ^ Int.log 2 |x| ≤ |x| ∧ |x| < (2 : K) ^ (Int.log 2 |x| + 1) := by
  have hpos : 0 < |x| := abs_pos.2 hx
  constructor
  · simpa using Int.zpow_log_le_self (b := 2) (by norm_num) hpos
  · simpa using Int.lt_zpow_succ_log_self (b := 2) (by norm_num) |x|

/-- Rounding below the overflow range: the result is finite and differs from the exact
value by at most half a unit in the last place, that is by at most `|x| / 2^p` in the
normal range and by at most `2^(emin-1)` in the subnormal range. -/
theorem roundTo_error (p : ℕ) (emin emax : ℤ) (hp : 1 ≤ p) (hmm : emin < emax) (x : K)
    (hx : |x| ≤ 2 ^ (emax - 1)) :
    ∃ y : K, roundTo p emin emax x = Fp.fin y
      ∧ |y - x| ≤ |x| / 2 ^ p + 2 ^ (emin - 1)
      ∧ ((2 : K) ^ (emin + p - 1) ≤ |x| → |y - x| ≤ |x| / 2 ^ p) := by
  have h2 : (0 : K) < 2 := by norm_num
  have h1 : (1 : K) < 2 := by norm_num
  by_cases hx0 : x = 0
  · refine ⟨0, by rw [hx0]; simp [roundTo], ?_, ?_⟩
    · rw [hx0]; simp; positivity
    · intro _; rw [hx0]; simp
  obtain ⟨hlo, hhi⟩ := log2_bounds x hx0
  have hxpos : 0 < |x| := abs_pos.2 hx0
  have he : Int.log 2 |x| ≤ emax - 1 :=
    (zpow_le_zpow_iff_right₀ h1).1 (le_trans hlo hx)
  unfold roundTo
  rw [if_neg hx0]
  simp only
  generalize hq : max (Int.log 2 |x| - ((p : ℤ) - 1)) emin = q
  have hqmax : q ≤ emax - 1 := by
    rw [← hq]
    apply max_le <;> omega
  have hq0 : (0 : K) < 2 ^ q := zpow_pos h2 q
  have herr : |(roundHalfEven (x / 2 ^ q) : K) * 2 ^ q - x| ≤ 2 ^ q / 2 := by
    have := roundHalfEven_abs_sub_le (x / 2 ^ q)
    have hfac : (roundHalfEven (x / 2 ^ q) : K) * 2 ^ q - x
        = ((roundHalfEven (x / 2 ^ q) : K) - x / 2 ^ q) * 2 ^ q := by
      field_simp
    rw [hfac, abs_mul, abs_of_pos hq0]
    calc |(roundHalfEven (x / 2 ^ q) : K) - x / 2 ^ q| * 2 ^ q ≤ 1 / 2 * 2 ^ q :=
          mul_le_mul_of_nonneg_right this (le_of_lt hq0)
      _ = 2 ^ q / 2 := by ring
  have hqle : (2 : K) ^ q ≤ 2 ^ (emax - 1) := zpow_le_zpow_right₀ (le_of_lt h1) hqmax
  have hemax : (2 : K) ^ emax = 2 * 2 ^ (emax - 1) := by
    rw [show emax = 1 + (emax - 1) by ring, zpow_add₀ (ne_of_gt h2)]
    simp
  have hnov : ¬ ((2 : K) ^ emax ≤ |(roundHalfEven (x / 2 ^ q) : K) * 2 ^ q|) := by
    rw [not_le]
    have h3 : |(roundHalfEven (x / 2 ^ q) : K) * 2 ^ q| ≤ |x| + 2 ^ q / 2 := by
      have := abs_sub_abs_le_abs_sub ((roundHalfEven (x / 2 ^ q) : K) * 2 ^ q) x
      linarith
    have h4 : (0 : K) < 2 ^ (emax - 1) := zpow_pos h2 _
    rw [hemax]
    linarith
  rw [if_neg hnov]
  have hcase : (2 : K) ^ q / 2 ≤ |x| / 2 ^ p ∨ (2 : K) ^ q / 2 = 2 ^ (emin - 1) := by
    rcases le_total (Int.log 2 |x| - ((p : ℤ) - 1)) emin with h | h
    · right
      have : q = emin := by rw [← hq]; exact max_eq_right h
      rw [this, show emin = 1 + (emin - 1) by ring, zpow_add₀ (ne_of_gt h2)]
      simp
    · left
      have hqe : q = Int.log 2 |x| - ((p : ℤ) - 1) := by rw [← hq]; exact max_eq_left h
      have hq2 : (2 : K) ^ q / 2 = 2 ^ Int.log 2 |x| / 2 ^ p := by
        rw [hqe, show Int.log 2 |x| - ((p : ℤ) - 1) = Int.log 2 |x| - (p : ℤ) + 1 by ring,
          zpow_add₀ (ne_of_gt h2), zpow_sub₀ (ne_of_gt h2), zpow_natCast]
        simp
      rw [hq2]
      exact div_le_div_of_nonneg_right hlo (le_of_lt (pow_pos h2 p))
  have hpos1 : (0 : K) ≤ |x| / 2 ^ p := div_nonneg (abs_nonneg x) (le_of_lt (pow_pos h2 p))
  have hpos2 : (0 : K) < 2 ^ (emin - 1) := zpow_pos h2 _
  refine ⟨_, rfl, ?_, ?_⟩
  · rcases hcase with h | h
    · linarith
    · linarith
  · intro hnormal
    have hlog : emin + (p : ℤ) - 1 ≤ Int.log 2 |x| := by
      have := (zpow_lt_zpow_iff_right₀ h1).1 (lt_of_le_of_lt hnormal hhi)
      omega
    have hqe : q = Int.log 2 |x| - ((p : ℤ) - 1) := by
      rw [← hq]; exact max_eq_left (by omega)
    have hq2 : (2 : K) ^ q / 2 = 2 ^ Int.log 2 |x| / 2 ^ p := by
      rw [hqe, show Int.log 2 |x| - ((p : ℤ) - 1) = Int.log 2 |x| - (p : ℤ) + 1 by ring,
        zpow_add₀ (ne_of_gt h2), zpow_sub₀ (ne_of_gt h2), zpow_natCast]
      simp
    rw [hq2] at herr
    exact le_trans herr (div_le_div_of_nonneg_right hlo (le_of_lt (pow_pos h2 p)))

/-- Rounding in the overflow range gives the infinity of the sign. -/
theorem roundTo_overflow (p : ℕ) (emin emax : ℤ) (hp : 1 ≤ p) (hmm : emin ≤ emax) (x : K)
    (hx : 2 ^ emax ≤ |x|) :
    roundTo p emin emax x = if 0 < x then Fp.pinf else Fp.ninf := by
  have h2 : (0 : K) < 2 := by norm_num
  have h1 : (1 : K) < 2 := by norm_num
  have hxpos : 0 < |x| := lt_of_lt_of_le (zpow_pos h2 _) hx
  have hx0 : x ≠ 0 := abs_pos.1 hxpos
  obtain ⟨hlo, hhi⟩ := log2_bounds x hx0
  have he : emax ≤ Int.log 2 |x| := by
    have := (zpow_lt_zpow_iff_right₀ h1).1 (lt_of_le_of_lt hx hhi)
    omega
  unfold roundTo
  rw [if_neg hx0]
  simp only
  generalize hq : max (Int.log 2 |x| - ((p : ℤ) - 1)) emin = q
  have hqe : q ≤ Int.log 2 |x| := by
    rw [← hq]
    apply max_le <;> omega
  obtain ⟨d, hd⟩ : ∃ d : ℕ, Int.log 2 |x| = q + d := ⟨(Int.log 2 |x| - q).toNat, by omega⟩
  have hq0 : (0 : K) < 2 ^ q := zpow_pos h2 q
  have hpow : (2 : K) ^ Int.log 2 |x| = ((2 ^ d : ℤ) : K) * 2 ^ q := by
    rw [hd, zpow_add₀ (ne_of_gt h2), zpow_natCast]
    push_cast
    ring
  have hbig : (2 : K) ^ emax ≤ |(roundHalfEven (x / 2 ^ q) : K) * 2 ^ q| := by
    have hle : (2 : K) ^ emax ≤ 2 ^ Int.log 2 |x| := zpow_le_zpow_right₀ (le_of_lt h1) he
    refine le_trans hle ?_
    rw [abs_mul, abs_of_pos hq0, hpow]
    apply mul_le_mul_of_nonneg_right _ (le_of_lt hq0)
    have hz : ((2 ^ d : ℤ) : K) ≤ |x| / 2 ^ q := by
      rw [le_div_iff₀ hq0, ← hpow]
      exact hlo
    rcases le_or_lt 0 x with hs | hs
    · rw [abs_of_nonneg hs] at hz
      have := le_roundHalfEven_of_le (x / 2 ^ q) (2 ^ d) hz
      have h3 : ((2 ^ d : ℤ) : K) ≤ (roundHalfEven (x / 2 ^ q) : K) := Int.cast_le.2 this
      exact le_trans h3 (le_abs_self _)
    · rw [abs_of_neg hs] at hz
      have hz2 : x / 2 ^ q ≤ ((-(2 ^ d) : ℤ) : K) := by
        push_cast
        push_cast at hz
        rw [neg_div] at hz
        linarith
      have := roundHalfEven_le_of_le (x / 2 ^ q) (-(2 ^ d)) hz2
      have h3 : (roundHalfEven (x / 2 ^ q) : K) ≤ ((-(2 ^ d) : ℤ) : K) := Int.cast_le.2 this
      have h4 : ((2 ^ d : ℤ) : K) ≤ -(roundHalfEven (x / 2 ^ q) : K) := by
        push_cast at h3 ⊢
        linarith
      exact le_trans h4 (neg_le_abs _)
  rw [if_pos hbig]

/-- Rounding a number below half the least subnormal gives zero. -/
theorem roundTo_underflow (p : ℕ) (emin emax : ℤ) (hp : 1 ≤ p) (x : K)
    (hx : |x| < 2 ^ (emin - 1)) : roundTo p emin emax x = Fp.fin 0 := by
  have h2 : (0 : K) < 2 := by norm_num
  have h1 : (1 : K) < 2 := by norm_num
  by_cases hx0 : x = 0
  · rw [hx0]; simp [roundTo]
  obtain ⟨hlo, hhi⟩ := log2_bounds x hx0
  have he : Int.log 2 |x| < emin - 1 := (zpow_lt_zpow_iff_right₀ h1).1 (lt_of_le_of_lt hlo hx)
  unfold roundTo
  rw [if_neg hx0]
  simp only
  have hq : max (Int.log 2 |x| - ((p : ℤ) - 1)) emin = emin := max_eq_right (by omega)
  rw [hq]
  have hq0 : (0 : K) < 2 ^ emin := zpow_pos h2 emin
  have hz : |x / 2 ^ emin - ((0 : ℤ) : K)| < 1 / 2 := by
    rw [Int.cast_zero, sub_zero, abs_div, abs_of_pos hq0, div_lt_iff₀ hq0]
    have : (2 : K) ^ (emin - 1) = 1 / 2 * 2 ^ emin := by
      rw [zpow_sub₀ (ne_of_gt h2)]
      simp
      ring
    linarith
  rw [roundHalfEven_of_abs_lt _ 0 hz]
  have hnov : ¬ ((2 : K) ^ emax ≤ |((0 : ℤ) : K) * 2 ^ emin|) := by
    rw [Int.cast_zero, zero_mul, abs_zero, not_le]
    exact zpow_pos h2 emax
  rw [if_neg hnov, Int.cast_zero, zero_mul]

end RoundingBounds2

section RoundingBounds3

variable {K : Type} [LinearOrderedField K] [FloorRing K]

/-- Rounding does not fall below the power of two under the number: the result is the
infinity of the sign or a finite value of magnitude at least `2^k`, for every `2^k` under
the magnitude of the number. -/
theorem roundTo_abs_ge (p : ℕ) (emin emax : ℤ) (hp : 1 ≤ p) (x : K) (k : ℤ) (hk : emin ≤ k)
    (hx : 2 ^ k ≤ |x|) :
    roundTo p emin emax x = (if 0 < x then Fp.pinf else Fp.ninf)
      ∨ ∃ y : K, roundTo p emin emax x = Fp.fin y ∧ 2 ^ k ≤ |y| := by
  have h2 : (0 : K) < 2 := by norm_num
  have h1 : (1 : K) < 2 := by norm_num
  have hxpos : 0 < |x| := lt_of_lt_of_le (zpow_pos h2 _) hx
  have hx0 : x ≠ 0 := abs_pos.1 hxpos
  obtain ⟨hlo, hhi⟩ := log2_bounds x hx0
  have he : k ≤ Int.log 2 |x| := by
    have := (zpow_lt_zpow_iff_right₀ h1).1 (lt_of_le_of_lt hx hhi)
    omega
  unfold roundTo
  rw [if_neg hx0]
  simp only
  generalize hq : max (Int.log 2 |x| - ((p : ℤ) - 1)) emin = q
  have hqe : q ≤ Int.log 2 |x| := by
    rw [← hq]
    apply max_le <;> omega
  obtain ⟨d, hd⟩ : ∃ d : ℕ, Int.log 2 |x| = q + d := ⟨(Int.log 2 |x| - q).toNat, by omega⟩
  have hq0 : (0 : K) < 2 ^ q := zpow_pos h2 q
  have hpow : (2 : K) ^ Int.log 2 |x| = ((2 ^ d : ℤ) : K) * 2 ^ q := by
    rw [hd, zpow_add₀ (ne_of_gt h2), zpow_natCast]
    push_cast
    ring
  have hbig : (2 : K) ^ k ≤ |(roundHalfEven (x / 2 ^ q) : K) * 2 ^ q| := by
    have hle : (2 : K) ^ k ≤ 2 ^ Int.log 2 |x| := zpow_le_zpow_right₀ (le_of_lt h1) he
    refine le_trans hle ?_
    rw [abs_mul, abs_of_pos hq0, hpow]
    apply mul_le_mul_of_nonneg_right _ (le_of_lt hq0)
    have hz : ((2 ^ d : ℤ) : K) ≤ |x| / 2 ^ q := by
      rw [le_div_iff₀ hq0, ← hpow]
      exact hlo
    rcases le_or_lt 0 x with hs | hs
    · rw [abs_of_nonneg hs] at hz
      have := le_roundHalfEven_of_le (x / 2 ^ q) (2 ^ d) hz
      have h3 : ((2 ^ d : ℤ) : K) ≤ (roundHalfEven (x / 2 ^ q) : K) := Int.cast_le.2 this
      exact le_trans h3 (le_abs_self _)
    · rw [abs_of_neg hs] at hz
      have hz2 : x / 2 ^ q ≤ ((-(2 ^ d) : ℤ) : K) := by
        push_cast
        push_cast at hz
        rw [neg_div] at hz
        linarith
      have := roundHalfEven_le_of_le (x / 2 ^ q) (-(2 ^ d)) hz2
      have h3 : (roundHalfEven (x / 2 ^ q) : K) ≤ ((-(2 ^ d) : ℤ) : K) := Int.cast_le.2 this
      have h4 : ((2 ^ d : ℤ) : K) ≤ -(roundHalfEven (x / 2 ^ q) : K) := by
        push_cast at h3 ⊢
        linarith
      exact le_trans h4 (neg_le_abs _)
  by_cases hov : (2 : K) ^ emax ≤ |(roundHalfEven (x / 2 ^ q) : K) * 2 ^ q|
  · rw [if_pos hov]
    exact Or.inl rfl
  · rw [if_neg hov]
    exact Or.inr ⟨_, rfl, hbig⟩

/-- A positive number in the overflow range rounds to `+inf` in binary64. -/
theorem toFloat64_overflow_pos (x : K) (hx : 2 ^ (1024 : ℤ) ≤ x) : toFloat64 x = Fp.pinf := by
  have hpos : 0 < x := lt_of_lt_of_le (zpow_pos (by norm_num) _) hx
  have := roundTo_overflow (K := K) 53 (-1074) 1024 (by norm_num) (by norm_num) x
    (by rw [abs_of_pos hpos]; exact hx)
  rw [if_pos hpos] at this
  exact this

/-- Binary64 rounding below `2^1023`: finite, with relative error at most `2^-53` in the
normal range. -/
theorem toFloat64_error (x : K) (hx : |x| ≤ 2 ^ (1023 : ℤ)) :
    ∃ y : K, toFloat64 x = Fp.fin y ∧ |y - x| ≤ |x| / 2 ^ 53 + 2 ^ (-1075 : ℤ)
      ∧ ((2 : K) ^ (-1022 : ℤ) ≤ |x| → |y - x| ≤ |x| / 2 ^ 53) := by
  have he1 : ((1024 : ℤ) - 1) = 1023 := by norm_num
  have he2 : ((-1074 : ℤ) - 1) = -1075 := by norm_num
  have he3 : ((-1074 : ℤ) + ((53 : ℕ) : ℤ) - 1) = -1022 := by norm_num
  have := roundTo_error (K := K) 53 (-1074) 1024 (by norm_num) (by norm_num) x
    (by rw [he1]; exact hx)
  rw [he2, he3] at this
  exact this

/-- Binary64 rounding of a number below half the least subnormal gives 0. -/
theorem toFloat64_underflow (x : K) (hx : |x| < 2 ^ (-1075 : ℤ)) : toFloat64 x = Fp.fin 0 :=
  roundTo_underflow 53 (-1074) 1024 (by norm_num) x
    (by rw [show ((-1074 : ℤ) - 1) = -1075 by norm_num]; exact hx)

end RoundingBounds3

/-! ## The potential in IEEE-754 arithmetic -/

section Chain

variable {K : Type} [LinearOrderedField K] [FloorRing K]

/-- A nonzero number that rounding leaves unchanged is `n * 2^q` with a significand `n` of
at most `p` bits and an exponent `q` in range, and lies below the overflow threshold. -/
theorem roundTo_fixed (p : ℕ) (emin emax : ℤ) (x : K) (hx : x ≠ 0)
    (h : roundTo p emin emax x = Fp.fin x) :
    ∃ n q : ℤ, x = (n : K) * 2 ^ q ∧ |n| < 2 ^ p ∧ emin ≤ q ∧ |x| < 2 ^ emax := by
  have h2 : (0 : K) < 2 := by norm_num
  obtain ⟨_, hhi⟩ := log2_bounds x hx
  unfold roundTo at h
  rw [if_neg hx] at h
  simp only at h
  generalize hq : max (Int.log 2 |x| - ((p : ℤ) - 1)) emin = q at h
  generalize hn : roundHalfEven (x / 2 ^ q) = n at h
  have hqlow : emin ≤ q := by rw [← hq]; exact le_max_right _ _
  have hqlog : Int.log 2 |x| - ((p : ℤ) - 1) ≤ q := by rw [← hq]; exact le_max_left _ _
  split_ifs at h with hov hsign
  have hy : (n : K) * 2 ^ q = x := Fp.fin.inj h
  have hq0 : (0 : K) < 2 ^ q := zpow_pos h2 q
  have hnK : |(n : K)| < 2 ^ p := by
    have h1 : |(n : K)| * 2 ^ q < (2 : K) ^ (p : ℤ) * 2 ^ q := by
      have : |(n : K)| * 2 ^ q = |x| := by rw [← hy, abs_mul, abs_of_pos hq0]
      rw [this, ← zpow_add₀ (ne_of_gt h2)]
      exact lt_of_lt_of_le hhi (zpow_le_zpow_right₀ (by norm_num) (by omega))
    have h3 := lt_of_mul_lt_mul_right h1 (le_of_lt hq0)
    rwa [zpow_natCast] at h3
  have hnZ : |n| < 2 ^ p := by
    have h1 : ((|n| : ℤ) : K) < ((2 ^ p : ℤ) : K) := by
      rw [Int.cast_abs]
      push_cast
      exact hnK
    exact Int.cast_lt.1 h1
  refine ⟨n, q, hy.symm, hnZ, hqlow, ?_⟩
  rw [hy] at hov
  exact not_le.1 hov

/-- The value of `lennard_jones` in IEEE-754 arithmetic when every step is finite: the
quotient `q`, the two powers, their difference `d`, the `float` product `c = 4*epsilon` and
the final product. -/
theorem lennard_jones_ieee_chain (e s r q P6 P12 d c v : K) (hr : r ≠ 0)
    (hq : toFloat64 (s / r) = Fp.fin q) (h12 : toFloat64 (q ^ 12) = Fp.fin P12)
    (h6 : toFloat64 (q ^ 6) = Fp.fin P6) (hd : toFloat64 (P12 + -P6) = Fp.fin d)
    (hc : toFloat32 (4 * e) = Fp.fin c) (hv : toFloat64 (c * d) = Fp.fin v) :
    lennard_jones Arith.ieee (Fp.fin e) (Fp.fin s) (Fp.fin r) = Fp.fin v := by
  have h12' : ¬ ((12 : ℕ) = 0) := by decide
  have h6' : ¬ ((6 : ℕ) = 0) := by decide
  simp only [lennard_jones, Arith.ieee, Fp.mul, Fp.sub, Fp.add, Fp.neg, Fp.pow, Fp.div,
    if_neg hr, if_neg h12', if_neg h6', hq, h12, h6, hd, hc, hv]

theorem toFloat64_zero : toFloat64 (0 : K) = Fp.fin 0 := by
  simp [toFloat64, roundTo]

theorem toFloat64_one : toFloat64 (1 : K) = Fp.fin 1 := by
  have := roundTo_exact (K := K) 53 (-1074) 1024 1 0 (by norm_num) (by norm_num) (by norm_num)
  simpa [toFloat64] using this

/-- Four times a `float` of magnitude below `2^126` is a `float`. -/
theorem toFloat32_four_mul (e : K) (he : toFloat32 e = Fp.fin e) (hb : |e| < 2 ^ 126) :
    toFloat32 (4 * e) = Fp.fin (4 * e) := by
  by_cases h0 : e = 0
  · rw [h0]; simp [toFloat32, roundTo]
  obtain ⟨n, q, hx, hn, hq, _⟩ := roundTo_fixed 24 (-149) 128 e h0 he
  have h4 : 4 * e = (n : K) * 2 ^ (q + 2) := by
    rw [hx, zpow_add₀ (by norm_num : (2 : K) ≠ 0)]
    norm_num
    ring
  have hb4 : |4 * e| < 2 ^ (128 : ℤ) := by
    rw [abs_mul, abs_of_pos (by norm_num : (0 : K) < 4)]
    have : (2 : K) ^ (128 : ℤ) = 4 * 2 ^ 126 := by norm_num
    rw [this]
    linarith
  rw [h4] at hb4 ⊢
  exact roundTo_exact 24 (-149) 128 n (q + 2) hn (by omega) hb4

end Chain

/-- At `r = sigma` the difference of the two powers is 0, and the result is the product of
the `float` value of `4*epsilon` with 0. -/
theorem lennard_jones_ieee_at_sigma {K : Type} [LinearOrderedField K] [FloorRing K]
    (e s : K) (hs : s ≠ 0) :
    lennard_jones Arith.ieee (Fp.fin e) (Fp.fin s) (Fp.fin s)
      = Fp.mul toFloat64 (toFloat32 (4 * e)) (Fp.fin 0) := by
  have h12 : ¬ ((12 : ℕ) = 0) := by decide
  have h6 : ¬ ((6 : ℕ) = 0) := by decide
  simp only [lennard_jones, Arith.ieee, Fp.mul, Fp.sub, Fp.add, Fp.neg, Fp.pow, Fp.div,
    if_neg hs, if_neg h12, if_neg h6, div_self hs, toFloat64_one, one_pow, add_neg_cancel,
    toFloat64_zero]

theorem toFloat32_four_mul_two_pow_126 : toFloat32 ((4 : ℚ) * 2 ^ 126) = Fp.pinf := by
  have h1 : (2 : ℚ) ^ (128 : ℤ) ≤ |(4 : ℚ) * 2 ^ 126| := by norm_num [abs_of_pos]
  have h2 : (0 : ℚ) < (4 : ℚ) * 2 ^ 126 := by norm_num
  have := roundTo_overflow (K := ℚ) 24 (-149) 128 (by norm_num) (by norm_num)
    ((4 : ℚ) * 2 ^ 126) h1
  rw [if_pos h2] at this
  exact this

/-- C4, counterexample: with `epsilon = 2^126` the `float` product `4*epsilon` overflows
to infinity, and at `r = sigma` the result is `inf * 0`, which is NaN and not 0. -/
theorem lennard_jones_zero_crossing_overflow :
    lennard_jones Arith.ieee (Fp.fin ((2 : ℚ) ^ 126)) sigma sigma = Fp.nan
      ∧ ¬ (lennard_jones Arith.ieee (Fp.fin ((2 : ℚ) ^ 126)) sigma sigma = Fp.fin 0) := by
  have hval : lennard_jones Arith.ieee (Fp.fin ((2 : ℚ) ^ 126)) sigma sigma = Fp.nan := by
    rw [sigma_eq, lennard_jones_ieee_at_sigma _ _ (by norm_num),
      toFloat32_four_mul_two_pow_126]
    simp only [Fp.mul, Fp.infTimes, lt_irrefl, if_false]
  refine ⟨hval, ?_⟩
  rw [hval]
  intro h
  cases h

/-- C4, amended: zero crossing.  In IEEE-754 arithmetic, for every `sigma > 0` and every
`float` `epsilon` of magnitude below `2^126` (so that the `float` product `4*epsilon` is
finite), `lennard_jones` evaluated at `r = sigma` is 0: the quotient is 1, both powers are
1 and their difference is 0. -/
theorem lennard_jones_zero_crossing {K : Type} [LinearOrderedField K] [FloorRing K]
    (e s : K) (hs : 0 < s) (he : toFloat32 e = Fp.fin e) (hb : |e| < 2 ^ 126) :
    lennard_jones Arith.ieee (Fp.fin e) (Fp.fin s) (Fp.fin s) = Fp.fin 0 := by
  apply lennard_jones_ieee_chain e s s 1 1 1 0 (4 * e) 0 (ne_of_gt hs)
  · rw [div_self (ne_of_gt hs)]; exact toFloat64_one
  · rw [one_pow]; exact toFloat64_one
  · rw [one_pow]; exact toFloat64_one
  · rw [add_neg_cancel]; exact toFloat64_zero
  · exact toFloat32_four_mul e he hb
  · rw [mul_zero]; exact toFloat64_zero

/-- The constant `epsilon` of the program is a `float` below `2^126`. -/
theorem epsilon_is_float :
    toFloat32 (5190451 / 262144 : ℚ) = Fp.fin (5190451 / 262144) := by
  have := roundTo_exact (K := ℚ) 24 (-149) 128 10380902 (-19) (by norm_num) (by norm_num)
    (by norm_num [abs_of_pos])
  have hv : ((10380902 : ℤ) : ℚ) * 2 ^ (-19 : ℤ) = 5190451 / 262144 := by norm_num
  rw [hv] at this
  exact this

/-- Witness of C4: the constants of the program. -/
theorem lennard_jones_zero_crossing_witness :
    (0 : ℚ) < 3544187 / 1048576
      ∧ toFloat32 (5190451 / 262144 : ℚ) = Fp.fin (5190451 / 262144)
      ∧ |(5190451 / 262144 : ℚ)| < 2 ^ 126
      ∧ lennard_jones Arith.ieee (Fp.fin (5190451 / 262144 : ℚ)) (Fp.fin (3544187 / 1048576))
          (Fp.fin (3544187 / 1048576)) = Fp.fin 0 :=
  ⟨by norm_num, epsilon_is_float, by norm_num [abs_of_pos],
    lennard_jones_zero_crossing (5190451 / 262144 : ℚ) (3544187 / 1048576) (by norm_num)
      epsilon_is_float (by norm_num [abs_of_pos])⟩

/-! ## Overflow and underflow of the potential -/

section Extremes

/-- An even power `n` of a `double` of magnitude at least `2^k` overflows when
`k * n ≥ 1024`. -/
theorem pow_overflow (y : ℚ) (n : ℕ) (k : ℤ) (hn : n ≠ 0) (hk : 1024 ≤ k * n) (he : Even n)
    (hy : 2 ^ k ≤ |y|) : Fp.pow toFloat64 (Fp.fin y) n = Fp.pinf := by
  have hn0 : ¬ (n = 0) := hn
  have h1 : ((2 : ℚ) ^ k) ^ n ≤ |y| ^ n :=
    pow_le_pow_left₀ (le_of_lt (zpow_pos (by norm_num) _)) hy n
  have h2 : (2 : ℚ) ^ (1024 : ℤ) ≤ ((2 : ℚ) ^ k) ^ n := by
    rw [← zpow_natCast, ← zpow_mul]
    exact zpow_le_zpow_right₀ (by norm_num) hk
  have h3 : |y| ^ n = y ^ n := he.pow_abs y
  simp only [Fp.pow, if_neg hn0]
  exact toFloat64_overflow_pos _ (by rw [← h3]; exact le_trans h2 h1)

/-- Below `2^-170` the quotient `sigma/r` is so large that both powers overflow: the
result is `inf - inf`, NaN, whatever `epsilon` holds. -/
theorem lennard_jones_nan_of_tiny (eps : Fp ℚ) (r : ℚ) (hr0 : r ≠ 0)
    (hr : |r| ≤ 2 ^ (-170 : ℤ)) : lennard_jones Arith.ieee eps sigma (Fp.fin r) = Fp.nan := by
  have hrpos : 0 < |r| := abs_pos.2 hr0
  have ht : (2 : ℚ) ^ (171 : ℤ) ≤ |(3544187 / 1048576 : ℚ) / r| := by
    rw [abs_div, le_div_iff₀ hrpos]
    have h1 : (2 : ℚ) ^ (171 : ℤ) * |r| ≤ 2 ^ (171 : ℤ) * 2 ^ (-170 : ℤ) :=
      mul_le_mul_of_nonneg_left hr (le_of_lt (zpow_pos (by norm_num) _))
    have h2 : (2 : ℚ) ^ (171 : ℤ) * 2 ^ (-170 : ℤ) = 2 := by
      rw [← zpow_add₀ (by norm_num : (2 : ℚ) ≠ 0)]
      norm_num
    have h3 : (2 : ℚ) ≤ |(3544187 / 1048576 : ℚ)| := by norm_num [abs_of_pos]
    linarith
  have hpows : Fp.pow toFloat64 (toFloat64 ((3544187 / 1048576 : ℚ) / r)) 12 = Fp.pinf
      ∧ Fp.pow toFloat64 (toFloat64 ((3544187 / 1048576 : ℚ) / r)) 6 = Fp.pinf := by
    rcases roundTo_abs_ge (K := ℚ) 53 (-1074) 1024 (by norm_num)
      ((3544187 / 1048576 : ℚ) / r) 171 (by norm_num) ht with h | ⟨y, hy, hge⟩
    · have h' : toFloat64 ((3544187 / 1048576 : ℚ) / r)
          = if 0 < (3544187 / 1048576 : ℚ) / r then Fp.pinf else Fp.ninf := h
      rw [h']
      split_ifs <;> exact ⟨rfl, rfl⟩
    · have h' : toFloat64 ((3544187 / 1048576 : ℚ) / r) = Fp.fin y := hy
      rw [h']
      exact ⟨pow_overflow y 12 171 (by norm_num) (by norm_num) (by decide) hge,
        pow_overflow y 6 171 (by norm_num) (by norm_num) (by decide) hge⟩
  rw [sigma_eq]
  unfold lennard_jones
  have hdiv : Fp.div (Arith.ieee (K := ℚ)).toDouble (Fp.fin (3544187 / 1048576)) (Fp.fin r)
      = toFloat64 ((3544187 / 1048576 : ℚ) / r) := by
    simp only [Fp.div, if_neg hr0, Arith.ieee]
  rw [hdiv]
  have hD : (Arith.ieee (K := ℚ)).toDouble = toFloat64 := rfl
  rw [hD, hpows.1, hpows.2]
  have : Fp.sub toFloat64 (Fp.pinf : Fp ℚ) Fp.pinf = Fp.nan := rfl
  rw [this, mul_nan]

/-- The `float` product `4*epsilon` of the program is exact. -/
theorem four_epsilon_exact :
    toFloat32 ((4 : ℚ) * (5190451 / 262144)) = Fp.fin (4 * (5190451 / 262144)) :=
  toFloat32_four_mul _ epsilon_is_float (by norm_num [abs_of_pos])

end Extremes

section Extremes2

/-- An even power `n ≥ 6` of a `double` of magnitude at most `2^-187` underflows to 0. -/
theorem pow_underflow (y : ℚ) (n : ℕ) (hn : 6 ≤ n) (hy : |y| ≤ 2 ^ (-187 : ℤ)) :
    Fp.pow toFloat64 (Fp.fin y) n = Fp.fin 0 := by
  have hn0 : ¬ (n = 0) := by omega
  have h1 : |y| ^ n ≤ ((2 : ℚ) ^ (-187 : ℤ)) ^ n := pow_le_pow_left₀ (abs_nonneg y) hy n
  have h2 : ((2 : ℚ) ^ (-187 : ℤ)) ^ n < 2 ^ (-1075 : ℤ) := by
    rw [← zpow_natCast ((2 : ℚ) ^ (-187 : ℤ)) n, ← zpow_mul]
    exact zpow_lt_zpow_right₀ (by norm_num) (by omega)
  simp only [Fp.pow, if_neg hn0]
  exact toFloat64_underflow _ (by rw [abs_pow]; exact lt_of_le_of_lt h1 h2)

/-- From `2^190` on the quotient `sigma/r` is so small that both powers underflow to 0:
the result is 0. -/
theorem lennard_jones_zero_of_huge (r : ℚ) (hr : 2 ^ (190 : ℤ) ≤ |r|) :
    lennard_jones Arith.ieee epsilon sigma (Fp.fin r) = Fp.fin 0 := by
  have hrpos : 0 < |r| := lt_of_lt_of_le (zpow_pos (by norm_num) _) hr
  have hr0 : r ≠ 0 := abs_pos.1 hrpos
  have hs : |(3544187 / 1048576 : ℚ)| = 3544187 / 1048576 := abs_of_pos (by norm_num)
  have h188 : (0 : ℚ) < 2 ^ (-188 : ℤ) := zpow_pos (by norm_num) _
  have ht : |(3544187 / 1048576 : ℚ) / r| ≤ 2 ^ (-188 : ℤ) := by
    rw [abs_div, div_le_iff₀ hrpos, hs]
    have h1 : (2 : ℚ) ^ (-188 : ℤ) * 2 ^ (190 : ℤ) ≤ 2 ^ (-188 : ℤ) * |r| :=
      mul_le_mul_of_nonneg_left hr (le_of_lt h188)
    have h2 : (2 : ℚ) ^ (-188 : ℤ) * 2 ^ (190 : ℤ) = 4 := by
      rw [← zpow_add₀ (by norm_num : (2 : ℚ) ≠ 0)]
      norm_num
    linarith [show (3544187 / 1048576 : ℚ) ≤ 4 by norm_num]
  have hle : (2 : ℚ) ^ (-188 : ℤ) ≤ 2 ^ (1023 : ℤ) :=
    zpow_le_zpow_right₀ (by norm_num) (by norm_num)
  obtain ⟨q, hq, hqe, _⟩ := toFloat64_error ((3544187 / 1048576 : ℚ) / r) (le_trans ht hle)
  have hsub1 := abs_sub_abs_le_abs_sub q ((3544187 / 1048576 : ℚ) / r)
  have htpos : 0 ≤ |(3544187 / 1048576 : ℚ) / r| := abs_nonneg _
  have hfrac : |(3544187 / 1048576 : ℚ) / r| / 2 ^ 53 ≤ |(3544187 / 1048576 : ℚ) / r| / 2 :=
    div_le_div_of_nonneg_left htpos (by norm_num) (by norm_num)
  have htiny : (2 : ℚ) ^ (-1075 : ℤ) ≤ 2 ^ (-188 : ℤ) / 2 := by
    rw [le_div_iff₀ (by norm_num : (0 : ℚ) < 2)]
    have : (2 : ℚ) ^ (-1075 : ℤ) * 2 = 2 ^ (-1074 : ℤ) := by
      rw [show (-1074 : ℤ) = -1075 + 1 by norm_num, zpow_add₀ (by norm_num : (2 : ℚ) ≠ 0)]
      norm_num
    rw [this]
    exact zpow_le_zpow_right₀ (by norm_num) (by norm_num)
  have hq1 : |q| ≤ 2 ^ (-187 : ℤ) := by
    have h3 : (2 : ℚ) ^ (-187 : ℤ) = 2 * 2 ^ (-188 : ℤ) := by
      rw [show (-187 : ℤ) = 1 + -188 by norm_num, zpow_add₀ (by norm_num : (2 : ℚ) ≠ 0)]
      norm_num
    rw [h3]
    generalize (2 : ℚ) ^ (-188 : ℤ) = C at ht htiny
    generalize (2 : ℚ) ^ (-1075 : ℤ) = B at hqe htiny
    generalize |(3544187 / 1048576 : ℚ) / r| / 2 ^ 53 = A at hqe hfrac
    linarith
  have h12 := pow_underflow q 12 (by norm_num) hq1
  have h6 := pow_underflow q 6 (by norm_num) hq1
  rw [epsilon_eq, sigma_eq]
  unfold lennard_jones
  have hdiv : Fp.div (Arith.ieee (K := ℚ)).toDouble (Fp.fin (3544187 / 1048576)) (Fp.fin r)
      = Fp.fin q := by
    simp only [Fp.div, if_neg hr0, Arith.ieee, hq]
  have hD : (Arith.ieee (K := ℚ)).toDouble = toFloat64 := rfl
  have hF : (Arith.ieee (K := ℚ)).toFloat = toFloat32 := rfl
  rw [hdiv, hD, hF, h12, h6]
  have hsub : Fp.sub toFloat64 (Fp.fin (0 : ℚ)) (Fp.fin 0) = Fp.fin 0 := by
    simp only [Fp.sub, Fp.neg, Fp.add, neg_zero, add_zero]
    exact toFloat64_zero
  have hmul4 : Fp.mul toFloat32 (Fp.fin (4 : ℚ)) (Fp.fin (5190451 / 262144))
      = Fp.fin (4 * (5190451 / 262144)) := by
    rw [Fp.mul]
    exact four_epsilon_exact
  rw [hsub, hmul4]
  simp only [Fp.mul, mul_zero]
  exact toFloat64_zero

end Extremes2

section Accuracy

variable {K : Type} [LinearOrderedField K]

/-- A power of a number known with relative error `u`. -/
theorem pow_rel_error (q t u : K) (hu : 0 ≤ u) (h : |q - t| ≤ u * |t|) (n : ℕ) :
    |q ^ n - t ^ n| ≤ ((1 + u) ^ n - 1) * |t| ^ n := by
  have hq : |q| ≤ (1 + u) * |t| := by
    have := abs_sub_abs_le_abs_sub q t
    linarith
  induction n with
  | zero => simp
  | succ n ih =>
    have hE : 0 ≤ (1 + u) ^ n - 1 := by
      have : (1 : K) ≤ (1 + u) ^ n := one_le_pow₀ (by linarith)
      linarith
    have htn : 0 ≤ |t| ^ n := pow_nonneg (abs_nonneg t) n
    have hsplit : q ^ (n + 1) - t ^ (n + 1) = (q ^ n - t ^ n) * q + t ^ n * (q - t) := by ring
    have h1 : |(q ^ n - t ^ n) * q| ≤ ((1 + u) ^ n - 1) * |t| ^ n * ((1 + u) * |t|) := by
      rw [abs_mul]
      exact mul_le_mul ih hq (abs_nonneg q) (mul_nonneg hE htn)
    have h2 : |t ^ n * (q - t)| ≤ |t| ^ n * (u * |t|) := by
      rw [abs_mul, abs_pow]
      exact mul_le_mul_of_nonneg_left h htn
    calc |q ^ (n + 1) - t ^ (n + 1)|
        = |(q ^ n - t ^ n) * q + t ^ n * (q - t)| := by rw [hsplit]
      _ ≤ |(q ^ n - t ^ n) * q| + |t ^ n * (q - t)| := abs_add _ _
      _ ≤ ((1 + u) ^ n - 1) * |t| ^ n * ((1 + u) * |t|) + |t| ^ n * (u * |t|) := add_le_add h1 h2
      _ = ((1 + u) ^ (n + 1) - 1) * |t| ^ (n + 1) := by ring

/-- Rounding a number that is itself within relative error `ε` of `a`. -/
theorem rel_error_compose (x y a ε u : K) (ha : 0 ≤ a) (hu : 0 ≤ u)
    (h1 : |x - a| ≤ ε * a) (h2 : |y - x| ≤ u * |x|) :
    |y - a| ≤ (ε + u * (1 + ε)) * a := by
  have hx : |x| ≤ (1 + ε) * a := by
    have := abs_sub_abs_le_abs_sub x a
    rw [abs_of_nonneg ha] at this
    linarith
  have h3 : u * |x| ≤ u * ((1 + ε) * a) := mul_le_mul_of_nonneg_left hx hu
  calc |y - a| = |(y - x) + (x - a)| := by ring_nf
    _ ≤ |y - x| + |x - a| := abs_add _ _
    _ ≤ u * ((1 + ε) * a) + ε * a := by linarith
    _ = (ε + u * (1 + ε)) * a := by ring

end Accuracy

section Accuracy2

variable {K : Type} [LinearOrderedField K] [FloorRing K]

/-- One call of `pow` on a quotient known with relative error `2^-53`: the rounded even
power is within relative error `E + 2^-53 (1 + E)` of the exact power, where `E` bounds
`(1 + 2^-53)^n - 1`. -/
theorem pow_step (t q E : K) (n : ℕ) (hn : Even n) (hq : |q - t| ≤ 1 / 2 ^ 53 * |t|)
    (hE : (1 + 1 / 2 ^ 53 : K) ^ n - 1 ≤ E) (hE2 : E ≤ 1 / 2)
    (hlo : 2 ^ (-1021 : ℤ) ≤ t ^ n) (hhi : t ^ n ≤ 2 ^ (1022 : ℤ)) :
    ∃ P : K, toFloat64 (q ^ n) = Fp.fin P
      ∧ |P - t ^ n| ≤ (E + 1 / 2 ^ 53 * (1 + E)) * t ^ n
      ∧ |P - q ^ n| ≤ 1 / 2 ^ 53 * |q ^ n| := by
  have hu : (0 : K) ≤ 1 / 2 ^ 53 := by positivity
  have htn : |t| ^ n = t ^ n := hn.pow_abs t
  have hpos : (0 : K) < t ^ n := lt_of_lt_of_le (zpow_pos (by norm_num) _) hlo
  have hE0 : 0 ≤ E := by
    have : (1 : K) ≤ (1 + 1 / 2 ^ 53) ^ n := one_le_pow₀ (by linarith)
    linarith
  have h1 : |q ^ n - t ^ n| ≤ E * t ^ n := by
    have := pow_rel_error q t (1 / 2 ^ 53) hu hq n
    rw [htn] at this
    exact le_trans this (mul_le_mul_of_nonneg_right hE (le_of_lt hpos))
  have habs1 := abs_sub_abs_le_abs_sub (q ^ n) (t ^ n)
  have habs2 := abs_sub_abs_le_abs_sub (t ^ n) (q ^ n)
  rw [abs_sub_comm] at habs2
  rw [abs_of_pos hpos] at habs1 habs2
  have hEt : E * t ^ n ≤ 1 / 2 * t ^ n := mul_le_mul_of_nonneg_right hE2 (le_of_lt hpos)
  have h1023 : (2 : K) ^ (1023 : ℤ) = 2 * 2 ^ (1022 : ℤ) := by
    rw [show (1023 : ℤ) = 1 + 1022 by norm_num, zpow_add₀ (by norm_num : (2 : K) ≠ 0)]
    norm_num
  have h1021 : (2 : K) ^ (-1021 : ℤ) = 2 * 2 ^ (-1022 : ℤ) := by
    rw [show (-1021 : ℤ) = 1 + -1022 by norm_num, zpow_add₀ (by norm_num : (2 : K) ≠ 0)]
    norm_num
  have hup : |q ^ n| ≤ 2 ^ (1023 : ℤ) := by rw [h1023]; linarith
  have hdown : (2 : K) ^ (-1022 : ℤ) ≤ |q ^ n| := by
    rw [h1021] at hlo
    linarith
  obtain ⟨P, hP, _, hPn⟩ := toFloat64_error (q ^ n) hup
  have hrel : |P - q ^ n| ≤ 1 / 2 ^ 53 * |q ^ n| := by
    have := hPn hdown
    rw [div_eq_mul_one_div, mul_comm] at this
    exact this
  exact ⟨P, hP,
    rel_error_compose (q ^ n) P (t ^ n) E (1 / 2 ^ 53) (le_of_lt hpos) hu h1 hrel, hrel⟩

end Accuracy2

section Accuracy3

/-- Bounds on the even powers of a quotient between `2^-80` and `2^80`. -/
theorem ratio_pow_bounds {K : Type} [LinearOrderedField K] (t : K) (hlo : 2 ^ (-80 : ℤ) ≤ |t|) (hhi : |t| ≤ 2 ^ (80 : ℤ)) :
    (2 : K) ^ (-480 : ℤ) ≤ t ^ 6 ∧ t ^ 6 ≤ 2 ^ (480 : ℤ)
      ∧ (2 : K) ^ (-960 : ℤ) ≤ t ^ 12 ∧ t ^ 12 ≤ 2 ^ (960 : ℤ) := by
  have h6 : |t| ^ 6 = t ^ 6 := (by decide : Even 6).pow_abs t
  have h12 : |t| ^ 12 = t ^ 12 := (by decide : Even 12).pow_abs t
  have hz : ∀ (k : ℤ) (n : ℕ), ((2 : K) ^ k) ^ n = 2 ^ (k * n) := by
    intro k n
    rw [← zpow_natCast ((2 : K) ^ k) n, ← zpow_mul]
  have hp : (0 : K) ≤ 2 ^ (-80 : ℤ) := le_of_lt (zpow_pos (by norm_num) _)
  have a1 := pow_le_pow_left₀ hp hlo 6
  have a2 := pow_le_pow_left₀ (abs_nonneg t) hhi 6
  have a3 := pow_le_pow_left₀ hp hlo 12
  have a4 := pow_le_pow_left₀ (abs_nonneg t) hhi 12
  rw [hz, h6] at a1 a2
  rw [hz, h12] at a3 a4
  norm_num at a1 a2 a3 a4 ⊢
  exact ⟨a1, a2, a3, a4⟩

/-- The error of the difference and of the final product, from the errors of the two
powers and of the two roundings. -/
theorem chain_error {K : Type} [LinearOrderedField K] (a A P6 P12 d c v η : K) (ha : 0 < a)
    (hA : 0 < A) (hη : 0 ≤ η)
    (hP6 : |P6 - a| ≤ 9 / 2 ^ 53 * a) (hP12 : |P12 - A| ≤ 15 / 2 ^ 53 * A)
    (hd : |d - (P12 + -P6)| ≤ |P12 + -P6| / 2 ^ 53 + η)
    (hv : |v - c * d| ≤ |c * d| / 2 ^ 53 + η) :
    |P12 + -P6| ≤ 2 * (A + a) ∧ |d| ≤ 2 * (A + a) + η
      ∧ |v - c * (A - a)| ≤ 19 / 2 ^ 53 * (|c| * (A + a)) + (2 * |c| + 1) * η := by
  have hdiff : |P12 + -P6 - (A - a)| ≤ 15 / 2 ^ 53 * (A + a) := by
    have h1 : P12 + -P6 - (A - a) = (P12 - A) + -(P6 - a) := by ring
    have h2 := abs_add (P12 - A) (-(P6 - a))
    rw [abs_neg] at h2
    rw [h1]
    have h3 : (9 : K) / 2 ^ 53 * a ≤ 15 / 2 ^ 53 * a :=
      mul_le_mul_of_nonneg_right (by norm_num) (le_of_lt ha)
    linarith
  have hD : |A - a| ≤ A + a := by
    rw [abs_le]
    constructor <;> linarith
  have hd'abs : |P12 + -P6| ≤ (1 + 15 / 2 ^ 53) * (A + a) := by
    have := abs_sub_abs_le_abs_sub (P12 + -P6) (A - a)
    linarith
  have hd'2 : |P12 + -P6| ≤ 2 * (A + a) := by
    have h1 : (1 + 15 / 2 ^ 53 : K) * (A + a) ≤ 2 * (A + a) :=
      mul_le_mul_of_nonneg_right (by norm_num) (by linarith)
    linarith
  have hdD : |d - (A - a)| ≤ 17 / 2 ^ 53 * (A + a) + η := by
    have h1 : d - (A - a) = (d - (P12 + -P6)) + (P12 + -P6 - (A - a)) := by ring
    have h2 := abs_add (d - (P12 + -P6)) (P12 + -P6 - (A - a))
    rw [h1]
    have h3 : |P12 + -P6| / 2 ^ 53 ≤ (1 + 15 / 2 ^ 53) * (A + a) / 2 ^ 53 :=
      div_le_div_of_nonneg_right hd'abs (by positivity)
    have h4 : (1 + 15 / 2 ^ 53 : K) * (A + a) / 2 ^ 53 ≤ 2 / 2 ^ 53 * (A + a) := by
      have : (1 + 15 / 2 ^ 53 : K) * (A + a) / 2 ^ 53
          = (1 + 15 / 2 ^ 53) / 2 ^ 53 * (A + a) := by ring
      rw [this]
      exact mul_le_mul_of_nonneg_right (by norm_num) (by linarith)
    linarith
  have hdabs : |d| ≤ 2 * (A + a) + η := by
    have := abs_sub_abs_le_abs_sub d (A - a)
    have h4 : (17 : K) / 2 ^ 53 * (A + a) ≤ 1 * (A + a) :=
      mul_le_mul_of_nonneg_right (by norm_num) (by linarith)
    linarith
  refine ⟨hd'2, hdabs, ?_⟩
  have hc0 : 0 ≤ |c| := abs_nonneg _
  have hcd : |c * d| ≤ |c| * (2 * (A + a) + η) := by
    rw [abs_mul]
    exact mul_le_mul_of_nonneg_left hdabs hc0
  have h1 : v - c * (A - a) = (v - c * d) + c * (d - (A - a)) := by ring
  have h2 := abs_add (v - c * d) (c * (d - (A - a)))
  have h3 : |c * (d - (A - a))| ≤ |c| * (17 / 2 ^ 53 * (A + a) + η) := by
    rw [abs_mul]
    exact mul_le_mul_of_nonneg_left hdD hc0
  have h4 : |c * d| / 2 ^ 53 ≤ |c| * (2 * (A + a) + η) / 2 ^ 53 :=
    div_le_div_of_nonneg_right hcd (by positivity)
  have h5 : |c| * η / 2 ^ 53 ≤ |c| * η := by
    apply div_le_self (mul_nonneg hc0 hη)
    norm_num
  rw [h1]
  have h6 : |c| * (2 * (A + a) + η) / 2 ^ 53
      = 2 / 2 ^ 53 * (|c| * (A + a)) + |c| * η / 2 ^ 53 := by ring
  have h7 : |c| * (17 / 2 ^ 53 * (A + a) + η)
      = 17 / 2 ^ 53 * (|c| * (A + a)) + |c| * η := by ring
  have h8 : (19 : K) / 2 ^ 53 * (|c| * (A + a)) + (2 * |c| + 1) * η
      = 2 / 2 ^ 53 * (|c| * (A + a)) + 17 / 2 ^ 53 * (|c| * (A + a))
        + 2 * (|c| * η) + η := by ring
  rw [h8]
  rw [h6] at h4
  rw [h7] at h3
  linarith

variable {K : Type} [LinearOrderedField K] [FloorRing K]

/-- The steps of `lennard_jones` in IEEE-754 arithmetic when the quotient `sigma/r` lies
between `2^-80` and `2^80` in magnitude and the `float` product `4*epsilon` is exact and at
most `2^40` in magnitude: every intermediate result is finite, the quotient `q` and the two
powers carry a relative error of `2^-53` each, the difference `d` and the result `v` an
error of `2^-53` relative (in the normal range) or `2^-1075` absolute. -/
theorem lennard_jones_ieee_steps (e s r : K) (hr : r ≠ 0)
    (hlo : 2 ^ (-80 : ℤ) ≤ |s / r|) (hhi : |s / r| ≤ 2 ^ (80 : ℤ))
    (hc : toFloat32 (4 * e) = Fp.fin (4 * e)) (he : |4 * e| ≤ 2 ^ (40 : ℤ)) :
    ∃ q P6 P12 d v : K,
      lennard_jones Arith.ieee (Fp.fin e) (Fp.fin s) (Fp.fin r) = Fp.fin v
      ∧ toFloat64 (s / r) = Fp.fin q
      ∧ |q - s / r| ≤ 1 / 2 ^ 53 * |s / r|
      ∧ |P6 - q ^ 6| ≤ 1 / 2 ^ 53 * |q ^ 6| ∧ |P12 - q ^ 12| ≤ 1 / 2 ^ 53 * |q ^ 12|
      ∧ |P6 - (s / r) ^ 6| ≤ 9 / 2 ^ 53 * (s / r) ^ 6
      ∧ |P12 - (s / r) ^ 12| ≤ 15 / 2 ^ 53 * (s / r) ^ 12
      ∧ |d - (P12 + -P6)| ≤ |P12 + -P6| / 2 ^ 53 + 2 ^ (-1075 : ℤ)
      ∧ ((2 : K) ^ (-1022 : ℤ) ≤ |P12 + -P6| → |d - (P12 + -P6)| ≤ |P12 + -P6| / 2 ^ 53)
      ∧ |v - 4 * e * d| ≤ |4 * e * d| / 2 ^ 53 + 2 ^ (-1075 : ℤ)
      ∧ ((2 : K) ^ (-1022 : ℤ) ≤ |4 * e * d| → |v - 4 * e * d| ≤ |4 * e * d| / 2 ^ 53) := by
  obtain ⟨ha1, ha2, hA1, hA2⟩ := ratio_pow_bounds (s / r) hlo hhi
  have hz : ∀ a b : ℤ, a ≤ b → (2 : K) ^ a ≤ 2 ^ b :=
    fun a b h => zpow_le_zpow_right₀ (by norm_num) h
  have hzp : ∀ a : ℤ, (0 : K) < 2 ^ a := fun a => zpow_pos (by norm_num) a
  -- the quotient
  obtain ⟨q, hq, _, hqn⟩ := toFloat64_error (s / r) (le_trans hhi (hz _ _ (by norm_num)))
  have hqrel : |q - s / r| ≤ 1 / 2 ^ 53 * |s / r| :=
    le_of_le_of_eq (hqn (le_trans (hz _ _ (by norm_num)) hlo)) (by ring)
  -- the two powers
  obtain ⟨P6, hP6, hP6e, hP6r⟩ := pow_step (s / r) q (7 / 2 ^ 53) 6 (by decide) hqrel
    (by norm_num) (by norm_num) (le_trans (hz _ _ (by norm_num)) ha1)
    (le_trans ha2 (hz _ _ (by norm_num)))
  obtain ⟨P12, hP12, hP12e, hP12r⟩ := pow_step (s / r) q (13 / 2 ^ 53) 12 (by decide) hqrel
    (by norm_num) (by norm_num) (le_trans (hz _ _ (by norm_num)) hA1)
    (le_trans hA2 (hz _ _ (by norm_num)))
  have ha2' : (s / r) ^ 6 ≤ 2 ^ (960 : ℤ) := le_trans ha2 (hz _ _ (by norm_num))
  generalize (s / r) ^ 6 = a at ha1 ha2' hP6e ⊢
  generalize (s / r) ^ 12 = A at hA1 hA2 hP12e ⊢
  generalize hT : |s / r| = T at hqrel ⊢
  have hapos : 0 < a := lt_of_lt_of_le (hzp _) ha1
  have hApos : 0 < A := lt_of_lt_of_le (hzp _) hA1
  have hP6b : |P6 - a| ≤ 9 / 2 ^ 53 * a := by
    refine le_trans hP6e (mul_le_mul_of_nonneg_right ?_ (le_of_lt hapos))
    norm_num
  have hP12b : |P12 - A| ≤ 15 / 2 ^ 53 * A := by
    refine le_trans hP12e (mul_le_mul_of_nonneg_right ?_ (le_of_lt hApos))
    norm_num
  -- magnitudes, with the powers of two as plain numbers
  obtain ⟨X, hX⟩ : ∃ X : K, X = 2 ^ (960 : ℤ) := ⟨_, rfl⟩
  obtain ⟨Y, hY⟩ : ∃ Y : K, Y = 2 ^ (40 : ℤ) := ⟨_, rfl⟩
  obtain ⟨η, hηdef⟩ : ∃ η : K, η = 2 ^ (-1075 : ℤ) := ⟨_, rfl⟩
  have hX1 : (1 : K) ≤ X := by
    rw [hX]
    have := hz 0 960 (by norm_num)
    simpa using this
  have hY0 : (0 : K) < Y := by rw [hY]; exact hzp _
  have hη : (0 : K) < η := by rw [hηdef]; exact hzp _
  have hη1 : η ≤ 1 := by
    rw [hηdef]
    have := hz (-1075) 0 (by norm_num)
    simpa using this
  have h4X : 4 * X ≤ 2 ^ (1023 : ℤ) := by
    have : (4 : K) * X = 2 ^ (962 : ℤ) := by
      rw [hX, show (962 : ℤ) = 2 + 960 by norm_num, zpow_add₀ (by norm_num : (2 : K) ≠ 0)]
      norm_num
    rw [this]
    exact hz _ _ (by norm_num)
  have h8XY : Y * (8 * X) ≤ 2 ^ (1023 : ℤ) := by
    have : Y * (8 * X) = 2 ^ (1003 : ℤ) := by
      rw [hX, hY, show (1003 : ℤ) = 40 + (3 + 960) by norm_num,
        zpow_add₀ (by norm_num : (2 : K) ≠ 0), zpow_add₀ (by norm_num : (2 : K) ≠ 0)]
      norm_num
    rw [this]
    exact hz _ _ (by norm_num)
  rw [← hX] at hA2 ha2'
  have he' := he
  rw [← hY] at he'
  -- the difference
  have hd'hi : |P12 + -P6| ≤ 2 ^ (1023 : ℤ) := by
    have h1 : |P12 + -P6| ≤ 4 * X := by
      have h2 := abs_add P12 (-P6)
      rw [abs_neg] at h2
      have h3 := abs_sub_abs_le_abs_sub P12 A
      have h4 := abs_sub_abs_le_abs_sub P6 a
      rw [abs_of_pos hApos] at h3
      rw [abs_of_pos hapos] at h4
      have h5 : (15 : K) / 2 ^ 53 * A ≤ 1 * A :=
        mul_le_mul_of_nonneg_right (by norm_num) (le_of_lt hApos)
      have h6 : (9 : K) / 2 ^ 53 * a ≤ 1 * a :=
        mul_le_mul_of_nonneg_right (by norm_num) (le_of_lt hapos)
      linarith only [h2, h3, h4, h5, h6, hP6b, hP12b, hA2, ha2']
    exact le_trans h1 h4X
  obtain ⟨d, hd, hde0, hdn⟩ := toFloat64_error (P12 + -P6) hd'hi
  have hde := hde0
  rw [← hηdef] at hde
  -- the product
  have hdpre : |d| ≤ 8 * X := by
    have h1 := abs_sub_abs_le_abs_sub d (P12 + -P6)
    have h2 := abs_add P12 (-P6)
    rw [abs_neg] at h2
    have h3 := abs_sub_abs_le_abs_sub P12 A
    have h4 := abs_sub_abs_le_abs_sub P6 a
    rw [abs_of_pos hApos] at h3
    rw [abs_of_pos hapos] at h4
    have h5 : (15 : K) / 2 ^ 53 * A ≤ 1 * A :=
      mul_le_mul_of_nonneg_right (by norm_num) (le_of_lt hApos)
    have h6 : (9 : K) / 2 ^ 53 * a ≤ 1 * a :=
      mul_le_mul_of_nonneg_right (by norm_num) (le_of_lt hapos)
    have h7 : |P12 + -P6| / 2 ^ 53 ≤ |P12 + -P6| :=
      div_le_self (abs_nonneg _) (by norm_num)
    linarith only [h1, h2, h3, h4, h5, h6, h7, hde, hP6b, hP12b, hA2, ha2', hη1, hX1]
  have hcdhi : |4 * e * d| ≤ 2 ^ (1023 : ℤ) := by
    rw [abs_mul]
    exact le_trans (mul_le_mul he' hdpre (abs_nonneg d) (le_of_lt hY0)) h8XY
  obtain ⟨v, hv, hve, hvn⟩ := toFloat64_error (4 * e * d) hcdhi
  exact ⟨q, P6, P12, d, v,
    lennard_jones_ieee_chain e s r q P6 P12 d (4 * e) v hr hq hP12 hP6 hd hc hv,
    hq, hqrel, hP6r, hP12r, hP6b, hP12b, hde0, hdn, hve, hvn⟩

/-- Accuracy of `lennard_jones` in IEEE-754 arithmetic.  When the quotient `sigma/r` lies
between `2^-80` and `2^80` in magnitude and the `float` product `4*epsilon` is exact and at
most `2^40` in magnitude, the result is finite and differs from the formula of the
specification by at most `19 * 2^-53 * |4 epsilon| * ((sigma/r)^12 + (sigma/r)^6)` plus
`(2 |4 epsilon| + 1) * 2^-1075`. -/
theorem lennard_jones_ieee_accuracy (e s r : K) (hr : r ≠ 0)
    (hlo : 2 ^ (-80 : ℤ) ≤ |s / r|) (hhi : |s / r| ≤ 2 ^ (80 : ℤ))
    (hc : toFloat32 (4 * e) = Fp.fin (4 * e)) (he : |4 * e| ≤ 2 ^ (40 : ℤ)) :
    ∃ v : K, lennard_jones Arith.ieee (Fp.fin e) (Fp.fin s) (Fp.fin r) = Fp.fin v
      ∧ |v - specPotential e s r|
          ≤ 19 / 2 ^ 53 * (|4 * e| * ((s / r) ^ 12 + (s / r) ^ 6))
            + (2 * |4 * e| + 1) * 2 ^ (-1075 : ℤ) := by
  obtain ⟨ha1, _, hA1, _⟩ := ratio_pow_bounds (s / r) hlo hhi
  obtain ⟨q, P6, P12, d, v, hv, _, _, _, _, hP6b, hP12b, hde, _, hve, _⟩ :=
    lennard_jones_ieee_steps e s r hr hlo hhi hc he
  have hapos : 0 < (s / r) ^ 6 := lt_of_lt_of_le (zpow_pos (by norm_num) _) ha1
  have hApos : 0 < (s / r) ^ 12 := lt_of_lt_of_le (zpow_pos (by norm_num) _) hA1
  exact ⟨v, hv, (chain_error _ _ P6 P12 d (4 * e) v _ hapos hApos
    (le_of_lt (zpow_pos (by norm_num) _)) hP6b hP12b hde hve).2.2⟩

end Accuracy3

/-- The value the program computes at the distance 5. -/
theorem lennard_jones_at_five :
    lennard_jones Arith.ieee epsilon sigma (Fp.fin (5 : ℚ)) = Fp.fin (-1924366963308857 / 281474976710656 : ℚ) := by
  have hq : toFloat64 ((3544187 / 1048576 : ℚ) / (5 : ℚ)) = Fp.fin (((6088866902363341 : ℤ) : ℚ) * 2 ^ (-53 : ℤ)) := by
    apply roundTo_of_near 53 (-1074) 1024 _ (-1) (-53) (6088866902363341)
    · norm_num
    · norm_num [abs_of_pos]
    · norm_num [abs_of_pos]
    · norm_num
    · norm_num [abs_lt]
    · norm_num [abs_of_pos]
  have h12 : toFloat64 ((((6088866902363341 : ℤ) : ℚ) * 2 ^ (-53 : ℤ)) ^ 12) = Fp.fin (((5249649062625616 : ℤ) : ℚ) * 2 ^ (-59 : ℤ)) := by
    apply roundTo_of_near 53 (-1074) 1024 _ (-7) (-59) (5249649062625616)
    · norm_num
    · norm_num [abs_of_pos]
    · norm_num [abs_of_pos]
    · norm_num
    · norm_num [abs_lt]
    · norm_num [abs_of_pos]
  have h6 : toFloat64 ((((6088866902363341 : ℤ) : ℚ) * 2 ^ (-53 : ℤ)) ^ 6) = Fp.fin (((6876382415524401 : ℤ) : ℚ) * 2 ^ (-56 : ℤ)) := by
    apply roundTo_of_near 53 (-1074) 1024 _ (-4) (-56) (6876382415524401)
    · norm_num
    · norm_num [abs_of_pos]
    · norm_num [abs_of_pos]
    · norm_num
    · norm_num [abs_lt]
    · norm_num [abs_of_pos]
  have hd : toFloat64 ((((5249649062625616 : ℤ) : ℚ) * 2 ^ (-59 : ℤ)) + -(((6876382415524401 : ℤ) : ℚ) * 2 ^ (-56 : ℤ))) = Fp.fin (((-6220176282696199 : ℤ) : ℚ) * 2 ^ (-56 : ℤ)) := by
    apply roundTo_of_near 53 (-1074) 1024 _ (-4) (-56) (-6220176282696199)
    · norm_num
    · norm_num [abs_of_neg]
    · norm_num [abs_of_neg]
    · norm_num
    · norm_num [abs_lt]
    · norm_num [abs_of_neg]
  have hc : toFloat32 (4 * (5190451 / 262144 : ℚ)) = Fp.fin (((10380902 : ℤ) : ℚ) * 2 ^ (-17 : ℤ)) := by
    apply roundTo_of_near 24 (-149) 128 _ (6) (-17) (10380902)
    · norm_num
    · norm_num [abs_of_pos]
    · norm_num [abs_of_pos]
    · norm_num
    · norm_num [abs_lt]
    · norm_num [abs_of_pos]
  have hv : toFloat64 ((((10380902 : ℤ) : ℚ) * 2 ^ (-17 : ℤ)) * (((-6220176282696199 : ℤ) : ℚ) * 2 ^ (-56 : ℤ))) = Fp.fin (((-7697467853235428 : ℤ) : ℚ) * 2 ^ (-50 : ℤ)) := by
    apply roundTo_of_near 53 (-1074) 1024 _ (2) (-50) (-7697467853235428)
    · norm_num
    · norm_num [abs_of_neg]
    · norm_num [abs_of_neg]
    · norm_num
    · norm_num [abs_lt]
    · norm_num [abs_of_neg]
  have hval : (((-7697467853235428 : ℤ) : ℚ) * 2 ^ (-50 : ℤ)) = (-1924366963308857 / 281474976710656 : ℚ) := by norm_num
  rw [epsilon_eq, sigma_eq, ← hval]
  exact lennard_jones_ieee_chain _ _ _ _ _ _ _ _ _ (by norm_num) hq h12 h6 hd hc hv

/-- The value the program computes at the distance `0x1.e59f3b32677cep+1`, a `double` next to `sigma * 2^(1/6)`. -/
theorem lennard_jones_below_well_depth :
    lennard_jones Arith.ieee epsilon sigma (Fp.fin (4271576259443687 / 1125899906842624 : ℚ)) = Fp.fin (-5573204324122625 / 281474976710656 : ℚ) := by
  have hq : toFloat64 ((3544187 / 1048576 : ℚ) / (4271576259443687 / 1125899906842624 : ℚ)) = Fp.fin (((8024502270083373 : ℤ) : ℚ) * 2 ^ (-53 : ℤ)) := by
    apply roundTo_of_near 53 (-1074) 1024 _ (-1) (-53) (8024502270083373)
    · norm_num
    · norm_num [abs_of_pos]
    · norm_num [abs_of_pos]
    · norm_num
    · norm_num [abs_lt]
    · norm_num [abs_of_pos]
  have h12 : toFloat64 ((((8024502270083373 : ℤ) : ℚ) * 2 ^ (-53 : ℤ)) ^ 12) = Fp.fin (((4503599627370521 : ℤ) : ℚ) * 2 ^ (-54 : ℤ)) := by
    apply roundTo_of_near 53 (-1074) 1024 _ (-2) (-54) (4503599627370521)
    · norm_num
    · norm_num [abs_of_pos]
    · norm_num [abs_of_pos]
    · norm_num
    · norm_num [abs_lt]
    · norm_num [abs_of_pos]
  have h6 : toFloat64 ((((8024502270083373 : ℤ) : ℚ) * 2 ^ (-53 : ℤ)) ^ 6) = Fp.fin (((4503599627370509 : ℤ) : ℚ) * 2 ^ (-53 : ℤ)) := by
    apply roundTo_of_near 53 (-1074) 1024 _ (-1) (-53) (4503599627370509)
    · norm_num
    · norm_num [abs_of_pos]
    · norm_num [abs_of_pos]
    · norm_num
    · norm_num [abs_lt]
    · norm_num [abs_of_pos]
  have hd : toFloat64 ((((4503599627370521 : ℤ) : ℚ) * 2 ^ (-54 : ℤ)) + -(((4503599627370509 : ℤ) : ℚ) * 2 ^ (-53 : ℤ))) = Fp.fin (((-4503599627370497 : ℤ) : ℚ) * 2 ^ (-54 : ℤ)) := by
    apply roundTo_of_near 53 (-1074) 1024 _ (-2) (-54) (-4503599627370497)
    · norm_num
    · norm_num [abs_of_neg]
    · norm_num [abs_of_neg]
    · norm_num
    · norm_num [abs_lt]
    · norm_num [abs_of_neg]
  have hc : toFloat32 (4 * (5190451 / 262144 : ℚ)) = Fp.fin (((10380902 : ℤ) : ℚ) * 2 ^ (-17 : ℤ)) := by
    apply roundTo_of_near 24 (-149) 128 _ (6) (-17) (10380902)
    · norm_num
    · norm_num [abs_of_pos]
    · norm_num [abs_of_pos]
    · norm_num
    · norm_num [abs_lt]
    · norm_num [abs_of_pos]
  have hv : toFloat64 ((((10380902 : ℤ) : ℚ) * 2 ^ (-17 : ℤ)) * (((-4503599627370497 : ℤ) : ℚ) * 2 ^ (-54 : ℤ))) = Fp.fin (((-5573204324122625 : ℤ) : ℚ) * 2 ^ (-48 : ℤ)) := by
    apply roundTo_of_near 53 (-1074) 1024 _ (4) (-48) (-5573204324122625)
    · norm_num
    · norm_num [abs_of_neg]
    · norm_num [abs_of_neg]
    · norm_num
    · norm_num [abs_lt]
    · norm_num [abs_of_neg]
  have hval : (((-5573204324122625 : ℤ) : ℚ) * 2 ^ (-48 : ℤ)) = (-5573204324122625 / 281474976710656 : ℚ) := by norm_num
  rw [epsilon_eq, sigma_eq, ← hval]
  exact lennard_jones_ieee_chain _ _ _ _ _ _ _ _ _ (by norm_num) hq h12 h6 hd hc hv

/-! ## The formula and the computed value -/

section Formula

/-- C1, counterexample: At the distance 5 the program does not return the value of
`4 * epsilon * ((sigma/r)^12 - (sigma/r)^6)` at its own constants: the `double` it
computes is `-1924366963308857 / 2^48`, and the formula gives another number. -/
theorem lennard_jones_not_formula_at_five :
    epsilon = Fp.fin (5190451 / 262144) ∧ sigma = Fp.fin (3544187 / 1048576)
      ∧ lennard_jones Arith.ieee epsilon sigma (Fp.fin (5 : ℚ))
          ≠ Fp.fin (specPotential (5190451 / 262144) (3544187 / 1048576) 5) := by
  refine ⟨epsilon_eq, sigma_eq, ?_⟩
  rw [lennard_jones_at_five]
  intro h
  have h2 := Fp.fin.inj h
  norm_num [specPotential] at h2

/-- C1, amended: With `epsilon` and `sigma` the two process-wide constants, which are
the `float` values `e` and `s` nearest 19.8 and 3.38, for every distance `r` with
`2^-78 <= |r| <= 2^78` the program returns a finite `double` `v` that approximates
`4 * e * ((s/r)^12 - (s/r)^6)`: the error is at most
`19 * 2^-53 * 4 * e * ((s/r)^12 + (s/r)^6) + (8 * e + 1) * 2^-1075`. -/
theorem lennard_jones_formula (r : ℚ) (hlo : 2 ^ (-78 : ℤ) ≤ |r|) (hhi : |r| ≤ 2 ^ (78 : ℤ)) :
    ∃ e s v : ℚ, epsilon = Fp.fin e ∧ sigma = Fp.fin s
      ∧ |e - 198 / 10| ≤ 1 / 2 ^ 20 ∧ |s - 338 / 100| ≤ 1 / 2 ^ 23
      ∧ lennard_jones Arith.ieee epsilon sigma (Fp.fin r) = Fp.fin v
      ∧ |v - specPotential e s r|
          ≤ 19 / 2 ^ 53 * (4 * e * ((s / r) ^ 12 + (s / r) ^ 6))
            + (8 * e + 1) * 2 ^ (-1075 : ℤ) := by
  have hrpos : 0 < |r| := lt_of_lt_of_le (zpow_pos (by norm_num) _) hlo
  have hr0 : r ≠ 0 := abs_pos.1 hrpos
  have hs : |(3544187 / 1048576 : ℚ)| = 3544187 / 1048576 := abs_of_pos (by norm_num)
  have h1 : (2 : ℚ) ^ (-80 : ℤ) ≤ |(3544187 / 1048576 : ℚ) / r| := by
    rw [abs_div, hs, le_div_iff₀ hrpos]
    have h78 : (2 : ℚ) ^ (-80 : ℤ) * 2 ^ (78 : ℤ) = 1 / 4 := by
      rw [← zpow_add₀ (by norm_num : (2 : ℚ) ≠ 0)]; norm_num
    have := mul_le_mul_of_nonneg_left hhi (le_of_lt (zpow_pos (by norm_num : (0 : ℚ) < 2) (-80)))
    rw [h78] at this
    linarith
  have h2 : |(3544187 / 1048576 : ℚ) / r| ≤ 2 ^ (80 : ℤ) := by
    rw [abs_div, hs, div_le_iff₀ hrpos]
    have h78 : (2 : ℚ) ^ (80 : ℤ) * 2 ^ (-78 : ℤ) = 4 := by
      rw [← zpow_add₀ (by norm_num : (2 : ℚ) ≠ 0)]; norm_num
    have := mul_le_mul_of_nonneg_left hlo (le_of_lt (zpow_pos (by norm_num : (0 : ℚ) < 2) 80))
    rw [h78] at this
    linarith
  have h4 : |(4 : ℚ) * (5190451 / 262144)| = 4 * (5190451 / 262144) :=
    abs_of_pos (by norm_num)
  have he : |(4 : ℚ) * (5190451 / 262144)| ≤ 2 ^ (40 : ℤ) := by
    rw [h4]; norm_num
  obtain ⟨v, hv, hve⟩ := lennard_jones_ieee_accuracy (5190451 / 262144 : ℚ)
    (3544187 / 1048576) r hr0 h1 h2 four_epsilon_exact he
  rw [h4] at hve
  refine ⟨5190451 / 262144, 3544187 / 1048576, v, epsilon_eq, sigma_eq, ?_, ?_, ?_, ?_⟩
  · rw [abs_le]; constructor <;> norm_num
  · rw [abs_le]; constructor <;> norm_num
  · rw [epsilon_eq, sigma_eq]; exact hv
  · have h8 : (2 : ℚ) * (4 * (5190451 / 262144)) = 8 * (5190451 / 262144) := by ring
    rw [h8] at hve
    exact hve

/-- Witness of C1: the distance 5. -/
theorem lennard_jones_formula_witness :
    (2 : ℚ) ^ (-78 : ℤ) ≤ |5| ∧ |(5 : ℚ)| ≤ 2 ^ (78 : ℤ)
      ∧ ∃ e s v : ℚ, epsilon = Fp.fin e ∧ sigma = Fp.fin s
        ∧ |e - 198 / 10| ≤ 1 / 2 ^ 20 ∧ |s - 338 / 100| ≤ 1 / 2 ^ 23
        ∧ lennard_jones Arith.ieee epsilon sigma (Fp.fin 5) = Fp.fin v
        ∧ |v - specPotential e s 5|
            ≤ 19 / 2 ^ 53 * (4 * e * ((s / 5) ^ 12 + (s / 5) ^ 6))
              + (8 * e + 1) * 2 ^ (-1075 : ℤ) :=
  ⟨by norm_num [abs_of_pos], by norm_num [abs_of_pos],
    lennard_jones_formula 5 (by norm_num [abs_of_pos]) (by norm_num [abs_of_pos])⟩

end Formula

/-! ## The minimum -/

section Minimum

variable {K : Type} [LinearOrderedField K]

/-- The formula of the specification is nowhere below `-epsilon`. -/
theorem specPotential_ge (e s r : K) (he : 0 ≤ e) : -e ≤ specPotential e s r := by
  unfold specPotential
  have h : 4 * e * ((s / r) ^ 12 - (s / r) ^ 6) + e = e * (2 * (s / r) ^ 6 - 1) ^ 2 := by ring
  have h2 : 0 ≤ e * (2 * (s / r) ^ 6 - 1) ^ 2 := mul_nonneg he (sq_nonneg _)
  linarith

/-- The underflow term of the accuracy bound is negligible against `epsilon >= 2^-100`. -/
theorem underflow_term_le (e : K) (he1 : 2 ^ (-100 : ℤ) ≤ e) :
    (2 * |4 * e| + 1) * 2 ^ (-1075 : ℤ) ≤ 9 * e / 2 ^ 70 := by
  have h2 : (0 : K) < 2 := by norm_num
  have hd : (0 : K) < 2 ^ (-100 : ℤ) := zpow_pos h2 _
  have hepos : 0 < e := lt_of_lt_of_le hd he1
  have h4 : |4 * e| = 4 * e := abs_of_pos (by linarith)
  have hη1 : (2 : K) ^ (-1075 : ℤ) ≤ 2 ^ (-100 : ℤ) * 2 ^ (-70 : ℤ) := by
    rw [← zpow_add₀ (by norm_num : (2 : K) ≠ 0)]
    exact zpow_le_zpow_right₀ (by norm_num) (by norm_num)
  have h70 : (2 : K) ^ (-70 : ℤ) = 1 / 2 ^ 70 := by
    rw [zpow_neg, one_div]; norm_cast
  have hη0 : (0 : K) < 2 ^ (-1075 : ℤ) := zpow_pos h2 _
  have hd1 : (2 : K) ^ (-100 : ℤ) ≤ 1 := zpow_le_one_of_nonpos₀ (by norm_num) (by norm_num)
  obtain ⟨η, hηdef⟩ : ∃ η : K, η = 2 ^ (-1075 : ℤ) := ⟨_, rfl⟩
  obtain ⟨δ, hδdef⟩ : ∃ δ : K, δ = 2 ^ (-100 : ℤ) := ⟨_, rfl⟩
  rw [h4, ← hηdef]
  rw [← hηdef, ← hδdef, h70] at hη1
  rw [← hηdef] at hη0
  rw [← hδdef] at hd1 he1 hd
  have hp70 : (0 : K) < 1 / 2 ^ 70 := by positivity
  have hη2 : η ≤ e * (1 / 2 ^ 70) :=
    le_trans hη1 (mul_le_mul_of_nonneg_right he1 (le_of_lt hp70))
  have hη3 : η ≤ 1 / 2 ^ 70 :=
    le_trans hη1 (by nlinarith)
  have h8 : 8 * e * η ≤ 8 * e * (1 / 2 ^ 70) :=
    mul_le_mul_of_nonneg_left hη3 (by linarith)
  have hgoal : (2 * (4 * e) + 1) * η = 8 * e * η + η := by ring
  rw [hgoal]
  have : 9 * e / 2 ^ 70 = 8 * e * (1 / 2 ^ 70) + e * (1 / 2 ^ 70) := by ring
  rw [this]
  linarith

/-- The rounding error allowed by the accuracy bound never exceeds the height of the exact
formula above its minimum by more than `2^-43`. -/
theorem well_floor_aux (a : K) (ha0 : 0 ≤ a) :
    0 ≤ (2 * a - 1) ^ 2 - 76 / 2 ^ 53 * (a ^ 2 + a) + 1 / 2 ^ 43 - 9 / 2 ^ 70 := by
  rcases le_or_lt a 2 with ha | ha
  · have ha2 : a ^ 2 + a ≤ 6 := by nlinarith
    have hsq : 0 ≤ (2 * a - 1) ^ 2 := sq_nonneg _
    have : (76 : K) / 2 ^ 53 * (a ^ 2 + a) ≤ 76 / 2 ^ 53 * 6 :=
      mul_le_mul_of_nonneg_left ha2 (by positivity)
    have hnum : (76 : K) / 2 ^ 53 * 6 + 9 / 2 ^ 70 ≤ 1 / 2 ^ 43 := by norm_num
    linarith
  · have h1 : a ^ 2 + a ≤ (2 * a - 1) ^ 2 := by nlinarith
    have h3 : (76 : K) / 2 ^ 53 * (a ^ 2 + a) ≤ 1 * (a ^ 2 + a) :=
      mul_le_mul_of_nonneg_right (by norm_num) (by nlinarith)
    have hnum : (9 : K) / 2 ^ 70 ≤ 1 / 2 ^ 43 := by norm_num
    linarith

/-- Where the sixth power `a` of the quotient is within `2^-26` of `1/2`, a value within
the accuracy bound of the exact formula is within `epsilon * 2^-46` of `-epsilon`. -/
theorem near_minimum_aux (e a v : K) (hepos : 0 < e)
    (hnear : |a - 1 / 2| ≤ 1 / 2 ^ 26)
    (hve3 : -(19 / 2 ^ 53 * (4 * e * (a ^ 2 + a)) + 9 * e / 2 ^ 70)
      ≤ v - (e * (2 * a - 1) ^ 2 - e))
    (hve4 : v - (e * (2 * a - 1) ^ 2 - e)
      ≤ 19 / 2 ^ 53 * (4 * e * (a ^ 2 + a)) + 9 * e / 2 ^ 70) :
    |v + e| ≤ e / 2 ^ 46 := by
  obtain ⟨hn1, hn2⟩ := abs_le.1 hnear
  have hsq : (2 * a - 1) ^ 2 ≤ 1 / 2 ^ 50 := by
    have hx : |2 * a - 1| ≤ 1 / 2 ^ 25 := by
      have h25 : (1 : K) / 2 ^ 25 = 2 * (1 / 2 ^ 26) := by norm_num
      rw [abs_le, h25]; constructor <;> linarith
    have := pow_le_pow_left₀ (abs_nonneg _) hx 2
    rw [sq_abs] at this
    refine le_trans this (le_of_eq ?_)
    norm_num
  have h26 : (1 : K) / 2 ^ 26 ≤ 1 / 10 := by norm_num
  have ha1 : a ≤ 3 / 5 := by linarith
  have ha2 : a ^ 2 + a ≤ 1 := by nlinarith
  have hE : 19 / 2 ^ 53 * (4 * e * (a ^ 2 + a)) ≤ 19 / 2 ^ 53 * (4 * e * 1) :=
    mul_le_mul_of_nonneg_left (mul_le_mul_of_nonneg_left ha2 (by linarith)) (by positivity)
  have hS : e * (2 * a - 1) ^ 2 ≤ e * (1 / 2 ^ 50) :=
    mul_le_mul_of_nonneg_left hsq (le_of_lt hepos)
  have hS0 : 0 ≤ e * (2 * a - 1) ^ 2 := mul_nonneg (le_of_lt hepos) (sq_nonneg _)
  have hnum : e * (1 / 2 ^ 50) + 19 / 2 ^ 53 * (4 * e * 1) + 9 * e / 2 ^ 70 ≤ e / 2 ^ 46 := by
    have : e / 2 ^ 46 - (e * (1 / 2 ^ 50) + 19 / 2 ^ 53 * (4 * e * 1) + 9 * e / 2 ^ 70)
        = e * (1 / 2 ^ 46 - 1 / 2 ^ 50 - 76 / 2 ^ 53 - 9 / 2 ^ 70) := by ring
    have hpos : (0 : K) ≤ 1 / 2 ^ 46 - 1 / 2 ^ 50 - 76 / 2 ^ 53 - 9 / 2 ^ 70 := by norm_num
    have := mul_nonneg (le_of_lt hepos) hpos
    linarith
  rw [abs_le]
  constructor <;> linarith

/-- Floor of the program's result.  For `epsilon` between `2^-100` and `2^38` whose product
`4 * epsilon` is a `float`, and every nonzero `r` with `2^-80 <= |sigma/r| <= 2^80`, the
result is finite and at least `-epsilon * (1 + 2^-43)`; it is within `epsilon * 2^-46` of
`-epsilon` wherever `(sigma/r)^6` is within `2^-26` of `1/2`. -/
theorem lennard_jones_ieee_floor [FloorRing K] (e s r : K) (he1 : 2 ^ (-100 : ℤ) ≤ e) (he2 : e ≤ 2 ^ (38 : ℤ))
    (hc : toFloat32 (4 * e) = Fp.fin (4 * e)) (hr : r ≠ 0)
    (hlo : 2 ^ (-80 : ℤ) ≤ |s / r|) (hhi : |s / r| ≤ 2 ^ (80 : ℤ)) :
    ∃ v : K, lennard_jones Arith.ieee (Fp.fin e) (Fp.fin s) (Fp.fin r) = Fp.fin v
      ∧ -(e * (1 + 1 / 2 ^ 43)) ≤ v
      ∧ (|(s / r) ^ 6 - 1 / 2| ≤ 1 / 2 ^ 26 → |v + e| ≤ e / 2 ^ 46)
      ∧ -e ≤ specPotential e s r := by
  have h2 : (0 : K) < 2 := by norm_num
  have hepos : 0 < e := lt_of_lt_of_le (zpow_pos h2 _) he1
  have h4 : |4 * e| = 4 * e := abs_of_pos (by linarith)
  have he4 : |4 * e| ≤ 2 ^ (40 : ℤ) := by
    rw [h4]
    have h40 : (2 : K) ^ (40 : ℤ) = 4 * 2 ^ (38 : ℤ) := by
      rw [show (40 : ℤ) = 2 + 38 by norm_num, zpow_add₀ (by norm_num : (2 : K) ≠ 0)]
      norm_num
    rw [h40]
    linarith
  obtain ⟨v, hv, hve⟩ := lennard_jones_ieee_accuracy e s r hr hlo hhi hc he4
  have hu := underflow_term_le e he1
  have hve2 := le_trans hve (add_le_add_left hu _)
  rw [h4] at hve2
  have hf : specPotential e s r = e * (2 * (s / r) ^ 6 - 1) ^ 2 - e := by
    unfold specPotential; ring
  have h12 : (s / r) ^ 12 = ((s / r) ^ 6) ^ 2 := by ring
  have ha0 : 0 ≤ (s / r) ^ 6 := by positivity
  rw [hf, h12] at hve2
  generalize (s / r) ^ 6 = a at ha0 hve2 ⊢
  obtain ⟨hve3, hve4⟩ := abs_le.1 hve2
  have hc1 : (0 : K) < 1 / 2 ^ 53 := by positivity
  refine ⟨v, hv, ?_, ?_, specPotential_ge e s r (le_of_lt hepos)⟩
  · have hg := well_floor_aux a ha0
    have hge := mul_nonneg (le_of_lt hepos) hg
    have hexp : e * ((2 * a - 1) ^ 2 - 76 / 2 ^ 53 * (a ^ 2 + a) + 1 / 2 ^ 43 - 9 / 2 ^ 70)
        = (e * (2 * a - 1) ^ 2 - e) - (19 / 2 ^ 53 * (4 * e * (a ^ 2 + a)) + 9 * e / 2 ^ 70)
          + e * (1 + 1 / 2 ^ 43) := by ring
    rw [hexp] at hge
    linarith
  · intro hnear
    exact near_minimum_aux e a v hepos hnear hve3 hve4

/-- C3, amended: Minimum up to rounding.  For `epsilon` between `2^-100` and `2^38`
whose product `4 * epsilon` is a `float`, and every nonzero `r` with
`2^-80 <= |sigma/r| <= 2^80`, the program returns a finite value `v`
with `v >= -epsilon * (1 + 2^-43)`; wherever `(sigma/r)^6` is within `2^-26` of `1/2`,
that is for `|r|` next to `sigma * 2^(1/6)`, `v` is within `epsilon * 2^-46` of
`-epsilon`; the exact formula is at least `-epsilon` at every `r`. -/
theorem lennard_jones_minimum [FloorRing K] (e s r : K) (he1 : 2 ^ (-100 : ℤ) ≤ e) (he2 : e ≤ 2 ^ (38 : ℤ))
    (hc : toFloat32 (4 * e) = Fp.fin (4 * e)) (hr : r ≠ 0)
    (hlo : 2 ^ (-80 : ℤ) ≤ |s / r|) (hhi : |s / r| ≤ 2 ^ (80 : ℤ)) :
    ∃ v : K, lennard_jones Arith.ieee (Fp.fin e) (Fp.fin s) (Fp.fin r) = Fp.fin v
      ∧ -(e * (1 + 1 / 2 ^ 43)) ≤ v
      ∧ (|(s / r) ^ 6 - 1 / 2| ≤ 1 / 2 ^ 26 → |v + e| ≤ e / 2 ^ 46)
      ∧ -e ≤ specPotential e s r :=
  lennard_jones_ieee_floor e s r he1 he2 hc hr hlo hhi

end Minimum

section MinimumProgram

/-- C3, counterexample: At the `double` `0x1.e59f3b32677cep+1`, next to
`sigma * 2^(1/6)`, the program returns a value strictly below `-epsilon`. -/
theorem lennard_jones_below_minus_epsilon :
    Fp.lt (lennard_jones Arith.ieee epsilon sigma
      (Fp.fin (4271576259443687 / 1125899906842624 : ℚ))) (Fp.neg epsilon) = true := by
  rw [lennard_jones_below_well_depth, epsilon_eq]
  simp only [Fp.neg, Fp.lt, decide_eq_true_eq]
  norm_num

/-- Witness of C3: the program's constants at the `double` `0x1.e59f3b32677cep+1`, where
the sixth power of the quotient is within `2^-26` of `1/2`. -/
theorem lennard_jones_minimum_witness :
    (|((3544187 / 1048576 : ℚ) / (4271576259443687 / 1125899906842624)) ^ 6 - 1 / 2|
        ≤ 1 / 2 ^ 26)
      ∧ ∃ v : ℚ, lennard_jones Arith.ieee (Fp.fin (5190451 / 262144)) (Fp.fin (3544187 / 1048576))
          (Fp.fin (4271576259443687 / 1125899906842624)) = Fp.fin v
        ∧ -((5190451 / 262144 : ℚ) * (1 + 1 / 2 ^ 43)) ≤ v
        ∧ (|((3544187 / 1048576 : ℚ) / (4271576259443687 / 1125899906842624)) ^ 6 - 1 / 2|
            ≤ 1 / 2 ^ 26 → |v + 5190451 / 262144| ≤ (5190451 / 262144 : ℚ) / 2 ^ 46)
        ∧ -(5190451 / 262144 : ℚ)
            ≤ specPotential (5190451 / 262144) (3544187 / 1048576)
                (4271576259443687 / 1125899906842624) :=
  ⟨by rw [abs_le]; constructor <;> norm_num,
    lennard_jones_minimum (5190451 / 262144 : ℚ) (3544187 / 1048576)
      (4271576259443687 / 1125899906842624)
      (le_trans (zpow_le_one_of_nonpos₀ (by norm_num) (by norm_num)) (by norm_num))
      (by norm_num) four_epsilon_exact (by norm_num)
      (le_trans (zpow_le_zpow_right₀ (by norm_num) (by norm_num) :
          (2 : ℚ) ^ (-80 : ℤ) ≤ 2 ^ (-1 : ℤ))
        (by rw [abs_of_pos (by norm_num)]; norm_num))
      (by rw [abs_of_pos (by norm_num)]; norm_num)⟩

end MinimumProgram

/-! ## The sign of the computed potential -/

section Spacing

variable {K : Type} [LinearOrderedField K] [FloorRing K]

/-- Rounding to nearest never moves a number across a representable one: below the
representable magnitude `m * 2^k` the rounded value stays at most `m * 2^k`. -/
theorem roundTo_abs_le_repr (p : ℕ) (emin emax : ℤ) (x : K) (m k : ℤ) (hm0 : 0 < m)
    (hm : m < 2 ^ p) (hk : emin ≤ k) (hov : (m : K) * 2 ^ k < 2 ^ emax)
    (hx : |x| ≤ (m : K) * 2 ^ k) :
    ∃ y : K, roundTo p emin emax x = Fp.fin y ∧ |y| ≤ (m : K) * 2 ^ k := by
  have h2 : (0 : K) < 2 := by norm_num
  have h1 : (1 : K) < 2 := by norm_num
  have hmK : (0 : K) < (m : K) := by exact_mod_cast hm0
  by_cases hx0 : x = 0
  · refine ⟨0, by rw [hx0]; simp [roundTo], ?_⟩
    rw [abs_zero]
    exact le_of_lt (mul_pos hmK (zpow_pos h2 k))
  obtain ⟨hlo, _⟩ := log2_bounds x hx0
  have hmk : (m : K) * 2 ^ k < 2 ^ ((p : ℤ) + k) := by
    rw [zpow_add₀ (ne_of_gt h2), zpow_natCast]
    exact mul_lt_mul_of_pos_right (by exact_mod_cast hm) (zpow_pos h2 k)
  have hek : Int.log 2 |x| < (p : ℤ) + k :=
    (zpow_lt_zpow_iff_right₀ h1).1 (lt_of_le_of_lt (le_trans hlo hx) hmk)
  unfold roundTo
  rw [if_neg hx0]
  simp only
  generalize hq : max (Int.log 2 |x| - ((p : ℤ) - 1)) emin = q
  have hqk : q ≤ k := by
    rw [← hq]
    apply max_le <;> omega
  obtain ⟨d, hd⟩ : ∃ d : ℕ, k = q + d := ⟨(k - q).toNat, by omega⟩
  have hq0 : (0 : K) < 2 ^ q := zpow_pos h2 q
  have hN : (m : K) * 2 ^ k = ((m * 2 ^ d : ℤ) : K) * 2 ^ q := by
    rw [hd, zpow_add₀ (ne_of_gt h2), zpow_natCast]
    push_cast
    ring
  have hz : |x / 2 ^ q| ≤ ((m * 2 ^ d : ℤ) : K) := by
    rw [abs_div, abs_of_pos hq0, div_le_iff₀ hq0, ← hN]
    exact hx
  obtain ⟨hz1, hz2⟩ := abs_le.1 hz
  have hr1 : roundHalfEven (x / 2 ^ q) ≤ m * 2 ^ d := roundHalfEven_le_of_le _ _ hz2
  have hr2 : -(m * 2 ^ d) ≤ roundHalfEven (x / 2 ^ q) :=
    le_roundHalfEven_of_le _ _ (by push_cast at hz1 ⊢; exact hz1)
  have hy : |(roundHalfEven (x / 2 ^ q) : K) * 2 ^ q| ≤ (m : K) * 2 ^ k := by
    rw [abs_mul, abs_of_pos hq0, hN]
    refine mul_le_mul_of_nonneg_right ?_ (le_of_lt hq0)
    rw [abs_le]
    constructor
    · exact_mod_cast hr2
    · exact_mod_cast hr1
  have hnov : ¬ ((2 : K) ^ emax ≤ |(roundHalfEven (x / 2 ^ q) : K) * 2 ^ q|) :=
    not_le.2 (lt_of_le_of_lt hy hov)
  rw [if_neg hnov]
  exact ⟨_, rfl, hy⟩

/-- Above a midpoint rounding goes up. -/
theorem roundHalfEven_of_gt_half (z : K) (N : ℤ) (h : (N : K) + 1 / 2 < z) :
    N + 1 ≤ roundHalfEven z := by
  have hf : N ≤ ⌊z⌋ := Int.le_floor.2 (by linarith)
  rcases lt_or_eq_of_le hf with hlt | heq
  · unfold roundHalfEven
    split_ifs <;> omega
  · have hfr : 1 / 2 < z - ⌊z⌋ := by rw [← heq]; linarith
    unfold roundHalfEven
    rw [if_neg (not_lt.2 (le_of_lt hfr)), if_pos hfr]
    omega

/-- A number above `1 + 2^-53`, the midpoint of the two `double`s `1` and `1 + 2^-52`,
rounds to `1 + 2^-52` at least. -/
theorem toFloat64_above_one (x y : K) (hx : 1 + 1 / 2 ^ 53 < x) (hx2 : x < 2)
    (h : toFloat64 x = Fp.fin y) : 1 + 1 / 2 ^ 52 ≤ y := by
  have h2 : (0 : K) < 2 := by norm_num
  have hxpos : 0 < x := lt_trans (by positivity) hx
  have hx0 : x ≠ 0 := ne_of_gt hxpos
  have hlog : Int.log 2 |x| = 0 := by
    apply log2_eq_of_bounds
    · rw [abs_of_pos hxpos, zpow_zero]
      have : (0 : K) < 1 / 2 ^ 53 := by positivity
      linarith
    · rw [abs_of_pos hxpos]; simpa using hx2
  unfold toFloat64 roundTo at h
  rw [if_neg hx0, hlog] at h
  simp only at h
  have hq : max ((0 : ℤ) - (((53 : ℕ) : ℤ) - 1)) (-1074) = -52 := by norm_num
  rw [hq] at h
  have h52 : (2 : K) ^ (-52 : ℤ) = 1 / 2 ^ 52 := by
    rw [zpow_neg, one_div]; norm_cast
  rw [h52] at h
  have hz : ((4503599627370496 : ℤ) : K) + 1 / 2 < x / (1 / 2 ^ 52) := by
    rw [lt_div_iff₀ (by positivity)]
    have : (((4503599627370496 : ℤ) : K) + 1 / 2) * (1 / 2 ^ 52) = 1 + 1 / 2 ^ 53 := by
      norm_num
    rw [this]
    exact hx
  have hr := roundHalfEven_of_gt_half _ _ hz
  have hrK : (4503599627370497 : K) ≤ (roundHalfEven (x / (1 / 2 ^ 52)) : K) := by
    exact_mod_cast hr
  have hyv : 1 + 1 / 2 ^ 52 ≤ (roundHalfEven (x / (1 / 2 ^ 52)) : K) * (1 / 2 ^ 52) := by
    have := mul_le_mul_of_nonneg_right hrK (by positivity : (0 : K) ≤ 1 / 2 ^ 52)
    refine le_trans (le_of_eq ?_) this
    norm_num
  by_cases hov : (2 : K) ^ (1024 : ℤ) ≤ |(roundHalfEven (x / (1 / 2 ^ 52)) : K) * (1 / 2 ^ 52)|
  · rw [if_pos hov, if_pos hxpos] at h
    exact absurd h (by simp)
  · rw [if_neg hov] at h
    rw [← Fp.fin.inj h]
    exact hyv

/-- The quotient of two positive `double`s is a quotient of positive integers of which
one is below `2^53`. -/
theorem double_ratio (s r : K) (hs : 0 < s) (hr : 0 < r) (fs : toFloat64 s = Fp.fin s)
    (fr : toFloat64 r = Fp.fin r) :
    ∃ A B : ℤ, 0 < A ∧ 0 < B ∧ s / r = (A : K) / (B : K) ∧ (A < 2 ^ 53 ∨ B < 2 ^ 53) := by
  have h2 : (0 : K) < 2 := by norm_num
  obtain ⟨n, k, hsn, hn, _, _⟩ := roundTo_fixed 53 (-1074) 1024 s (ne_of_gt hs) fs
  obtain ⟨m, j, hrm, hm, _, _⟩ := roundTo_fixed 53 (-1074) 1024 r (ne_of_gt hr) fr
  have hnpos : 0 < n := by
    have : (0 : K) < (n : K) := by
      have h := hs
      rw [hsn] at h
      exact (mul_pos_iff_of_pos_right (zpow_pos h2 k)).1 h
    exact_mod_cast this
  have hmpos : 0 < m := by
    have : (0 : K) < (m : K) := by
      have h := hr
      rw [hrm] at h
      exact (mul_pos_iff_of_pos_right (zpow_pos h2 j)).1 h
    exact_mod_cast this
  have hn53 : n < 2 ^ 53 := lt_of_le_of_lt (le_abs_self n) hn
  have hm53 : m < 2 ^ 53 := lt_of_le_of_lt (le_abs_self m) hm
  rcases le_total j k with hjk | hkj
  · obtain ⟨d, hd⟩ : ∃ d : ℕ, k = j + d := ⟨(k - j).toNat, by omega⟩
    refine ⟨n * 2 ^ d, m, by positivity, hmpos, ?_, Or.inr hm53⟩
    rw [hsn, hrm, hd, zpow_add₀ (ne_of_gt h2), zpow_natCast]
    push_cast
    field_simp
    ring
  · obtain ⟨d, hd⟩ : ∃ d : ℕ, j = k + d := ⟨(j - k).toNat, by omega⟩
    refine ⟨n, m * 2 ^ d, hnpos, by positivity, ?_, Or.inl hn53⟩
    rw [hsn, hrm, hd, zpow_add₀ (ne_of_gt h2), zpow_natCast]
    push_cast
    field_simp
    ring

/-- Two different positive `double`s differ by a relative `2^-53` at least: the quotient
of the smaller by the larger is at most `1 - 2^-53`. -/
theorem double_ratio_lt (s r : K) (hs : 0 < s) (hr : 0 < r) (fs : toFloat64 s = Fp.fin s)
    (fr : toFloat64 r = Fp.fin r) (hlt : s < r) : s / r ≤ 1 - 1 / 2 ^ 53 := by
  obtain ⟨A, B, hA, hB, hAB, h53⟩ := double_ratio s r hs hr fs fr
  have hBK : (0 : K) < (B : K) := by exact_mod_cast hB
  have hlt1 : s / r < 1 := (div_lt_one hr).2 hlt
  rw [hAB] at hlt1 ⊢
  have hABlt : A < B := by
    have := (div_lt_one hBK).1 hlt1
    exact_mod_cast this
  have hint : A * 2 ^ 53 ≤ B * (2 ^ 53 - 1) := by
    rcases h53 with h | h <;> omega
  rw [div_le_iff₀ hBK]
  have hcast : (A : K) * 2 ^ 53 ≤ (B : K) * (2 ^ 53 - 1) := by exact_mod_cast hint
  have : (1 - 1 / 2 ^ 53 : K) * (B : K) = (B : K) * (2 ^ 53 - 1) / 2 ^ 53 := by
    field_simp
    ring
  rw [this, le_div_iff₀ (by positivity)]
  exact hcast

/-- The quotient of the larger of two different positive `double`s by the smaller
exceeds `1 + 2^-53`. -/
theorem double_ratio_gt (s r : K) (hs : 0 < s) (hr : 0 < r) (fs : toFloat64 s = Fp.fin s)
    (fr : toFloat64 r = Fp.fin r) (hlt : r < s) : 1 + 1 / 2 ^ 53 < s / r := by
  obtain ⟨A, B, hA, hB, hAB, h53⟩ := double_ratio s r hs hr fs fr
  have hBK : (0 : K) < (B : K) := by exact_mod_cast hB
  have hlt1 : 1 < s / r := (one_lt_div hr).2 hlt
  rw [hAB] at hlt1 ⊢
  have hABlt : B < A := by
    have := (one_lt_div hBK).1 hlt1
    exact_mod_cast this
  have hint : B * (2 ^ 53 + 1) < A * 2 ^ 53 := by
    rcases h53 with h | h <;> omega
  rw [lt_div_iff₀ hBK]
  have hcast : (B : K) * (2 ^ 53 + 1) < (A : K) * 2 ^ 53 := by exact_mod_cast hint
  have : (1 + 1 / 2 ^ 53 : K) * (B : K) = (B : K) * (2 ^ 53 + 1) / 2 ^ 53 := by
    field_simp
    ring
  rw [this, div_lt_iff₀ (by positivity)]
  exact hcast

end Spacing

section Sign

variable {K : Type} [LinearOrderedField K]

/-- A relative error of `2^-53` keeps a positive number above its half. -/
theorem rel_error_pos (x y : K) (h : |y - x| ≤ |x| / 2 ^ 53) (hx : 0 < x) : x / 2 ≤ y := by
  rw [abs_of_pos hx] at h
  have h1 := (abs_le.1 h).1
  have h2 : x / 2 ^ 53 ≤ x / 2 :=
    div_le_div_of_nonneg_left (le_of_lt hx) (by norm_num) (by norm_num)
  linarith

/-- A relative error of `2^-53` keeps a negative number below its half. -/
theorem rel_error_neg (x y : K) (h : |y - x| ≤ |x| / 2 ^ 53) (hx : x < 0) : y ≤ x / 2 := by
  rw [abs_of_neg hx] at h
  have h1 := (abs_le.1 h).2
  have h2 : -x / 2 ^ 53 ≤ -x / 2 :=
    div_le_div_of_nonneg_left (by linarith) (by norm_num) (by norm_num)
  linarith

/-- Sign of the result when the rounded quotient is at most `1 - 2^-53`: with `a` the exact
sixth power of the rounded quotient, the rounded twelfth power falls below the rounded
sixth power, and the two later roundings keep the sign. -/
theorem sign_neg_core (a P6 P12 d c v : K) (ha : 2 ^ (-486 : ℤ) ≤ a)
    (ha1 : a ≤ (1 - 1 / 2 ^ 53) ^ 6) (hP6 : |P6 - a| ≤ 1 / 2 ^ 53 * |a|)
    (hP12 : |P12 - a * a| ≤ 1 / 2 ^ 53 * |a * a|)
    (hdn : (2 : K) ^ (-1022 : ℤ) ≤ |P12 + -P6| → |d - (P12 + -P6)| ≤ |P12 + -P6| / 2 ^ 53)
    (hc : 2 ^ (-98 : ℤ) ≤ c)
    (hvn : (2 : K) ^ (-1022 : ℤ) ≤ |c * d| → |v - c * d| ≤ |c * d| / 2 ^ 53) : v < 0 := by
  have h2 : (0 : K) < 2 := by norm_num
  have h2ne : (2 : K) ≠ 0 := ne_of_gt h2
  have h53 : (2 : K) ^ (-53 : ℤ) = 1 / 2 ^ 53 := by rw [zpow_neg, one_div]; norm_cast
  have h54 : (2 : K) ^ (-54 : ℤ) = 1 / 2 ^ 54 := by rw [zpow_neg, one_div]; norm_cast
  have hθ1 : (2 : K) ^ (-1022 : ℤ) ≤ 1 / 2 ^ 53 * 2 ^ (-486 : ℤ) := by
    rw [← h53, ← zpow_add₀ h2ne]
    exact zpow_le_zpow_right₀ (by norm_num) (by norm_num)
  have hθ2 : (2 : K) ^ (-1022 : ℤ) ≤ 2 ^ (-98 : ℤ) * (1 / 2 ^ 54 * 2 ^ (-486 : ℤ)) := by
    rw [← h54, ← zpow_add₀ h2ne, ← zpow_add₀ h2ne]
    exact zpow_le_zpow_right₀ (by norm_num) (by norm_num)
  have hα0 : (0 : K) < 2 ^ (-486 : ℤ) := zpow_pos h2 _
  have hβ0 : (0 : K) < 2 ^ (-98 : ℤ) := zpow_pos h2 _
  generalize (2 : K) ^ (-1022 : ℤ) = θ at hθ1 hθ2 hdn hvn
  generalize (2 : K) ^ (-486 : ℤ) = α at hθ1 hθ2 hα0 ha
  generalize (2 : K) ^ (-98 : ℤ) = β at hθ2 hβ0 hc
  have hapos : 0 < a := lt_of_lt_of_le hα0 ha
  have hcpos : 0 < c := lt_of_lt_of_le hβ0 hc
  rw [abs_of_pos hapos] at hP6
  rw [abs_of_pos (mul_pos hapos hapos)] at hP12
  have hP6l := (abs_le.1 hP6).1
  have hP12u := (abs_le.1 hP12).2
  have haa : a * a ≤ a * (1 - 1 / 2 ^ 53) ^ 6 := mul_le_mul_of_nonneg_left ha1 (le_of_lt hapos)
  have hnum : (1 - 1 / 2 ^ 53 : K) ^ 6 * (1 + 1 / 2 ^ 53) - (1 - 1 / 2 ^ 53) ≤ -(3 / 2 ^ 53) := by
    norm_num
  have hD : P12 + -P6 ≤ -(3 / 2 ^ 53 * a) := by
    have h1 : P12 ≤ a * (1 - 1 / 2 ^ 53) ^ 6 * (1 + 1 / 2 ^ 53) := by
      have : a * a * (1 + 1 / 2 ^ 53) ≤ a * (1 - 1 / 2 ^ 53) ^ 6 * (1 + 1 / 2 ^ 53) :=
        mul_le_mul_of_nonneg_right haa (by positivity)
      linarith
    have h3 := mul_le_mul_of_nonneg_left hnum (le_of_lt hapos)
    linarith
  have hc3 : (0 : K) < 3 / 2 ^ 53 := by positivity
  have hDneg : P12 + -P6 < 0 := by
    have := mul_pos hc3 hapos
    linarith
  have hDabs : 3 / 2 ^ 53 * a ≤ |P12 + -P6| := by
    rw [abs_of_neg hDneg]; linarith
  have hDa : 1 / 2 ^ 53 * α ≤ 3 / 2 ^ 53 * a :=
    mul_le_mul (by norm_num) ha (le_of_lt hα0) (le_of_lt hc3)
  have hd := rel_error_neg _ _ (hdn (le_trans hθ1 (le_trans hDa hDabs))) hDneg
  have hd2 : d ≤ -(1 / 2 ^ 54 * α) := by
    have : (1 : K) / 2 ^ 54 * α = 1 / 2 ^ 53 * α / 2 := by ring
    rw [this]
    linarith
  have hdneg : d < 0 := by
    have : (0 : K) < 1 / 2 ^ 54 * α := by positivity
    linarith
  have hcd : c * d ≤ -(β * (1 / 2 ^ 54 * α)) := by
    have h1 : c * d ≤ c * -(1 / 2 ^ 54 * α) := mul_le_mul_of_nonneg_left hd2 (le_of_lt hcpos)
    have h2 : β * (1 / 2 ^ 54 * α) ≤ c * (1 / 2 ^ 54 * α) :=
      mul_le_mul_of_nonneg_right hc (by positivity)
    linarith
  have hcdneg : c * d < 0 := mul_neg_of_pos_of_neg hcpos hdneg
  have hcdabs : θ ≤ |c * d| := by
    rw [abs_of_neg hcdneg]; linarith
  have hv := rel_error_neg _ _ (hvn hcdabs) hcdneg
  linarith

/-- Sign of the result when the rounded quotient is at least `1 + 2^-52`. -/
theorem sign_pos_core (a P6 P12 d c v : K) (ha : (1 + 1 / 2 ^ 52) ^ 6 ≤ a)
    (hP6 : |P6 - a| ≤ 1 / 2 ^ 53 * |a|) (hP12 : |P12 - a * a| ≤ 1 / 2 ^ 53 * |a * a|)
    (hdn : (2 : K) ^ (-1022 : ℤ) ≤ |P12 + -P6| → |d - (P12 + -P6)| ≤ |P12 + -P6| / 2 ^ 53)
    (hc : 2 ^ (-98 : ℤ) ≤ c)
    (hvn : (2 : K) ^ (-1022 : ℤ) ≤ |c * d| → |v - c * d| ≤ |c * d| / 2 ^ 53) : 0 < v := by
  have h2 : (0 : K) < 2 := by norm_num
  have h2ne : (2 : K) ≠ 0 := ne_of_gt h2
  have h53 : (2 : K) ^ (-53 : ℤ) = 1 / 2 ^ 53 := by rw [zpow_neg, one_div]; norm_cast
  have hθ1 : (2 : K) ^ (-1022 : ℤ) ≤ 1 / 2 ^ 53 := by
    rw [← h53]
    exact zpow_le_zpow_right₀ (by norm_num) (by norm_num)
  have hθ2 : (2 : K) ^ (-1022 : ℤ) ≤ 2 ^ (-98 : ℤ) * (1 / 2 ^ 53) := by
    rw [← h53, ← zpow_add₀ h2ne]
    exact zpow_le_zpow_right₀ (by norm_num) (by norm_num)
  have hβ0 : (0 : K) < 2 ^ (-98 : ℤ) := zpow_pos h2 _
  generalize (2 : K) ^ (-1022 : ℤ) = θ at hθ1 hθ2 hdn hvn
  generalize (2 : K) ^ (-98 : ℤ) = β at hθ2 hβ0 hc
  have hW : (1 : K) ≤ (1 + 1 / 2 ^ 52) ^ 6 := one_le_pow₀ (by norm_num)
  have ha1 : 1 ≤ a := le_trans hW ha
  have hapos : 0 < a := lt_of_lt_of_le one_pos ha1
  have hcpos : 0 < c := lt_of_lt_of_le hβ0 hc
  rw [abs_of_pos hapos] at hP6
  rw [abs_of_pos (mul_pos hapos hapos)] at hP12
  have hP6u := (abs_le.1 hP6).2
  have hP12l := (abs_le.1 hP12).1
  have haa : a * (1 + 1 / 2 ^ 52) ^ 6 ≤ a * a := mul_le_mul_of_nonneg_left ha (le_of_lt hapos)
  have hnum : (9 : K) / 2 ^ 53 ≤ (1 + 1 / 2 ^ 52) ^ 6 * (1 - 1 / 2 ^ 53) - (1 + 1 / 2 ^ 53) := by
    norm_num
  have hD : 2 / 2 ^ 53 ≤ P12 + -P6 := by
    have h1 : a * (1 + 1 / 2 ^ 52) ^ 6 * (1 - 1 / 2 ^ 53) ≤ P12 := by
      have : a * (1 + 1 / 2 ^ 52) ^ 6 * (1 - 1 / 2 ^ 53) ≤ a * a * (1 - 1 / 2 ^ 53) :=
        mul_le_mul_of_nonneg_right haa (by norm_num)
      linarith
    have h3 := mul_le_mul_of_nonneg_left hnum (le_of_lt hapos)
    have h4 : (9 : K) / 2 ^ 53 * 1 ≤ 9 / 2 ^ 53 * a :=
      mul_le_mul_of_nonneg_left ha1 (by positivity)
    have h5 : (2 : K) / 2 ^ 53 ≤ 9 / 2 ^ 53 * 1 := by norm_num
    linarith
  have hDpos : 0 < P12 + -P6 := lt_of_lt_of_le (by positivity) hD
  have hDabs : θ ≤ |P12 + -P6| := by
    rw [abs_of_pos hDpos]
    have : (1 : K) / 2 ^ 53 ≤ 2 / 2 ^ 53 := by norm_num
    linarith
  have hd := rel_error_pos _ _ (hdn hDabs) hDpos
  have hd2 : 1 / 2 ^ 53 ≤ d := by
    have : (2 : K) / 2 ^ 53 / 2 = 1 / 2 ^ 53 := by ring
    linarith
  have hdpos : 0 < d := lt_of_lt_of_le (by positivity) hd2
  have hcd : β * (1 / 2 ^ 53) ≤ c * d :=
    mul_le_mul hc hd2 (by positivity) (le_of_lt hcpos)
  have hcdpos : 0 < c * d := mul_pos hcpos hdpos
  have hcdabs : θ ≤ |c * d| := by
    rw [abs_of_pos hcdpos]; linarith
  have hv := rel_error_pos _ _ (hvn hcdabs) hcdpos
  linarith

end Sign

section SignProgram

variable {K : Type} [LinearOrderedField K] [FloorRing K]

/-- Sign of the program's result at a positive `double` distance `r`, for a positive
`double` `sigma`: zero at `sigma`, positive below, negative above. -/
theorem lennard_jones_sign_pos (e s r : K) (he1 : 2 ^ (-100 : ℤ) ≤ e) (he2 : e ≤ 2 ^ (38 : ℤ))
    (hc : toFloat32 (4 * e) = Fp.fin (4 * e)) (hs : 0 < s) (fs : toFloat64 s = Fp.fin s)
    (hr : 0 < r) (fr : toFloat64 r = Fp.fin r)
    (hlo : 2 ^ (-80 : ℤ) ≤ s / r) (hhi : s / r ≤ 2 ^ (80 : ℤ)) :
    ∃ v : K, lennard_jones Arith.ieee (Fp.fin e) (Fp.fin s) (Fp.fin r) = Fp.fin v
      ∧ (r = s → v = 0) ∧ (r < s → 0 < v) ∧ (s < r → v < 0) := by
  have h2 : (0 : K) < 2 := by norm_num
  have h2ne : (2 : K) ≠ 0 := ne_of_gt h2
  have hepos : 0 < e := lt_of_lt_of_le (zpow_pos h2 _) he1
  have htpos : 0 < s / r := div_pos hs hr
  have habs : |s / r| = s / r := abs_of_pos htpos
  have h4 : |4 * e| = 4 * e := abs_of_pos (by linarith)
  have he4 : |4 * e| ≤ 2 ^ (40 : ℤ) := by
    rw [h4]
    have h40 : (2 : K) ^ (40 : ℤ) = 4 * 2 ^ (38 : ℤ) := by
      rw [show (40 : ℤ) = 2 + 38 by norm_num, zpow_add₀ h2ne]
      norm_num
    rw [h40]
    linarith
  have hc98 : (2 : K) ^ (-98 : ℤ) ≤ 4 * e := by
    have h98 : (2 : K) ^ (-98 : ℤ) = 4 * 2 ^ (-100 : ℤ) := by
      rw [show (-98 : ℤ) = 2 + -100 by norm_num, zpow_add₀ h2ne]
      norm_num
    rw [h98]
    linarith
  obtain ⟨q, P6, P12, d, v, hv, hq, hqrel, hP6r, hP12r, _, _, _, hdn, _, hvn⟩ :=
    lennard_jones_ieee_steps e s r (ne_of_gt hr) (by rw [habs]; exact hlo)
      (by rw [habs]; exact hhi) hc he4
  have hqrel2 : |q - s / r| ≤ |s / r| / 2 ^ 53 := le_of_le_of_eq hqrel (by ring)
  have hqlo := rel_error_pos _ _ hqrel2 htpos
  have h81 : (2 : K) ^ (-81 : ℤ) ≤ q := by
    have h : (2 : K) ^ (-81 : ℤ) = 2 ^ (-80 : ℤ) / 2 := by
      rw [show (-81 : ℤ) = -80 - 1 by norm_num, zpow_sub₀ h2ne]
      norm_num
    rw [h]
    have := div_le_div_of_nonneg_right hlo (le_of_lt h2)
    linarith
  have hqpos : 0 < q := lt_of_lt_of_le (zpow_pos h2 _) h81
  have ha_lo : (2 : K) ^ (-486 : ℤ) ≤ q ^ 6 := by
    have := pow_le_pow_left₀ (le_of_lt (zpow_pos h2 (-81))) h81 6
    rw [← zpow_natCast ((2 : K) ^ (-81 : ℤ)) 6, ← zpow_mul] at this
    exact this
  have h12 : q ^ 12 = q ^ 6 * q ^ 6 := by ring
  rw [h12] at hP12r
  refine ⟨v, hv, ?_, ?_, ?_⟩
  · intro hrs
    rw [hrs, lennard_jones_ieee_at_sigma e s (ne_of_gt hs), hc] at hv
    simp only [Fp.mul, mul_zero, toFloat64_zero] at hv
    exact (Fp.fin.inj hv).symm
  · intro hlt
    have ht := double_ratio_gt s r hs hr fs fr hlt
    have hq1 : 1 + 1 / 2 ^ 52 ≤ q := by
      rcases lt_or_le (s / r) 2 with h | h
      · exact toFloat64_above_one (s / r) q ht h hq
      · have h1 := (abs_le.1 hqrel2).1
        rw [habs] at h1
        have h3 : (2 : K) / 2 ^ 53 ≤ s / r / 2 ^ 53 :=
          div_le_div_of_nonneg_right h (by positivity)
        have h5 : s / r / 2 ^ 53 ≤ s / r / 2 :=
          div_le_div_of_nonneg_left (le_of_lt htpos) (by norm_num) (by norm_num)
        have h4 : (1 : K) / 2 ^ 52 ≤ 1 / 2 := by norm_num
        have h6 : s / r / 2 = s / r - s / r / 2 := by ring
        linarith
    exact sign_pos_core (q ^ 6) P6 P12 d (4 * e) v
      (pow_le_pow_left₀ (by positivity) hq1 6) hP6r hP12r hdn hc98 hvn
  · intro hlt
    have ht := double_ratio_lt s r hs hr fs fr hlt
    have hm : ((9007199254740991 : ℤ) : K) * 2 ^ (-53 : ℤ) = 1 - 1 / 2 ^ 53 := by
      rw [zpow_neg]
      norm_num
    obtain ⟨y, hy, hyb⟩ := roundTo_abs_le_repr 53 (-1074) 1024 (s / r) 9007199254740991 (-53)
      (by norm_num) (by norm_num) (by norm_num)
      (by rw [hm]
          exact lt_of_lt_of_le (by norm_num) (one_le_zpow₀ (by norm_num) (by norm_num)))
      (by rw [hm, habs]; exact ht)
    have hyq : y = q := Fp.fin.inj (hy.symm.trans hq)
    rw [hyq, hm, abs_of_pos hqpos] at hyb
    exact sign_neg_core (q ^ 6) P6 P12 d (4 * e) v ha_lo
      (pow_le_pow_left₀ (le_of_lt hqpos) hyb 6) hP6r hP12r hdn hc98 hvn

/-- C12, amended: Sign of the program's result.  For `epsilon` between `2^-100` and
`2^38` whose product `4 * epsilon` is a `float`, a positive `double` `sigma` and a
nonzero `double` `r` with `2^-80 <= |sigma/r| <= 2^80`, the program returns a finite
value that is `0` exactly when `|r| = sigma`, positive when `|r| < sigma` and negative
when `|r| > sigma`. -/
theorem lennard_jones_sign (e s r : K) (he1 : 2 ^ (-100 : ℤ) ≤ e) (he2 : e ≤ 2 ^ (38 : ℤ))
    (hc : toFloat32 (4 * e) = Fp.fin (4 * e)) (hs : 0 < s) (fs : toFloat64 s = Fp.fin s)
    (hr : r ≠ 0) (fr : toFloat64 r = Fp.fin r)
    (hlo : 2 ^ (-80 : ℤ) ≤ |s / r|) (hhi : |s / r| ≤ 2 ^ (80 : ℤ)) :
    ∃ v : K, lennard_jones Arith.ieee (Fp.fin e) (Fp.fin s) (Fp.fin r) = Fp.fin v
      ∧ (v = 0 ↔ |r| = s) ∧ (|r| < s → 0 < v) ∧ (s < |r| → v < 0) := by
  have key : ∀ x : K, 0 < x → toFloat64 x = Fp.fin x → |s / r| = s / x
      → lennard_jones Arith.ieee (Fp.fin e) (Fp.fin s) (Fp.fin r)
          = lennard_jones Arith.ieee (Fp.fin e) (Fp.fin s) (Fp.fin x)
      → ∃ v : K, lennard_jones Arith.ieee (Fp.fin e) (Fp.fin s) (Fp.fin r) = Fp.fin v
          ∧ (v = 0 ↔ x = s) ∧ (x < s → 0 < v) ∧ (s < x → v < 0) := by
    intro x hx fx habs hlj
    rw [habs] at hlo hhi
    obtain ⟨v, hv, h0, hp, hn⟩ := lennard_jones_sign_pos e s x he1 he2 hc hs fs hx fx hlo hhi
    refine ⟨v, hlj.trans hv, ⟨fun hv0 => ?_, h0⟩, hp, hn⟩
    rcases lt_trichotomy x s with h | h | h
    · exact absurd hv0 (ne_of_gt (hp h))
    · exact h
    · exact absurd hv0 (ne_of_lt (hn h))
  rcases lt_or_gt_of_ne hr with hneg | hpos
  · rw [abs_of_neg hneg]
    refine key (-r) (neg_pos.2 hneg) ?_ ?_ ?_
    · show roundTo 53 (-1074) 1024 (-r) = Fp.fin (-r)
      rw [roundTo_neg]
      show Fp.neg (toFloat64 r) = Fp.fin (-r)
      rw [fr]
      rfl
    · rw [div_neg, abs_of_neg (div_neg_of_pos_of_neg hs hneg)]
    · exact (lennard_jones_neg_of_odd Arith.ieee (fun x => roundTo_neg 53 (-1074) 1024 x)
        (Fp.fin e) (Fp.fin s) r hr).symm
  · rw [abs_of_pos hpos]
    exact key r hpos fr (abs_of_pos (div_pos hs hpos)) rfl

end SignProgram

section SignCounterexamples

/-- C12, counterexample: Far above `sigma` the program's result is not negative, and
close to zero it is not positive: at `r = 2^200 > sigma` both powers underflow and the
result is `0`; at `r = 2^-200 < sigma` both powers overflow and the result is NaN. -/
theorem lennard_jones_sign_fails :
    sigma = Fp.fin (3544187 / 1048576) ∧ (3544187 / 1048576 : ℚ) < 2 ^ (200 : ℤ)
      ∧ lennard_jones Arith.ieee epsilon sigma (Fp.fin ((2 : ℚ) ^ (200 : ℤ))) = Fp.fin 0
      ∧ (0 : ℚ) < 2 ^ (-200 : ℤ) ∧ (2 : ℚ) ^ (-200 : ℤ) < 3544187 / 1048576
      ∧ lennard_jones Arith.ieee epsilon sigma (Fp.fin ((2 : ℚ) ^ (-200 : ℤ))) = Fp.nan := by
  have h200 : (0 : ℚ) < 2 ^ (200 : ℤ) := zpow_pos (by norm_num) _
  have hm200 : (0 : ℚ) < 2 ^ (-200 : ℤ) := zpow_pos (by norm_num) _
  refine ⟨sigma_eq, ?_, ?_, hm200, ?_, ?_⟩
  · have : (2 : ℚ) ^ (2 : ℤ) ≤ 2 ^ (200 : ℤ) := zpow_le_zpow_right₀ (by norm_num) (by norm_num)
    refine lt_of_lt_of_le ?_ this
    norm_num
  · apply lennard_jones_zero_of_huge
    rw [abs_of_pos h200]
    exact zpow_le_zpow_right₀ (by norm_num) (by norm_num)
  · have : (2 : ℚ) ^ (-200 : ℤ) ≤ 2 ^ (0 : ℤ) := zpow_le_zpow_right₀ (by norm_num) (by norm_num)
    refine lt_of_le_of_lt this ?_
    norm_num
  · apply lennard_jones_nan_of_tiny _ _ (ne_of_gt hm200)
    rw [abs_of_pos hm200]
    exact zpow_le_zpow_right₀ (by norm_num) (by norm_num)

/-- The program's constants are `double`s. -/
theorem sigma_is_double :
    toFloat64 (3544187 / 1048576 : ℚ) = Fp.fin (3544187 / 1048576) := by
  have := roundTo_exact (K := ℚ) 53 (-1074) 1024 3544187 (-20) (by norm_num) (by norm_num)
    (by norm_num [abs_of_pos])
  have hv : ((3544187 : ℤ) : ℚ) * 2 ^ (-20 : ℤ) = 3544187 / 1048576 := by norm_num
  rw [hv] at this
  exact this

/-- The distance 5 is a `double`. -/
theorem five_is_double : toFloat64 (5 : ℚ) = Fp.fin 5 := by
  have := roundTo_exact (K := ℚ) 53 (-1074) 1024 5 0 (by norm_num) (by norm_num)
    (by norm_num [abs_of_pos])
  simpa using this

/-- Witness of C12: the program's constants and the distance 5, which lies above
`sigma`. -/
theorem lennard_jones_sign_witness :
    (3544187 / 1048576 : ℚ) < |5|
      ∧ ∃ v : ℚ, lennard_jones Arith.ieee (Fp.fin (5190451 / 262144))
          (Fp.fin (3544187 / 1048576)) (Fp.fin 5) = Fp.fin v
        ∧ (v = 0 ↔ |(5 : ℚ)| = 3544187 / 1048576) ∧ (|(5 : ℚ)| < 3544187 / 1048576 → 0 < v)
        ∧ (3544187 / 1048576 < |(5 : ℚ)| → v < 0) :=
  ⟨by norm_num [abs_of_pos],
    lennard_jones_sign (5190451 / 262144 : ℚ) (3544187 / 1048576) 5
      (le_trans (zpow_le_one_of_nonpos₀ (by norm_num) (by norm_num)) (by norm_num))
      (by norm_num) four_epsilon_exact (by norm_num) sigma_is_double (by norm_num)
      five_is_double
      (le_trans (zpow_le_zpow_right₀ (by norm_num) (by norm_num) :
          (2 : ℚ) ^ (-80 : ℤ) ≤ 2 ^ (-1 : ℤ))
        (by rw [abs_of_pos (by norm_num)]; norm_num))
      (by rw [abs_of_pos (by norm_num)]; norm_num)⟩

end SignCounterexamples

/-! ## The shape of the well -/

section WellProgram

/-- The exact formula in terms of `u = (sigma/r)^6`. -/
theorem specPotential_ratio {K : Type} [LinearOrderedField K] (e s r : K) :
    specPotential e s r = 4 * e * ((s / r) ^ 6 * ((s / r) ^ 6 - 1)) := by
  unfold specPotential
  ring

/-- The range `2^-80 <= sigma/r <= 2^80` for positive `sigma` and `r`. -/
theorem ratio_range (s r : ℝ) (hs : 0 < s) (hr : 0 < r) (h1 : s ≤ 2 ^ 80 * r)
    (h2 : r ≤ 2 ^ 80 * s) :
    (2 : ℝ) ^ (-80 : ℤ) ≤ |s / r| ∧ |s / r| ≤ (2 : ℝ) ^ (80 : ℤ) := by
  have h80 : (2 : ℝ) ^ (80 : ℤ) = 2 ^ 80 := by norm_cast
  have hm80 : (2 : ℝ) ^ (-80 : ℤ) = 1 / 2 ^ 80 := by rw [zpow_neg, one_div]; norm_cast
  rw [abs_of_pos (div_pos hs hr), h80, hm80]
  constructor
  · rw [le_div_iff₀ hr, div_mul_eq_mul_div, one_mul, div_le_iff₀ (by positivity)]
    linarith
  · rw [div_le_iff₀ hr]
    exact h1

/-- C15, counterexample: To the right of `sigma * 2^(1/6)` the program's result is not
strictly increasing and not negative: the distances `2^200 < 2^201` satisfy
`r^6 >= 2 * sigma^6`, that is `r >= sigma * 2^(1/6)`, and the result is `0` at both. -/
theorem lennard_jones_flat_far_right :
    sigma = Fp.fin (3544187 / 1048576)
      ∧ 2 * (3544187 / 1048576 : ℚ) ^ 6 ≤ ((2 : ℚ) ^ (200 : ℤ)) ^ 6
      ∧ (2 : ℚ) ^ (200 : ℤ) < 2 ^ (201 : ℤ)
      ∧ lennard_jones Arith.ieee epsilon sigma (Fp.fin ((2 : ℚ) ^ (200 : ℤ))) = Fp.fin 0
      ∧ lennard_jones Arith.ieee epsilon sigma (Fp.fin ((2 : ℚ) ^ (201 : ℤ))) = Fp.fin 0 := by
  have h200 : (0 : ℚ) < 2 ^ (200 : ℤ) := zpow_pos (by norm_num) _
  have h201 : (0 : ℚ) < 2 ^ (201 : ℤ) := zpow_pos (by norm_num) _
  refine ⟨sigma_eq, ?_, zpow_lt_zpow_right₀ (by norm_num) (by norm_num), ?_, ?_⟩
  · have h4 : (2 : ℚ) ^ (2 : ℤ) ≤ 2 ^ (200 : ℤ) :=
      zpow_le_zpow_right₀ (by norm_num) (by norm_num)
    have h6 := pow_le_pow_left₀ (le_of_lt (zpow_pos (by norm_num : (0 : ℚ) < 2) 2)) h4 6
    refine le_trans ?_ h6
    norm_num
  · apply lennard_jones_zero_of_huge
    rw [abs_of_pos h200]
    exact zpow_le_zpow_right₀ (by norm_num) (by norm_num)
  · apply lennard_jones_zero_of_huge
    rw [abs_of_pos h201]
    exact zpow_le_zpow_right₀ (by norm_num) (by norm_num)

/-- C15, amended: Shape of the well up to rounding.  For `epsilon` between `2^-100` and
`2^38` whose product `4 * epsilon` is a `float`, and `sigma > 0`, with
`rm = sigma * 2^(1/6)`: the exact formula `4 * epsilon * ((sigma/r)^12 - (sigma/r)^6)` is
strictly decreasing on `(0, rm]`, strictly increasing on `[rm, ∞)`, equal to `-epsilon` at
`rm` and above `-epsilon` at every other positive `r`, and negative for `r > sigma`; at
every `r > 0` with `2^-80 <= sigma/r <= 2^80` the program returns a finite value within
`19 * 2^-53 * 4 * epsilon * ((sigma/r)^12 + (sigma/r)^6) + (8 * epsilon + 1) * 2^-1075`
of the formula; and for `double`s `sigma < r <= 2^80 * sigma` the program's value is
negative and at least `-epsilon * (1 + 2^-43)`. -/
theorem lennard_jones_well_shape (e s : ℝ) (he1 : 2 ^ (-100 : ℤ) ≤ e) (he2 : e ≤ 2 ^ (38 : ℤ))
    (hc : toFloat32 (4 * e) = Fp.fin (4 * e)) (hs : 0 < s) :
    (∀ r₁ r₂ : ℝ, 0 < r₁ → r₁ < r₂ → r₂ ≤ s * (2 : ℝ) ^ ((1 : ℝ) / 6) →
        specPotential e s r₂ < specPotential e s r₁)
      ∧ (∀ r₁ r₂ : ℝ, s * (2 : ℝ) ^ ((1 : ℝ) / 6) ≤ r₁ → r₁ < r₂ →
        specPotential e s r₁ < specPotential e s r₂)
      ∧ specPotential e s (s * (2 : ℝ) ^ ((1 : ℝ) / 6)) = -e
      ∧ (∀ r : ℝ, 0 < r → r ≠ s * (2 : ℝ) ^ ((1 : ℝ) / 6) → -e < specPotential e s r)
      ∧ (∀ r : ℝ, s < r → specPotential e s r < 0)
      ∧ (∀ r : ℝ, 0 < r → s ≤ 2 ^ 80 * r → r ≤ 2 ^ 80 * s →
        ∃ v : ℝ, lennard_jones Arith.ieee (Fp.fin e) (Fp.fin s) (Fp.fin r) = Fp.fin v
          ∧ |v - specPotential e s r|
              ≤ 19 / 2 ^ 53 * (4 * e * ((s / r) ^ 12 + (s / r) ^ 6))
                + (8 * e + 1) * 2 ^ (-1075 : ℤ))
      ∧ (∀ r : ℝ, toFloat64 s = Fp.fin s → toFloat64 r = Fp.fin r → s < r → r ≤ 2 ^ 80 * s →
        ∃ v : ℝ, lennard_jones Arith.ieee (Fp.fin e) (Fp.fin s) (Fp.fin r) = Fp.fin v
          ∧ v < 0 ∧ -(e * (1 + 1 / 2 ^ 43)) ≤ v) := by
  have hpos : (0 : ℝ) < (2 : ℝ) ^ ((1 : ℝ) / 6) := Real.rpow_pos_of_pos (by norm_num) _
  have hrm : 0 < s * (2 : ℝ) ^ ((1 : ℝ) / 6) := mul_pos hs hpos
  have he : 0 < e := lt_of_lt_of_le (zpow_pos (by norm_num) _) he1
  have h4e : 0 < 4 * e := by linarith
  have h4abs : |4 * e| = 4 * e := abs_of_pos h4e
  have he4 : |4 * e| ≤ 2 ^ (40 : ℤ) := by
    rw [h4abs]
    have h40 : (2 : ℝ) ^ (40 : ℤ) = 4 * 2 ^ (38 : ℤ) := by
      rw [show (40 : ℤ) = 2 + 38 by norm_num, zpow_add₀ (by norm_num : (2 : ℝ) ≠ 0)]
      norm_num
    rw [h40]
    linarith
  refine ⟨?_, ?_, ?_, ?_, ?_, ?_, ?_⟩
  · intro r₁ r₂ h1 h12 h2m
    have h2 : 0 < r₂ := lt_trans h1 h12
    have hu := ratio_pow_six_anti s r₁ r₂ hs h1 h12
    have hw := half_le_ratio s r₂ h2 h2m
    have hd := well_diff e ((s / r₁) ^ 6) ((s / r₂) ^ 6)
    have hp : 0 < 4 * e * (((s / r₁) ^ 6 - (s / r₂) ^ 6) * ((s / r₁) ^ 6 + (s / r₂) ^ 6 - 1)) :=
      mul_pos h4e (mul_pos (by linarith) (by linarith))
    rw [specPotential_ratio, specPotential_ratio]
    linarith
  · intro r₁ r₂ hm1 h12
    have h1 : 0 < r₁ := lt_of_lt_of_le hrm hm1
    have h2 : 0 < r₂ := lt_trans h1 h12
    have hu := ratio_pow_six_anti s r₁ r₂ hs h1 h12
    have hw := ratio_le_half s r₁ hs h1 hm1
    have hd := well_diff e ((s / r₁) ^ 6) ((s / r₂) ^ 6)
    have hp : 4 * e * (((s / r₁) ^ 6 - (s / r₂) ^ 6) * ((s / r₁) ^ 6 + (s / r₂) ^ 6 - 1)) < 0 :=
      mul_neg_of_pos_of_neg h4e (mul_neg_of_pos_of_neg (by linarith) (by linarith))
    rw [specPotential_ratio, specPotential_ratio]
    linarith
  · have hu : (s / (s * (2 : ℝ) ^ ((1 : ℝ) / 6))) ^ 6 = 1 / 2 :=
      le_antisymm (ratio_le_half s _ hs hrm (le_refl _)) (half_le_ratio s _ hrm (le_refl _))
    rw [specPotential_ratio, hu]
    ring
  · intro r hr hne
    have hu : (s / r) ^ 6 ≠ 1 / 2 := fun h => hne (ratio_eq_half s r hs hr h)
    have hsq : 0 < (2 * (s / r) ^ 6 - 1) ^ 2 := by
      apply sq_pos_of_ne_zero
      intro h0
      apply hu
      linarith
    have hid : 4 * e * ((s / r) ^ 6 * ((s / r) ^ 6 - 1)) + e
        = e * (2 * (s / r) ^ 6 - 1) ^ 2 := by ring
    have := mul_pos he hsq
    rw [specPotential_ratio]
    linarith
  · intro r hsr
    have hr : 0 < r := lt_trans hs hsr
    have hu0 : 0 < (s / r) ^ 6 := pow_pos (div_pos hs hr) 6
    have hu1 : (s / r) ^ 6 < 1 :=
      pow_lt_one₀ (le_of_lt (div_pos hs hr)) ((div_lt_one hr).2 hsr) (by norm_num)
    rw [specPotential_ratio]
    exact mul_neg_of_pos_of_neg h4e (mul_neg_of_pos_of_neg hu0 (by linarith))
  · intro r hr h1 h2
    obtain ⟨hlo, hhi⟩ := ratio_range s r hs hr h1 h2
    obtain ⟨v, hv, hve⟩ := lennard_jones_ieee_accuracy e s r (ne_of_gt hr) hlo hhi hc he4
    rw [h4abs] at hve
    refine ⟨v, hv, le_of_le_of_eq hve ?_⟩
    ring
  · intro r fs fr hsr h2
    have hr : 0 < r := lt_trans hs hsr
    have h1 : s ≤ 2 ^ 80 * r := by
      have : (1 : ℝ) * r ≤ 2 ^ 80 * r :=
        mul_le_mul_of_nonneg_right (one_le_pow₀ (by norm_num)) (le_of_lt hr)
      linarith
    obtain ⟨hlo, hhi⟩ := ratio_range s r hs hr h1 h2
    obtain ⟨v, hv, hfloor, _⟩ := lennard_jones_ieee_floor e s r he1 he2 hc (ne_of_gt hr) hlo hhi
    rw [abs_of_pos (div_pos hs hr)] at hlo hhi
    obtain ⟨w, hw, _, _, hneg⟩ := lennard_jones_sign_pos e s r he1 he2 hc hs fs hr fr hlo hhi
    have hvw : v = w := Fp.fin.inj (hv.symm.trans hw)
    exact ⟨v, hv, by rw [hvw]; exact hneg hsr, hfloor⟩

/-- Four times the program's `epsilon` is a `float`, over the reals. -/
theorem four_epsilon_exact_real :
    toFloat32 ((4 : ℝ) * (5190451 / 262144)) = Fp.fin (4 * (5190451 / 262144)) := by
  have := roundTo_exact (K := ℝ) 24 (-149) 128 5190451 (-16) (by norm_num) (by norm_num)
    (by norm_num [abs_of_pos])
  have hv : ((5190451 : ℤ) : ℝ) * 2 ^ (-16 : ℤ) = 4 * (5190451 / 262144) := by norm_num
  rw [hv] at this
  exact this

/-- Witness of C15: the program's constants. -/
theorem lennard_jones_well_shape_witness :
    (∀ r₁ r₂ : ℝ, 0 < r₁ → r₁ < r₂ → r₂ ≤ 3544187 / 1048576 * (2 : ℝ) ^ ((1 : ℝ) / 6) →
        specPotential (5190451 / 262144) (3544187 / 1048576) r₂
          < specPotential (5190451 / 262144) (3544187 / 1048576) r₁)
      ∧ (∀ r₁ r₂ : ℝ, 3544187 / 1048576 * (2 : ℝ) ^ ((1 : ℝ) / 6) ≤ r₁ → r₁ < r₂ →
        specPotential (5190451 / 262144) (3544187 / 1048576) r₁
          < specPotential (5190451 / 262144) (3544187 / 1048576) r₂)
      ∧ specPotential (5190451 / 262144 : ℝ) (3544187 / 1048576)
          (3544187 / 1048576 * (2 : ℝ) ^ ((1 : ℝ) / 6)) = -(5190451 / 262144)
      ∧ (∀ r : ℝ, 0 < r → r ≠ 3544187 / 1048576 * (2 : ℝ) ^ ((1 : ℝ) / 6) →
        -(5190451 / 262144) < specPotential (5190451 / 262144) (3544187 / 1048576) r)
      ∧ (∀ r : ℝ, 3544187 / 1048576 < r →
        specPotential (5190451 / 262144) (3544187 / 1048576) r < 0)
      ∧ (∀ r : ℝ, 0 < r → 3544187 / 1048576 ≤ 2 ^ 80 * r → r ≤ 2 ^ 80 * (3544187 / 1048576) →
        ∃ v : ℝ, lennard_jones Arith.ieee (Fp.fin (5190451 / 262144))
            (Fp.fin (3544187 / 1048576)) (Fp.fin r) = Fp.fin v
          ∧ |v - specPotential (5190451 / 262144) (3544187 / 1048576) r|
              ≤ 19 / 2 ^ 53 * (4 * (5190451 / 262144)
                  * ((3544187 / 1048576 / r) ^ 12 + (3544187 / 1048576 / r) ^ 6))
                + (8 * (5190451 / 262144) + 1) * 2 ^ (-1075 : ℤ))
      ∧ (∀ r : ℝ, toFloat64 (3544187 / 1048576 : ℝ) = Fp.fin (3544187 / 1048576) →
        toFloat64 r = Fp.fin r → 3544187 / 1048576 < r → r ≤ 2 ^ 80 * (3544187 / 1048576) →
        ∃ v : ℝ, lennard_jones Arith.ieee (Fp.fin (5190451 / 262144))
            (Fp.fin (3544187 / 1048576)) (Fp.fin r) = Fp.fin v
          ∧ v < 0 ∧ -(5190451 / 262144 * (1 + 1 / 2 ^ 43)) ≤ v) :=
  lennard_jones_well_shape (5190451 / 262144) (3544187 / 1048576)
    (le_trans (zpow_le_one_of_nonpos₀ (by norm_num) (by norm_num)) (by norm_num))
    (by norm_num) four_epsilon_exact_real (by norm_num)

end WellProgram

/-! ## The sweep for an arbitrary bound -/

section RoundedBound

variable {K : Type} [LinearOrderedField K] [FloorRing K]

/-- The run of `main` for a bound `R` whose `float` value `r` is positive, when every
increment of the counter is exact: the header and the data lines of the counters `-r`,
`-r + 1`, ..., `ceil(2r)` of them. -/
theorem main_of_rounded_bound (A : Arith K) (eps sig : Fp K) (R r : K)
    (hcast : A.toFloat R = Fp.fin r) (hr : 0 < r)
    (hstep : ∀ k : ℕ, k < ⌈2 * r⌉.toNat → A.toFloat (-r + k + 1) = Fp.fin (-r + k + 1))
    (fuel : ℕ) (hfuel : ⌈2 * r⌉.toNat < fuel) :
    main A eps sig (Fp.fin R) fuel
      = some (headerCall :: sweepLines A eps sig (-r) ⌈2 * r⌉.toNat, 0) := by
  have hc : 0 ≤ ⌈2 * r⌉ := Int.ceil_nonneg (by linarith)
  have hn : ((⌈2 * r⌉.toNat : ℕ) : ℤ) = ⌈2 * r⌉ := Int.toNat_of_nonneg hc
  have hlt : ∀ k : ℕ, k < ⌈2 * r⌉.toNat → -r + k < r := by
    intro k hk
    have h1 : (k : ℤ) < ⌈2 * r⌉ := by omega
    have h2 : ((k : ℤ) : K) < 2 * r := Int.lt_ceil.1 h1
    have h3 : ((k : ℤ) : K) = (k : K) := Int.cast_natCast k
    linarith
  have hge : ¬ (-r + (⌈2 * r⌉.toNat : ℕ) < r) := by
    have h1 : 2 * r ≤ ((⌈2 * r⌉ : ℤ) : K) := Int.le_ceil _
    have h2 : (((⌈2 * r⌉.toNat : ℕ) : ℤ) : K) = ((⌈2 * r⌉.toNat : ℕ) : K) := Int.cast_natCast _
    rw [hn] at h2
    linarith
  have := sweep_exact_steps A eps sig r ⌈2 * r⌉.toNat (-r) hlt hge hstep fuel hfuel [headerCall]
  simp only [main, Fp.cast, hcast, Fp.neg, this, Option.map_some', List.singleton_append]

end RoundedBound

/-- The bound `1 + 2^-30` is positive and not an integer, and twice it rounds up to 3. -/
theorem near_one_facts :
    (0 : ℚ) < 1073741825 / 1073741824
      ∧ ⌈2 * (1073741825 / 1073741824 : ℚ)⌉ = 3
      ∧ ¬ ∃ n : ℤ, (n : ℚ) = 1073741825 / 1073741824 := by
  refine ⟨by norm_num, ?_, ?_⟩
  · rw [Int.ceil_eq_iff]
    constructor <;> norm_num
  · rintro ⟨n, hn⟩
    have h : ((n * 1073741824 : ℤ) : ℚ) = ((1073741825 : ℤ) : ℚ) := by
      push_cast
      rw [hn]
      norm_num
    have := Int.cast_injective h
    omega

/-- The run of the program for the bound `1 + 2^-30`, written out. -/
theorem main_near_one_lines :
    main Arith.ieee epsilon sigma (Fp.fin (1073741825 / 1073741824)) 4
      = some ([headerCall,
          dataCall (Fp.fin (-1)) (lennard_jones Arith.ieee epsilon sigma (Fp.fin (-1))),
          dataCall (Fp.fin 0) Fp.nan], 0) := by
  rw [main_near_one_float]
  have h0 : (-1 : ℚ) + ((1 : ℕ) : ℚ) = 0 := by norm_num
  simp only [sweepLines, List.range_succ, List.range_zero, List.nil_append, List.map_cons,
    List.map_nil, List.cons_append, Nat.cast_zero, add_zero, h0, lennard_jones_zero]

/-- C6, counterexample: for the bound `R = 1 + 2^-30` (positive, every increment of the
counter exact) the loop runs 2 times, while `ceil(2R)` is 3. -/
theorem sweep_count_not_ceil_of_bound :
    (0 : ℚ) < 1073741825 / 1073741824
      ∧ (∀ k : ℕ, k < 2 →
          (Arith.ieee (K := ℚ)).toFloat (-1 + (k : ℚ) + 1) = Fp.fin (-1 + (k : ℚ) + 1))
      ∧ ⌈2 * (1073741825 / 1073741824 : ℚ)⌉ = 3
      ∧ ∃ out : List (PrintfCall ℚ),
          main Arith.ieee epsilon sigma (Fp.fin (1073741825 / 1073741824)) 4 = some (out, 0)
            ∧ out.tail.length = 2 := by
  refine ⟨near_one_facts.1, ?_, near_one_facts.2.1, _, main_near_one_lines, rfl⟩
  intro k hk
  exact two_steps_exact k (by rw [ceil_two_mul_one]; exact hk)

/-- C6, amended: sweep count.  For every bound `R` whose `float` value `r` is positive and
whose counter increments are all exact, `main` returns (with enough fuel) after writing the
header line and then exactly `ceil(2r)` data lines; for `R = 5`, which is its own `float`
value, these are 10 data lines and 11 lines in total. -/
theorem sweep_count {K : Type} [LinearOrderedField K] [FloorRing K] (A : Arith K)
    (eps sig : Fp K) (R r : K) (hcast : A.toFloat R = Fp.fin r) (hr : 0 < r)
    (hstep : ∀ k : ℕ, k < ⌈2 * r⌉.toNat → A.toFloat (-r + k + 1) = Fp.fin (-r + k + 1))
    (fuel : ℕ) (hfuel : ⌈2 * r⌉.toNat < fuel) :
    ∃ out : List (PrintfCall K), main A eps sig (Fp.fin R) fuel = some (out, 0)
      ∧ out.head? = some headerCall
      ∧ (out.tail.length : ℤ) = ⌈2 * r⌉
      ∧ (out.length : ℤ) = ⌈2 * r⌉ + 1
      ∧ (r = 5 → out.tail.length = 10 ∧ out.length = 11) := by
  have hc : 0 ≤ ⌈2 * r⌉ := Int.ceil_nonneg (by linarith)
  have hn : ((⌈2 * r⌉.toNat : ℕ) : ℤ) = ⌈2 * r⌉ := Int.toNat_of_nonneg hc
  refine ⟨_, main_of_rounded_bound A eps sig R r hcast hr hstep fuel hfuel, rfl, ?_, ?_, ?_⟩
  · rw [List.tail_cons, sweepLines_length, hn]
  · rw [List.length_cons, sweepLines_length]
    push_cast
    rw [hn]
  · intro h5
    have h10 : ⌈2 * r⌉ = 10 := by
      rw [h5]
      have : (2 : K) * 5 = ((10 : ℤ) : K) := by norm_num
      rw [this, Int.ceil_intCast]
    rw [List.tail_cons, List.length_cons, sweepLines_length, h10]
    exact ⟨rfl, rfl⟩

/-- Witness of C6: the bound 5 in IEEE-754 arithmetic with the program's constants. -/
theorem sweep_count_witness :
    (Arith.ieee (K := ℚ)).toFloat 5 = Fp.fin 5
      ∧ (0 : ℚ) < 5
      ∧ (∀ k : ℕ, k < ⌈2 * (5 : ℚ)⌉.toNat →
          (Arith.ieee (K := ℚ)).toFloat (-5 + (k : ℚ) + 1) = Fp.fin (-5 + (k : ℚ) + 1))
      ∧ ⌈2 * (5 : ℚ)⌉.toNat < 11
      ∧ ∃ out : List (PrintfCall ℚ),
          main Arith.ieee epsilon sigma (Fp.fin 5) 11 = some (out, 0)
            ∧ out.head? = some headerCall
            ∧ (out.tail.length : ℤ) = ⌈2 * (5 : ℚ)⌉
            ∧ (out.length : ℤ) = ⌈2 * (5 : ℚ)⌉ + 1
            ∧ ((5 : ℚ) = 5 → out.tail.length = 10 ∧ out.length = 11) :=
  ⟨toFloat32_five, by norm_num, ten_steps_exact, by rw [ceil_two_mul_five]; norm_num,
    sweep_count Arith.ieee epsilon sigma 5 5 toFloat32_five (by norm_num) ten_steps_exact 11
      (by rw [ceil_two_mul_five]; norm_num)⟩

/-- C8, counterexample: for the bound `R = 1 + 2^-30` (positive, every increment of the
counter exact) the data lines report the distances -1 and 0; the first is not `-R`. -/
theorem sweep_contents_not_from_bound :
    ∃ out : List (PrintfCall ℚ),
      main Arith.ieee epsilon sigma (Fp.fin (1073741825 / 1073741824)) 4 = some (out, 0)
        ∧ out.tail.map (fun c => c.args.head?) = [some (Fp.fin (-1)), some (Fp.fin 0)]
        ∧ (Fp.fin (-1) : Fp ℚ) ≠ Fp.fin (-(1073741825 / 1073741824) + ((0 : ℕ) : ℚ)) := by
  refine ⟨_, main_near_one_lines, rfl, ?_⟩
  intro h
  have := Fp.fin.inj h
  norm_num at this

/-- C8, amended: sweep contents and order.  For every bound `R` whose `float` value `r` is
positive and whose counter increments are all exact, the data line number `k` (from 0)
reports the distance `-r + k` with the potential `lennard_jones(-r + k)`; the distances
start at `-r`, grow by exactly 1 from one line to the next, and all lie in `[-r, r)`.  For
`R = 1` the distances are exactly -1 and 0. -/
theorem sweep_contents {K : Type} [LinearOrderedField K] [FloorRing K] (A : Arith K)
    (eps sig : Fp K) (R r : K) (hcast : A.toFloat R = Fp.fin r) (hr : 0 < r)
    (hstep : ∀ k : ℕ, k < ⌈2 * r⌉.toNat → A.toFloat (-r + k + 1) = Fp.fin (-r + k + 1))
    (fuel : ℕ) (hfuel : ⌈2 * r⌉.toNat < fuel) :
    ∃ out : List (PrintfCall K), main A eps sig (Fp.fin R) fuel = some (out, 0)
      ∧ out.tail.length = ⌈2 * r⌉.toNat
      ∧ (∀ k : ℕ, k < ⌈2 * r⌉.toNat →
          out.tail[k]? = some (dataCall (Fp.fin (-r + (k : K)))
            (lennard_jones A eps sig (Fp.fin (-r + (k : K)))))
          ∧ -r ≤ -r + (k : K) ∧ -r + (k : K) < r
          ∧ -r + ((k + 1 : ℕ) : K) = (-r + (k : K)) + 1)
      ∧ (r = 1 → out.tail.map (fun c => c.args.head?)
          = [some (Fp.fin (-1)), some (Fp.fin 0)]) := by
  have hc : 0 ≤ ⌈2 * r⌉ := Int.ceil_nonneg (by linarith)
  refine ⟨_, main_of_rounded_bound A eps sig R r hcast hr hstep fuel hfuel, ?_, ?_, ?_⟩
  · rw [List.tail_cons, sweepLines_length]
  · intro k hk
    refine ⟨?_, ?_, ?_, ?_⟩
    · rw [List.tail_cons, sweepLines, List.getElem?_map, List.getElem?_range hk]
      rfl
    · have : (0 : K) ≤ (k : K) := Nat.cast_nonneg k
      linarith
    · have h1 : (k : ℤ) < ⌈2 * r⌉ := by omega
      have h2 : ((k : ℤ) : K) < 2 * r := Int.lt_ceil.1 h1
      have h3 : ((k : ℤ) : K) = (k : K) := Int.cast_natCast k
      linarith
    · push_cast
      ring
  · intro h1
    have h2 : ⌈2 * r⌉.toNat = 2 := by
      rw [h1]
      have : (2 : K) * 1 = ((2 : ℤ) : K) := by norm_num
      rw [this, Int.ceil_intCast]
      rfl
    have h0 : (-1 : K) + ((1 : ℕ) : K) = 0 := by norm_num
    rw [List.tail_cons, h2, h1]
    simp only [sweepLines, List.range_succ, List.range_zero, List.nil_append, List.map_cons,
      List.map_nil, List.cons_append, Nat.cast_zero, add_zero, h0, dataCall, List.head?_cons]

/-- Witness of C8: the bound `1 + 2^-30`, whose `float` value is 1, in IEEE-754
arithmetic with the program's constants. -/
theorem sweep_contents_witness :
    (Arith.ieee (K := ℚ)).toFloat (1073741825 / 1073741824) = Fp.fin 1
      ∧ (0 : ℚ) < 1
      ∧ (∀ k : ℕ, k < ⌈2 * (1 : ℚ)⌉.toNat →
          (Arith.ieee (K := ℚ)).toFloat (-1 + (k : ℚ) + 1) = Fp.fin (-1 + (k : ℚ) + 1))
      ∧ ⌈2 * (1 : ℚ)⌉.toNat < 3
      ∧ ∃ out : List (PrintfCall ℚ),
          main Arith.ieee epsilon sigma (Fp.fin (1073741825 / 1073741824)) 3 = some (out, 0)
        ∧ out.tail.length = ⌈2 * (1 : ℚ)⌉.toNat
        ∧ (∀ k : ℕ, k < ⌈2 * (1 : ℚ)⌉.toNat →
            out.tail[k]? = some (dataCall (Fp.fin (-1 + (k : ℚ)))
              (lennard_jones Arith.ieee epsilon sigma (Fp.fin (-1 + (k : ℚ)))))
            ∧ -1 ≤ -1 + (k : ℚ) ∧ -1 + (k : ℚ) < 1
            ∧ -1 + ((k + 1 : ℕ) : ℚ) = (-1 + (k : ℚ)) + 1)
        ∧ ((1 : ℚ) = 1 → out.tail.map (fun c => c.args.head?)
            = [some (Fp.fin (-1)), some (Fp.fin 0)]) :=
  ⟨toFloat32_near_one, one_pos, two_steps_exact, by rw [ceil_two_mul_one]; norm_num,
    sweep_contents Arith.ieee epsilon sigma (1073741825 / 1073741824) 1 toFloat32_near_one
      one_pos two_steps_exact 3 (by rw [ceil_two_mul_one]; norm_num)⟩

/-- C14, counterexample: for the bound `R = 1 + 2^-30`, which is positive and not an
integer and whose counter increments are all exact, the data line number 1 reports the
distance 0. -/
theorem sweep_zero_line_without_integer_bound :
    (¬ ∃ n : ℤ, (n : ℚ) = 1073741825 / 1073741824)
      ∧ ∃ out : List (PrintfCall ℚ),
          main Arith.ieee epsilon sigma (Fp.fin (1073741825 / 1073741824)) 4 = some (out, 0)
            ∧ out.tail[1]? = some (dataCall (Fp.fin 0) Fp.nan) :=
  ⟨near_one_facts.2.2, _, main_near_one_lines, rfl⟩

/-- C14, amended: the sweep reaches the singular distance 0 exactly when the `float` value
of the bound is an integer.  For every bound `R` whose `float` value `r` is positive and
whose counter increments are all exact, some data line reports the distance 0 if and only
if `r` is an integer; in that case it is the data line number `r` (from 0), the potential
on it is the NaN computed at the distance 0, and no other data line reports the
distance 0. -/
theorem sweep_zero_line {K : Type} [LinearOrderedField K] [FloorRing K] (A : Arith K)
    (eps sig : Fp K) (R r : K) (hcast : A.toFloat R = Fp.fin r) (hr : 0 < r)
    (hstep : ∀ k : ℕ, k < ⌈2 * r⌉.toNat → A.toFloat (-r + k + 1) = Fp.fin (-r + k + 1))
    (fuel : ℕ) (hfuel : ⌈2 * r⌉.toNat < fuel) :
    ∃ out : List (PrintfCall K), main A eps sig (Fp.fin R) fuel = some (out, 0)
      ∧ ((∃ (k : ℕ) (V : Fp K), out.tail[k]? = some (dataCall (Fp.fin 0) V))
          ↔ ∃ n : ℤ, (n : K) = r)
      ∧ (∀ n : ℕ, (n : K) = r → out.tail[n]? = some (dataCall (Fp.fin 0) Fp.nan))
      ∧ (∀ (k : ℕ) (V : Fp K), out.tail[k]? = some (dataCall (Fp.fin 0) V) → (k : K) = r)
      ∧ (∀ (k l : ℕ) (V W : Fp K), out.tail[k]? = some (dataCall (Fp.fin 0) V) →
          out.tail[l]? = some (dataCall (Fp.fin 0) W) → k = l) := by
  have hc : 0 ≤ ⌈2 * r⌉ := Int.ceil_nonneg (by linarith)
  have hidx : ∀ (k : ℕ) (V : Fp K),
      (sweepLines A eps sig (-r) ⌈2 * r⌉.toNat)[k]? = some (dataCall (Fp.fin 0) V) →
        (k : K) = r := by
    intro k V h
    rw [sweepLines_get] at h
    split_ifs at h with hk
    have := dataCall_distance_inj _ _ _ _ (Option.some.inj h)
    linarith
  have hline : ∀ n : ℕ, (n : K) = r →
      (sweepLines A eps sig (-r) ⌈2 * r⌉.toNat)[n]? = some (dataCall (Fp.fin 0) Fp.nan) := by
    intro n hn
    have h1 : ((n : ℤ) : K) < 2 * r := by
      rw [Int.cast_natCast, hn]
      linarith
    have h2 : (n : ℤ) < ⌈2 * r⌉ := Int.lt_ceil.2 h1
    have h3 : n < ⌈2 * r⌉.toNat := by omega
    have h0 : -r + (n : K) = 0 := by rw [hn]; ring
    rw [sweepLines_get, if_pos h3, h0, lennard_jones_zero]
  refine ⟨_, main_of_rounded_bound A eps sig R r hcast hr hstep fuel hfuel, ?_, ?_, ?_, ?_⟩
  · rw [List.tail_cons]
    constructor
    · rintro ⟨k, V, h⟩
      exact ⟨(k : ℤ), by rw [Int.cast_natCast]; exact hidx k V h⟩
    · rintro ⟨n, hn⟩
      have hnpos : 0 < n := by
        have : (0 : K) < (n : K) := by rw [hn]; exact hr
        exact Int.cast_pos.1 this
      refine ⟨n.toNat, Fp.nan, hline n.toNat ?_⟩
      have : ((n.toNat : ℕ) : ℤ) = n := Int.toNat_of_nonneg (le_of_lt hnpos)
      rw [← hn, ← this, Int.cast_natCast, this]
  · rw [List.tail_cons]
    exact hline
  · rw [List.tail_cons]
    exact hidx
  · rw [List.tail_cons]
    intro k l V W hk hl
    have h1 := hidx k V hk
    have h2 := hidx l W hl
    exact Nat.cast_injective (h1.trans h2.symm)

/-- Witness of C14: the bound `1 + 2^-30`, whose `float` value is 1, in IEEE-754
arithmetic with the program's constants. -/
theorem sweep_zero_line_witness :
    (Arith.ieee (K := ℚ)).toFloat (1073741825 / 1073741824) = Fp.fin 1
      ∧ (0 : ℚ) < 1
      ∧ (∀ k : ℕ, k < ⌈2 * (1 : ℚ)⌉.toNat →
          (Arith.ieee (K := ℚ)).toFloat (-1 + (k : ℚ) + 1) = Fp.fin (-1 + (k : ℚ) + 1))
      ∧ ⌈2 * (1 : ℚ)⌉.toNat < 3
      ∧ ∃ out : List (PrintfCall ℚ),
          main Arith.ieee epsilon sigma (Fp.fin (1073741825 / 1073741824)) 3 = some (out, 0)
        ∧ ((∃ (k : ℕ) (V : Fp ℚ), out.tail[k]? = some (dataCall (Fp.fin 0) V))
            ↔ ∃ n : ℤ, (n : ℚ) = 1)
        ∧ (∀ n : ℕ, (n : ℚ) = 1 → out.tail[n]? = some (dataCall (Fp.fin 0) Fp.nan))
        ∧ (∀ (k : ℕ) (V : Fp ℚ), out.tail[k]? = some (dataCall (Fp.fin 0) V) → (k : ℚ) = 1)
        ∧ (∀ (k l : ℕ) (V W : Fp ℚ), out.tail[k]? = some (dataCall (Fp.fin 0) V) →
            out.tail[l]? = some (dataCall (Fp.fin 0) W) → k = l) :=
  ⟨toFloat32_near_one, one_pos, two_steps_exact, by rw [ceil_two_mul_one]; norm_num,
    sweep_zero_line Arith.ieee epsilon sigma (1073741825 / 1073741824) 1 toFloat32_near_one
      one_pos two_steps_exact 3 (by rw [ceil_two_mul_one]; norm_num)⟩

/-- C10, amended: the output is the header line `Lennard-Jones Potential` followed by one
line per sample, and every data line is the text `r = `, the `%f` rendering of the
distance, ` Angstrom, V_lg = `, the `%E` rendering of the potential of that distance, and
` kJ/mol`, with nothing else in between.  For every bound whose `float` value `r` is
positive and whose counter increments are all exact, `main` returns (with enough fuel) and
these are the lines of the distances `-r`, `-r + 1`, ...; for every bound that is not
positive it returns with the header line alone; and whatever run returns, its lines have
this form. -/
theorem output_format {K : Type} [LinearOrderedField K] [FloorRing K] (A : Arith K)
    (eps sig : Fp K) (R r : K) (hcast : A.toFloat R = Fp.fin r) (hr : 0 < r)
    (hstep : ∀ k : ℕ, k < ⌈2 * r⌉.toNat → A.toFloat (-r + k + 1) = Fp.fin (-r + k + 1))
    (fuel : ℕ) (hfuel : ⌈2 * r⌉.toNat < fuel) (conv : Char → Fp K → String) :
    (∃ out : List (PrintfCall K), main A eps sig (Fp.fin R) fuel = some (out, 0)
        ∧ out.map (PrintfCall.render conv)
          = "Lennard-Jones Potential\n" :: (List.range ⌈2 * r⌉.toNat).map fun (k : ℕ) =>
              "r = " ++ conv 'f' (Fp.fin (-r + (k : K))) ++ " Angstrom, V_lg = "
                ++ conv 'E' (lennard_jones A eps sig (Fp.fin (-r + (k : K)))) ++ " kJ/mol\n")
      ∧ (∀ R' : K, R' ≤ 0 → ∃ out : List (PrintfCall K),
          main Arith.ieee eps sig (Fp.fin R') fuel = some (out, 0)
            ∧ out.map (PrintfCall.render conv) = ["Lennard-Jones Potential\n"])
      ∧ (∀ (arg : Fp K) (n : ℕ) (out : List (PrintfCall K)) (status : ℤ),
          main A eps sig arg n = some (out, status) →
          ∃ samples : List (Fp K),
            out.map (PrintfCall.render conv)
              = "Lennard-Jones Potential\n" :: samples.map fun i =>
                  "r = " ++ conv 'f' i ++ " Angstrom, V_lg = "
                    ++ conv 'E' (lennard_jones A eps sig i) ++ " kJ/mol\n") := by
  refine ⟨⟨_, main_of_rounded_bound A eps sig R r hcast hr hstep fuel hfuel, ?_⟩, ?_, ?_⟩
  · rw [List.map_cons, render_headerCall, sweepLines, List.map_map]
    congr 1
    apply List.map_congr_left
    intro k _
    simp only [Function.comp, render_dataCall]
  · intro R' hR'
    obtain ⟨f, rfl⟩ : ∃ f, fuel = f + 1 := ⟨fuel - 1, by omega⟩
    have h : Fp.lt (Fp.neg (Fp.cast (Arith.ieee (K := K)).toFloat (Fp.fin R')))
        (Fp.cast (Arith.ieee (K := K)).toFloat (Fp.fin R')) = false :=
      lt_neg_self_of_nonpos _ (roundTo_nonpos (K := K) 24 (-149) 128 R' hR')
    refine ⟨_, main_not_entered Arith.ieee eps sig _ h f, ?_⟩
    rw [List.map_cons, List.map_nil, render_headerCall]
  · intro arg n out status h
    unfold main at h
    simp only [Option.map_eq_some', Prod.mk.injEq] at h
    obtain ⟨res, hres, rfl, _⟩ := h
    obtain ⟨is, rfl⟩ := sweep_output_shape A eps sig _ _ _ _ _ hres
    refine ⟨is, ?_⟩
    rw [List.singleton_append, List.map_cons, render_headerCall, List.map_map]
    congr 1
    apply List.map_congr_left
    intro i _
    simp only [Function.comp, render_dataCall]

/-- Witness of C10: the run for the bound 1, every number rendered as `?`. -/
theorem output_format_witness :
    (Arith.ieee (K := ℚ)).toFloat 1 = Fp.fin 1
      ∧ (0 : ℚ) < 1
      ∧ (∀ k : ℕ, k < ⌈2 * (1 : ℚ)⌉.toNat →
          (Arith.ieee (K := ℚ)).toFloat (-1 + (k : ℚ) + 1) = Fp.fin (-1 + (k : ℚ) + 1))
      ∧ ⌈2 * (1 : ℚ)⌉.toNat < 3
      ∧ ∃ out : List (PrintfCall ℚ), main Arith.ieee epsilon sigma (Fp.fin 1) 3 = some (out, 0)
        ∧ out.map (PrintfCall.render fun _ _ => "?")
          = "Lennard-Jones Potential\n" :: (List.range ⌈2 * (1 : ℚ)⌉.toNat).map fun (k : ℕ) =>
              "r = " ++ (fun (_ : Char) (_ : Fp ℚ) => "?") 'f' (Fp.fin (-1 + (k : ℚ)))
                ++ " Angstrom, V_lg = "
                ++ (fun (_ : Char) (_ : Fp ℚ) => "?") 'E'
                    (lennard_jones Arith.ieee epsilon sigma (Fp.fin (-1 + (k : ℚ))))
                ++ " kJ/mol\n" :=
  ⟨toFloat32_one, one_pos, two_steps_exact, by rw [ceil_two_mul_one]; norm_num,
    (output_format Arith.ieee epsilon sigma 1 1 toFloat32_one one_pos two_steps_exact 3
      (by rw [ceil_two_mul_one]; norm_num) fun _ _ => "?").1⟩

end LennardJones
